import Mathlib

/-! Post-generation pipeline of `pkg/typegen/generate.go`.

A shallow embedding of the text pipeline of the type generator
(`filterByWhitelist`, `filterInterfaceTypes`, `deduplicateTypes` and the name
extraction helpers) together with theorems about it.

Conventions of the embedding:

* a Go `string` is a list of characters (`Str`); the prefixes, separators and
  delimiters the code looks for are all ASCII;
* a `*regexp.Regexp` used only through `MatchString` is an optional predicate
  on strings (`none` is the `nil` pointer);
* a Go `map[string]struct{}` is a duplicate-free list with insertion at the
  end; a `map[string]V` is an association list in which the most recent
  binding of a key shadows the older ones;
* the order in which `range` visits a map is not specified by Go; the
  breadth-first loop takes it as a parameter (`MapOrder`).
-/

namespace Typegen

/-- A Go string, as the list of its characters. -/
abbrev Str := List Char

/-! ## The `strings` helpers used by the pipeline -/

/-- Analogue of `strings.Split(s, "\n")`: one more piece than there are line feeds. -/
def splitLines : Str → List Str
  | [] => [[]]
  | c :: cs =>
    if c = '\n' then [] :: splitLines cs
    else
      match splitLines cs with
      | [] => [[c]]
      | l :: ls => (c :: l) :: ls

/-- Analogue of `strings.Join(xs, "\n")`. -/
def joinLines : List Str → Str
  | [] => []
  | [l] => l
  | l :: m :: ls => l ++ '\n' :: joinLines (m :: ls)

/-- Analogue of `strings.HasPrefix(s, p)`. -/
def hasPrefix (s p : Str) : Bool := p.isPrefixOf s

/-- Analogue of `strings.TrimPrefix(s, p)`. -/
def trimPrefix (s p : Str) : Str := if hasPrefix s p then s.drop p.length else s

/-- Analogue of `unicode.IsSpace`, the white space `strings.TrimSpace` removes. -/
def isSpace (c : Char) : Bool :=
  let n := c.toNat
  (9 ≤ n && n ≤ 13) || n == 32 || n == 0x85 || n == 0xA0 || n == 0x1680 ||
  (0x2000 ≤ n && n ≤ 0x200A) || n == 0x2028 || n == 0x2029 || n == 0x202F ||
  n == 0x205F || n == 0x3000

/-- Analogue of `strings.TrimSpace`. -/
def trimSpace (s : Str) : Str :=
  ((s.dropWhile isSpace).reverse.dropWhile isSpace).reverse

/-! ## Name extraction -/

def introInterface : Str := "export interface ".toList
def introType : Str := "export type ".toList

/-- The test `strings.HasPrefix(line, "export interface ") ||
strings.HasPrefix(line, "export type ")` of the interface filter and of the
deduplicator. -/
def isDeclLine (line : Str) : Bool :=
  hasPrefix line introInterface || hasPrefix line introType

/-- Source: `extractTypeName`. Both introducers are trimmed in turn, then the
name runs up to the first blank, brace, equals sign or angle bracket. -/
def extractTypeName (line : Str) : Str :=
  let line := trimPrefix line introInterface
  let line := trimPrefix line introType
  line.takeWhile (fun ch => !(ch == ' ' || ch == '{' || ch == '=' || ch == '<'))

/-- The introducers `extractExportName` tries, in order. -/
def exportPrefixes : List Str :=
  ["export interface ".toList, "export type ".toList, "export const ".toList,
   "export enum ".toList, "export class ".toList]

/-- The loop of `extractExportName` over the remaining introducers. -/
def extractExportNameFrom (line : Str) : List Str → Str
  | [] => []
  | pfx :: rest =>
    if hasPrefix line pfx then
      (trimPrefix line pfx).takeWhile
        (fun ch => !(ch == ' ' || ch == '{' || ch == '=' || ch == '<' || ch == '('))
    else extractExportNameFrom line rest

/-- Source: `extractExportName`. -/
def extractExportName (line : Str) : Str := extractExportNameFrom line exportPrefixes

/-! ## Sets and maps -/

/-- Insertion into a `map[string]struct{}`: nothing changes when the key is there. -/
def setInsert (s : List Str) (k : Str) : List Str := if k ∈ s then s else s ++ [k]

/-- The assignment `m[k] = v` on a `map[string]V`: the new binding shadows the old. -/
def mapSet (m : List (Str × List Str)) (k : Str) (v : List Str) : List (Str × List Str) :=
  (k, v) :: m

/-- The read `m[k]` of a `map[string]map[string]struct{}`: a key that is not
bound reads as the nil map, which has no element. -/
def mapGet (m : List (Str × List Str)) (k : Str) : List Str := (m.lookup k).getD []

/-- An order in which `range` visits the elements of the reference set read
under a name: any rearrangement of the set. -/
structure MapOrder where
  iter : Str → List Str → List Str
  perm : ∀ k s, (iter k s).Perm s

/-- The visiting order that follows insertion. -/
def MapOrder.insertion : MapOrder := ⟨fun _ s => s, fun _ _ => List.Perm.refl _⟩

instance : Inhabited MapOrder := ⟨MapOrder.insertion⟩

/-! ## Tokens: `regexp.MustCompile("\\b[A-Za-z_][A-Za-z0-9_]*\\b").FindAllString` -/

/-- The class `[A-Za-z0-9_]`, which is also the word class of `\b`. -/
def isWordChar (c : Char) : Bool :=
  ('A' ≤ c && c ≤ 'Z') || ('a' ≤ c && c ≤ 'z') || ('0' ≤ c && c ≤ '9') || c == '_'

/-- The class `[A-Za-z_]`. -/
def isIdentStart (c : Char) : Bool :=
  ('A' ≤ c && c ≤ 'Z') || ('a' ≤ c && c ≤ 'z') || c == '_'

/-- The maximal runs of word characters of a line, left to right; `cur` is the
run being read. -/
def wordRunsAux : Str → Str → List Str
  | cur, [] => if cur = [] then [] else [cur]
  | cur, c :: cs =>
    if isWordChar c then wordRunsAux (cur ++ [c]) cs
    else if cur = [] then wordRunsAux [] cs
    else cur :: wordRunsAux [] cs

def wordRuns (line : Str) : List Str := wordRunsAux [] line

/-- All matches of `\b[A-Za-z_][A-Za-z0-9_]*\b` in a line. A match can only
start at a word boundary, so at the start of a maximal run of word characters,
and must then begin with a letter or an underscore; the greedy star followed by
`\b` takes the run to its end. The matches are therefore the maximal runs that
do not begin with a digit. -/
def findAllTokens (line : Str) : List Str :=
  (wordRuns line).filter (fun run => match run with
    | [] => false
    | c :: _ => isIdentStart c)

/-! ## `filterByWhitelist` -/

/-- Source: the local type `tsBlock` of `filterByWhitelist`. -/
structure TsBlock where
  source : Str
  lines : List Str
  name : Str
  deriving DecidableEq, Repr

def fromMarker : Str := "// From ".toList

/-- The variables `header`, `blocks` and `current` of the splitting loop. -/
structure ParseState where
  header : List Str
  blocks : List TsBlock
  current : Option TsBlock
  deriving DecidableEq, Repr

/-- One turn of the splitting loop of `filterByWhitelist`. -/
def parseStep (st : ParseState) (line : Str) : ParseState :=
  if hasPrefix line fromMarker then
    { header := st.header
      blocks := match st.current with
        | some cur => st.blocks ++ [cur]
        | none => st.blocks
      current := some { source := trimPrefix line fromMarker, lines := [line], name := [] } }
  else
    match st.current with
    | none => { st with header := st.header ++ [line] }
    | some cur => { st with current := some { cur with lines := cur.lines ++ [line] } }

/-- The splitting loop and the final `append` of the open block. -/
def parseBlocks (lines : List Str) : List Str × List TsBlock :=
  let st := lines.foldl parseStep { header := [], blocks := [], current := none }
  match st.current with
  | some cur => (st.header, st.blocks ++ [cur])
  | none => (st.header, st.blocks)

/-- The inner loop that names a block: the first line whose export name is
not empty gives the name. -/
def firstExportName : List Str → Str
  | [] => []
  | line :: rest =>
    let name := extractExportName line
    if name ≠ [] then name else firstExportName rest

/-- The naming loop: every block receives its name. -/
def nameBlocks (blocks : List TsBlock) : List TsBlock :=
  blocks.map (fun b => { b with name := firstExportName b.lines })

/-- One turn of the naming loop on the set `exportNames`. -/
def exportNamesStep (names : List Str) (b : TsBlock) : List Str :=
  if b.name ≠ [] then setInsert names b.name else names

/-- The set `exportNames` filled by the naming loop. -/
def exportNamesOf (blocks : List TsBlock) : List Str := blocks.foldl exportNamesStep []

/-- The test that skips a line when references are collected. -/
def isCommentLine (line : Str) : Bool :=
  let trimmed := trimSpace line
  hasPrefix trimmed "//".toList || hasPrefix trimmed "/*".toList || hasPrefix trimmed "*".toList

/-- What the reference loop does with one token of a line. -/
def refsTokenStep (exportNames : List Str) (name : Str) (refs : List Str) (token : Str) :
    List Str :=
  if token = name then refs
  else if token ∈ exportNames then setInsert refs token
  else refs

/-- What the reference loop does with one line of a block. -/
def refsLineStep (exportNames : List Str) (name : Str) (refs : List Str) (line : Str) :
    List Str :=
  if isCommentLine line then refs
  else (findAllTokens line).foldl (refsTokenStep exportNames name) refs

/-- The set `refs` built for one block. -/
def blockRefs (exportNames : List Str) (block : TsBlock) : List Str :=
  block.lines.foldl (refsLineStep exportNames block.name) []

/-- One turn of the loop that fills `refsByName`. -/
def refsByNameStep (exportNames : List Str) (m : List (Str × List Str)) (b : TsBlock) :
    List (Str × List Str) :=
  if b.name = [] then m else mapSet m b.name (blockRefs exportNames b)

/-- The map `refsByName`. -/
def refsByNameOf (exportNames : List Str) (blocks : List TsBlock) : List (Str × List Str) :=
  blocks.foldl (refsByNameStep exportNames) []

/-- Source: `matchesWhitelist`. -/
def matchesWhitelist (source name : Str) (fileRegexp typeRegexp : Option (Str → Bool)) : Bool :=
  if (match fileRegexp with
      | some re => !re source
      | none => false) then false
  else
    match typeRegexp with
    | none => true
    | some te => if name = [] then false else te name

/-- One turn of the loop that seeds `selected` and `queue`. -/
def selectStep (fileRegexp typeRegexp : Option (Str → Bool)) (st : List Str × List Str)
    (b : TsBlock) : List Str × List Str :=
  if b.name = [] then st
  else if matchesWhitelist b.source b.name fileRegexp typeRegexp then
    if b.name ∈ st.1 then st else (st.1 ++ [b.name], st.2 ++ [b.name])
  else st

/-- The loop that seeds `selected` and `queue`. -/
def initialSelection (blocks : List TsBlock) (fileRegexp typeRegexp : Option (Str → Bool)) :
    List Str × List Str :=
  blocks.foldl (selectStep fileRegexp typeRegexp) ([], [])

/-- One turn of the inner loop of the expansion: a reference that is not
selected yet is selected and enqueued. -/
def visitStep (st : List Str × List Str) (ref : Str) : List Str × List Str :=
  if ref ∈ st.1 then st else (st.1 ++ [ref], st.2 ++ [ref])

/-- The inner loop of the expansion over the references of the dequeued name,
in the order given. -/
def visitRefs (refs : List Str) (st : List Str × List Str) : List Str × List Str :=
  refs.foldl visitStep st

/-- The loop `for len(queue) > 0` with a bound on the number of turns: `none`
when the bound is reached with names still queued. -/
def expandLoop (ord : MapOrder) (refsByName : List (Str × List Str)) :
    Nat → List Str → List Str → Option (List Str)
  | _, selected, [] => some selected
  | 0, _, _ :: _ => none
  | fuel + 1, selected, name :: queue =>
    let st := visitRefs (ord.iter name (mapGet refsByName name)) (selected, queue)
    expandLoop ord refsByName fuel st.1 st.2

/-- The set `selected` when the expansion loop ends. The loop is given as many
turns as there are export names, which is enough (`expandLoop_spec`,
`mem_selectedNames`). -/
def selectedNames (ord : MapOrder) (blocks : List TsBlock)
    (fileRegexp typeRegexp : Option (Str → Bool)) : List Str :=
  let exportNames := exportNamesOf blocks
  let refsByName := refsByNameOf exportNames blocks
  let init := initialSelection blocks fileRegexp typeRegexp
  match expandLoop ord refsByName exportNames.length init.1 init.2 with
  | some selected => selected
  | none => init.1

/-- One turn of the loop that builds `result` after the header. -/
def emitStep (selected : List Str) (result : List Str) (b : TsBlock) : List Str :=
  if b.name = [] then result
  else if b.name ∈ selected then result ++ b.lines
  else result

/-- The loop that builds `result` after the header. -/
def emitBlocks (selected : List Str) (blocks : List TsBlock) : List Str :=
  blocks.foldl (emitStep selected) []

/-- The slice `result` of `filterByWhitelist` when a pattern is given. -/
def whitelistLines (ord : MapOrder) (content : Str)
    (fileRegexp typeRegexp : Option (Str → Bool)) : List Str :=
  let parsed := parseBlocks (splitLines content)
  let blocks := nameBlocks parsed.2
  parsed.1 ++ emitBlocks (selectedNames ord blocks fileRegexp typeRegexp) blocks

/-- Source: `filterByWhitelist`. -/
def filterByWhitelist (ord : MapOrder) (content : Str)
    (fileRegexp typeRegexp : Option (Str → Bool)) : Str :=
  match fileRegexp, typeRegexp with
  | none, none => content
  | _, _ => joinLines (whitelistLines ord content fileRegexp typeRegexp)

/-! ## `filterInterfaceTypes` -/

/-- The variables of the loop of `filterInterfaceTypes`; `current` is `none`
while the slice is nil. -/
structure IfaceState where
  result : List Str
  pending : List Str
  current : Option (List Str)
  currentName : Str
  seenType : Bool
  deriving DecidableEq, Repr

/-- The closure `flushCurrent`. -/
def flushCurrent (excluded : List Str) (st : IfaceState) : IfaceState :=
  match st.current with
  | none => st
  | some cur =>
    { st with
      result := if st.currentName ∈ excluded then st.result else st.result ++ cur
      current := none
      currentName := [] }

/-- One turn of the loop of `filterInterfaceTypes`. -/
def ifaceStep (excluded : List Str) (st : IfaceState) (line : Str) : IfaceState :=
  if isDeclLine line then
    let st1 :=
      if st.current.isSome then flushCurrent excluded st
      else if !st.seenType && st.pending ≠ [] then
        { st with result := st.result ++ st.pending, pending := [] }
      else st
    { st1 with
      seenType := true
      currentName := extractTypeName line
      current := some ((st1.current.getD []) ++ st1.pending ++ [line])
      pending := [] }
  else
    match st.current with
    | some cur => { st with current := some (cur ++ [line]) }
    | none =>
      if st.seenType then { st with pending := st.pending ++ [line] }
      else { st with result := st.result ++ [line] }

/-- The start state of the loop of `filterInterfaceTypes`. -/
def ifaceInit : IfaceState :=
  { result := [], pending := [], current := none, currentName := [], seenType := false }

/-- What `filterInterfaceTypes` does after its loop. -/
def ifaceFinish (excluded : List Str) (st : IfaceState) : IfaceState :=
  if st.current.isSome then flushCurrent excluded st
  else if !st.seenType && st.pending ≠ [] then { st with result := st.result ++ st.pending }
  else st

/-- The slice `result` of `filterInterfaceTypes` for a non-empty exclusion set. -/
def ifaceLines (excluded : List Str) (lines : List Str) : List Str :=
  (ifaceFinish excluded (lines.foldl (ifaceStep excluded) ifaceInit)).result

/-- Source: `filterInterfaceTypes`. -/
def filterInterfaceTypes (content : Str) (excluded : List Str) : Str :=
  if excluded = [] then content
  else joinLines (ifaceLines excluded (splitLines content))

/-! ## `deduplicateTypes` -/

/-- The variables of the loop of `deduplicateTypes`; `seen` lists the names
bound to `true`. -/
structure DedupState where
  result : List Str
  seen : List Str
  skip : Bool
  pendingComment : List Str
  deriving DecidableEq, Repr

/-- The test that sends a line to `pendingComment`. -/
def isDedupComment (line : Str) : Bool :=
  hasPrefix line "// From ".toList || hasPrefix line "/**".toList ||
  hasPrefix line " *".toList || hasPrefix line " */".toList

/-- One turn of the loop of `deduplicateTypes`. -/
def dedupStep (st : DedupState) (line : Str) : DedupState :=
  if isDeclLine line then
    let typeName := extractTypeName line
    if typeName ∈ st.seen then
      { st with skip := true, pendingComment := [] }
    else
      { result := st.result ++ st.pendingComment ++ [line]
        seen := st.seen ++ [typeName]
        skip := false
        pendingComment := [] }
  else if isDedupComment line then
    if st.skip then st
    else { st with pendingComment := st.pendingComment ++ [line] }
  else if line = [] then
    if st.skip then { st with skip := false }
    else if st.pendingComment ≠ [] then
      { st with pendingComment := st.pendingComment ++ [line] }
    else { st with result := st.result ++ [line] }
  else
    if st.skip then st
    else { st with result := st.result ++ [line] }

/-- The state of `deduplicateTypes` after its loop. -/
def dedupRun (lines : List Str) : DedupState :=
  lines.foldl dedupStep { result := [], seen := [], skip := false, pendingComment := [] }

/-- The slice `result` of `deduplicateTypes`. -/
def dedupLines (lines : List Str) : List Str := (dedupRun lines).result

/-- Source: `deduplicateTypes`. -/
def deduplicateTypes (content : Str) : Str := joinLines (dedupLines (splitLines content))

/-- The tail of `GenerateTypesWithOptions` once the engine has serialized its
output: the whitelist filter (only when a pattern is given, which is when
`filterByWhitelist` does anything), the interface filter, the deduplicator. -/
def shapeOutput (ord : MapOrder) (output : Str) (fileRegexp typeRegexp : Option (Str → Bool))
    (interfaceTypes : List Str) : Str :=
  deduplicateTypes (filterInterfaceTypes (filterByWhitelist ord output fileRegexp typeRegexp)
    interfaceTypes)

/-! ## Vocabulary of the statements -/

/-- The declaration lines of a sequence of lines, in order. -/
def declLines (lines : List Str) : List Str := lines.filter isDeclLine

/-- The names declared by a sequence of lines, in order, repetitions included. -/
def declNames (lines : List Str) : List Str := (declLines lines).map extractTypeName

/-- Of a sequence of declaration lines, those whose name is not in `earlier`
and is not declared by a line before them in the sequence. -/
def firstOccurrences : List Str → List Str → List Str
  | _, [] => []
  | earlier, d :: ds =>
    if extractTypeName d ∈ earlier then firstOccurrences earlier ds
    else d :: firstOccurrences (earlier ++ [extractTypeName d]) ds

/-- What can wait in `pendingComment`: nothing, or a comment line followed by
comment lines and empty lines, none of them a declaration. -/
def PendingShape (pending : List Str) : Prop :=
  (∀ l ∈ pending, isDeclLine l = false ∧ (isDedupComment l = true ∨ l = [])) ∧
  (pending = [] ∨ ∃ c rest, pending = c :: rest ∧ isDedupComment c = true)

/-- A state of the deduplicator whose `result` the deduplicator maps to itself. -/
def DedupStable (st : DedupState) : Prop :=
  dedupRun st.result =
    { result := st.result, seen := st.seen, skip := false, pendingComment := [] } ∧
  PendingShape st.pendingComment

/-- What holds of the state of `filterInterfaceTypes` at every turn: nothing
waits in `pending`, a declaration has been read only if a block is open, the
declarations kept so far are not excluded, and every declaration of the open
block bears the name under which the block will be judged. -/
def IfaceInv (excluded : List Str) (st : IfaceState) : Prop :=
  st.pending = [] ∧
  (st.seenType = true → st.current.isSome = true) ∧
  (∀ l ∈ st.result, isDeclLine l = true → extractTypeName l ∉ excluded) ∧
  (∀ cur, st.current = some cur → ∀ l ∈ cur, isDeclLine l = true →
    extractTypeName l = st.currentName)

/-- The lines the interface filter still holds: those kept and the open block. -/
def ifaceHeld (st : IfaceState) : List Str := st.result ++ st.current.getD []

/-- The lines of a sequence of blocks, block after block. -/
def concatLines : List TsBlock → List Str
  | [] => []
  | b :: bs => b.lines ++ concatLines bs

/-- The lines the splitting loop has read: header, closed blocks, open block. -/
def parsedLines (st : ParseState) : List Str :=
  st.header ++ concatLines st.blocks ++
    (match st.current with
     | some cur => cur.lines
     | none => [])

/-- The named blocks of a raw text, as `filterByWhitelist` sees them. -/
def blocksOf (raw : Str) : List TsBlock := nameBlocks (parseBlocks (splitLines raw)).2

/-- The name `x` is in the reference set that `refsByName` holds for `n`. -/
def RefEdge (refsByName : List (Str × List Str)) (n x : Str) : Prop :=
  x ∈ mapGet refsByName n

/-- The name `x` is reached from `n` by following `refsByName` any number of times. -/
def Reaches (refsByName : List (Str × List Str)) (n x : Str) : Prop :=
  Relation.ReflTransGen (RefEdge refsByName) n x

/-- Block `a` refers to block `b`: both are named and the name of `b` is a
whole-word token of a line of `a` that is not a comment line. -/
def BlockRefers (a b : TsBlock) : Prop :=
  a.name ≠ [] ∧ b.name ≠ [] ∧
    ∃ line ∈ a.lines, isCommentLine line = false ∧ b.name ∈ findAllTokens line

/-- A reference from a block of the text to a block of the text. -/
def RefersIn (blocks : List TsBlock) (a b : TsBlock) : Prop :=
  a ∈ blocks ∧ b ∈ blocks ∧ BlockRefers a b

/-- The names of the named blocks, one entry per block. -/
def namedBlockNames (blocks : List TsBlock) : List Str :=
  (blocks.filter (fun b => decide (b.name ≠ []))).map (fun b => b.name)

/-- The lines of a block as the splitting loop leaves them: an origin marker
line, then lines that are not origin markers. -/
def BlockShape (b : TsBlock) : Prop :=
  ∃ marker rest, b.lines = marker :: rest ∧ hasPrefix marker fromMarker = true ∧
    ∀ l ∈ rest, hasPrefix l fromMarker = false

/-- What holds of the splitting loop at every turn. -/
def ParseInv (st : ParseState) : Prop :=
  (∀ l ∈ st.header, hasPrefix l fromMarker = false) ∧
  (∀ b ∈ st.blocks, BlockShape b) ∧
  (∀ c, st.current = some c → BlockShape c)

/-- A block named `n` has the other name `x` as a whole-word token on a line
that is not a comment line. -/
def NameRefers (blocks : List TsBlock) (n x : Str) : Prop :=
  ∃ c ∈ blocks, c.name = n ∧ n ≠ [] ∧ x ≠ n ∧
    ∃ line ∈ c.lines, isCommentLine line = false ∧ x ∈ findAllTokens line

/-- A block of the output convention, by its parts: the text after `// From `
on the marker line, the documentation comment lines, the declaration line and
the body lines. An empty line ends the block. -/
structure DocBlock where
  origin : Str
  comments : List Str
  decl : Str
  body : List Str
  deriving DecidableEq, Repr

/-- The lines of a block of the output convention. -/
def DocBlock.lines (b : DocBlock) : List Str :=
  (fromMarker ++ b.origin) :: (b.comments ++ [b.decl] ++ b.body ++ [[]])

/-- The lines of a sequence of blocks of the output convention. -/
def docLines : List DocBlock → List Str
  | [] => []
  | b :: bs => b.lines ++ docLines bs

/-- The blocks whose name is not in `earlier` and is not declared by a block
before them in the sequence. -/
def firstBlocks : List Str → List DocBlock → List DocBlock
  | _, [] => []
  | earlier, b :: bs =>
    if extractTypeName b.decl ∈ earlier then firstBlocks earlier bs
    else b :: firstBlocks (earlier ++ [extractTypeName b.decl]) bs

/-- No part of the block holds a line feed. -/
def DocBlock.oneLineEach (b : DocBlock) : Bool :=
  !b.origin.contains '\n' && b.comments.all (fun c => !c.contains '\n') &&
  !b.decl.contains '\n' && b.body.all (fun l => !l.contains '\n')

/-- A block as C9 describes it: comment lines are `//` line comments or lines
of a `/** ... */` comment, the declaration line begins with an introducer, the
body lines are neither empty nor declarations. -/
def DocBlock.asClaimed (b : DocBlock) : Bool :=
  b.oneLineEach &&
  b.comments.all (fun c => hasPrefix c "//".toList || hasPrefix c "/**".toList ||
    hasPrefix c " *".toList || hasPrefix c " */".toList) &&
  isDeclLine b.decl &&
  b.body.all (fun l => l ≠ [] && !isDeclLine l)

/-- A block as the deduplicator reads it: comment lines are those it holds
back (lines of a `/** ... */` comment, or further origin markers), the
declaration line begins with an introducer, the body lines are neither empty,
nor declarations, nor lines it would hold back. -/
def DocBlock.asRead (b : DocBlock) : Bool :=
  b.oneLineEach &&
  b.comments.all (fun c => isDedupComment c) &&
  isDeclLine b.decl &&
  b.body.all (fun l => l ≠ [] && !isDeclLine l && !isDedupComment l)

/-! ## Sample texts -/

/-- A text of four blocks: `A` refers to `B`, `B` refers to `C`, `D` stands alone. -/
def rawChain : Str :=
  ("// From foo/a.go\nexport interface A \x7b\n  b: B;\n\x7d\n\n" ++
   "// From foo/b.go\nexport interface B \x7b\n  c: C;\n\x7d\n\n" ++
   "// From foo/c.go\nexport type C = string;\n\n" ++
   "// From foo/d.go\nexport type D = number;\n").toList

def chainA : TsBlock :=
  { source := "foo/a.go".toList
    lines := ["// From foo/a.go".toList, "export interface A \x7b".toList, "  b: B;".toList,
      "\x7d".toList, []]
    name := "A".toList }

def chainB : TsBlock :=
  { source := "foo/b.go".toList
    lines := ["// From foo/b.go".toList, "export interface B \x7b".toList, "  c: C;".toList,
      "\x7d".toList, []]
    name := "B".toList }

def chainC : TsBlock :=
  { source := "foo/c.go".toList
    lines := ["// From foo/c.go".toList, "export type C = string;".toList, []]
    name := "C".toList }

/-- The name pattern `^A$`. -/
def onlyA : Str → Bool := fun s => s == "A".toList

/-- A text whose first block declares nothing. -/
def rawUnnamed : Str := "// From a\nfoo\n// From b\nexport type B = 1".toList

/-- A text of one block and no header. -/
def rawSingle : Str := "// From a\nexport type A = 1".toList

/-- A pattern that matches every string, such as the empty pattern compiled. -/
def matchAll : Str → Bool := fun _ => true

/-- Two blocks of different origins that declare the same name. -/
def rawDup : Str := "// From foo/a\nexport type X = 1\n// From baz/b\nexport type X = 2".toList

/-- The second block of `rawDup`. -/
def dupSecond : TsBlock :=
  { source := "baz/b".toList
    lines := ["// From baz/b".toList, "export type X = 2".toList]
    name := "X".toList }

/-- The path pattern `^foo/`. -/
def underFoo : Str → Bool := fun s => hasPrefix s "foo/".toList

/-- Two blocks named `Dup` with `/** ... */` comments, then a third block. -/
def blocksDup : List DocBlock :=
  [ { origin := "foo/a.go".toList
      comments := ["/**".toList, " * First.".toList, " */".toList]
      decl := "export interface Dup \x7b".toList
      body := ["  a: string;".toList, "\x7d".toList] },
    { origin := "baz/b.go".toList
      comments := ["/**".toList, " * Second.".toList, " */".toList]
      decl := "export interface Dup \x7b".toList
      body := ["  b: number;".toList, "\x7d".toList] },
    { origin := "baz/c.go".toList
      comments := []
      decl := "export type Other = string;".toList
      body := [] } ]

/-- Two blocks named `Dup`, each documented by a `//` line comment. -/
def blocksLineComment : List DocBlock :=
  [ { origin := "a".toList, comments := ["// first".toList]
      decl := "export type Dup = 1".toList, body := [] },
    { origin := "b".toList, comments := ["// second".toList]
      decl := "export type Dup = 2".toList, body := [] } ]

/-- One block whose body line begins with a blank and a star. -/
def blocksStarBody : List DocBlock :=
  [ { origin := "a".toList, comments := []
      decl := "export type A =".toList, body := [" * 2".toList] } ]

/-- An interface block followed by a type block. -/
def blocksIface : List DocBlock :=
  [ { origin := "a".toList, comments := []
      decl := "export interface A \x7b".toList, body := ["\x7d".toList] },
    { origin := "b".toList, comments := []
      decl := "export type B = string".toList, body := [] } ]

/-! ## `prefixForImportPath` -/

/-- Analogue of `strings.ReplaceAll(s, old, new)` for an `old` of one character. -/
def replaceAll (s : Str) (old : Char) (new : Str) : Str :=
  match s with
  | [] => []
  | c :: cs => if c = old then new ++ replaceAll cs old new else c :: replaceAll cs old new

/-- The relative suffix `rel` of `prefixForImportPath`: the root is trimmed
from the front of the package path, then one slash. -/
def relSuffix (pkgImportPath importPath : Str) : Str :=
  trimPrefix (trimPrefix importPath pkgImportPath) "/".toList

/-- The four `ReplaceAll` calls of `prefixForImportPath`, in order. -/
def sanitizePath (rel : Str) : Str :=
  replaceAll (replaceAll (replaceAll (replaceAll rel '/' "__".toList) '-' "_".toList)
    '.' "_".toList) '@' "_".toList

/-- The test on `first := prefix[0]`: an underscore or an ASCII letter. -/
def isLetterOrUnderscore (first : Char) : Bool :=
  first == '_' || ('A' ≤ first && first ≤ 'Z') || ('a' ≤ first && first ≤ 'z')

/-- The guard of `prefixForImportPath`: `pkg_` is put in front unless the
first character is an underscore or an ASCII letter. -/
def guardFirst (pfx : Str) : Str :=
  match pfx with
  | [] => pfx
  | first :: _ => if !isLetterOrUnderscore first then "pkg_".toList ++ pfx else pfx

/-- Source: `prefixForImportPath`. -/
def prefixForImportPath (pkgImportPath importPath : Str) : Str :=
  let rel := relSuffix pkgImportPath importPath
  if rel = [] then []
  else
    let pfx := sanitizePath rel
    if pfx = [] then []
    else guardFirst pfx ++ "_".toList

/-- What the four `ReplaceAll` calls make of one character. -/
def sanitizeChar (c : Char) : Str :=
  if c = '/' then "__".toList
  else if c = '-' ∨ c = '.' ∨ c = '@' then "_".toList
  else [c]

/-- The string begins with an underscore or an ASCII letter. -/
def startsWithLetterOrUnderscore (s : Str) : Bool :=
  match s with
  | [] => false
  | first :: _ => isLetterOrUnderscore first

/-- None of the characters that the sanitizing maps to an underscore, nor the
underscore itself. -/
@[reducible]
def plainSuffix (rel : Str) : Prop :=
  ∀ c ∈ rel, c ≠ '-' ∧ c ≠ '.' ∧ c ≠ '@' ∧ c ≠ '_'

/-- The lines of a text that precede its first origin marker line. -/
def headerOf (lines : List Str) : List Str :=
  lines.takeWhile (fun l => !hasPrefix l fromMarker)

/-! ## `GenerateTypesWithOptions` -/

/-- Source: the type `Options`. -/
structure Options where
  PkgPath : Str
  PkgDir : Str
  IncludePattern : Str
  IncludeType : Str
  deriving DecidableEq, Repr

/-- A call that `GenerateTypesWithOptions` makes, for the record of the work done. -/
inductive Step where
  | resolvePkgDir
  | resolvePkgPath
  | findPackages
  | collectInterfaceTypeNames
  | newGolangParser
  | includeGenerateWithPrefix (importPath pfx : Str)
  | toTypescript
  | serialize
  | regexpCompile (pattern : Str)
  deriving DecidableEq, Repr

/-- What `GenerateTypesWithOptions` depends on outside the text pipeline: the
file system, the conversion engine, the regular expression compiler and the
order in which maps are visited. An error is given by its message. -/
structure World where
  /-- The part of `resolvePkgDir` after the empty check: `filepath.Abs`, `os.Stat`, `IsDir`. -/
  absDir : Str → Except Str Str
  /-- The function `findModulePath`: the walk upward to `go.mod`. -/
  findModulePath : Str → Except Str Str
  /-- The function `path.Join` of two elements. -/
  pathJoin : Str → Str → Str
  /-- The function `findPackages`: the import paths found under the directory, sorted. -/
  findPackages : Str → Str → Except Str (List Str)
  /-- The function `collectInterfaceTypeNames`: the prefixed names of the interface types. -/
  collectInterfaceTypeNames : Str → Str → Except Str (List Str)
  /-- The call `guts.NewGolangParser()`. -/
  newGolangParser : Except Str Unit
  /-- Whether `IncludeGenerateWithPrefix(importPath, prefix)` returns no error. -/
  includeGenerateWithPrefix : Str → Str → Bool
  /-- The call `ToTypescript()` on a parser that holds the packages given. -/
  toTypescript : List (Str × Str) → Except Str Unit
  /-- The mutations and `Serialize()` for the packages given. -/
  serialize : List (Str × Str) → Except Str Str
  /-- The function `regexp.Compile`. -/
  regexpCompile : Str → Except Str (Str → Bool)
  /-- The order in which `range` visits the reference sets. -/
  order : MapOrder

/-- What `GenerateTypesWithOptions` returns, `err` being `none` for a nil
error, together with the calls made, in order. -/
structure GenResult where
  steps : List Step
  output : Str
  err : Option Str

/-- The return `"", err` after the calls `steps`. -/
def failWith (steps : List Step) (message : Str) : GenResult :=
  { steps := steps, output := [], err := some message }

/-- Analogue of `strings.TrimSuffix(s, suffix)`. -/
def trimSuffix (s suffix : Str) : Str :=
  if suffix.isSuffixOf s then s.take (s.length - suffix.length) else s

/-- Source: `resolvePkgDir`. -/
def resolvePkgDir (w : World) (explicit : Str) : Except Str Str :=
  if explicit = [] then .error "pkg-dir is required".toList else w.absDir explicit

/-- Source: `resolvePkgPath`. -/
def resolvePkgPath (w : World) (pkgDir pkgPath : Str) : Except Str Str :=
  if pkgPath ≠ [] then .ok (trimSuffix pkgPath "/".toList)
  else
    match w.findModulePath pkgDir with
    | .error e => .error e
    | .ok modulePath => .ok (w.pathJoin modulePath "pkg".toList)

/-- The loop over `packages`: the packages the parser holds afterwards, a
package that fails being skipped. -/
def includePackages (w : World) (pkgImportPath : Str) : List Str → List (Str × Str)
  | [] => []
  | importPath :: rest =>
    let pfx := prefixForImportPath pkgImportPath importPath
    if w.includeGenerateWithPrefix importPath pfx then
      (importPath, pfx) :: includePackages w pkgImportPath rest
    else includePackages w pkgImportPath rest

/-- The calls of the loop over `packages`. -/
def includeSteps (pkgImportPath : Str) (packages : List Str) : List Step :=
  packages.map (fun importPath =>
    Step.includeGenerateWithPrefix importPath (prefixForImportPath pkgImportPath importPath))

/-- One of the two `if opts.… != ""` blocks that compile a pattern: the nil
pointer for the empty pattern, which is not compiled. -/
def compileOptional (w : World) (pattern : Str) :
    List Step × Except Str (Option (Str → Bool)) :=
  if pattern = [] then ([], .ok none)
  else
    match w.regexpCompile pattern with
    | .error e => ([Step.regexpCompile pattern], .error e)
    | .ok re => ([Step.regexpCompile pattern], .ok (some re))

/-- The block `if opts.IncludePattern != "" || opts.IncludeType != ""` of
`GenerateTypesWithOptions`. -/
def applyWhitelist (w : World) (opts : Options) (output : Str) : List Step × Except Str Str :=
  if opts.IncludePattern ≠ [] ∨ opts.IncludeType ≠ [] then
    match compileOptional w opts.IncludePattern with
    | (s₁, .error e) => (s₁, .error ("compile include pattern: ".toList ++ e))
    | (s₁, .ok fileRegexp) =>
      match compileOptional w opts.IncludeType with
      | (s₂, .error e) => (s₁ ++ s₂, .error ("compile include type pattern: ".toList ++ e))
      | (s₂, .ok typeRegexp) =>
        (s₁ ++ s₂, .ok (filterByWhitelist w.order output fileRegexp typeRegexp))
  else ([], .ok output)

/-- The part of `GenerateTypesWithOptions` from `guts.NewGolangParser()` on. -/
def generateFrom (w : World) (opts : Options) (pkgImportPath : Str) (packages : List Str)
    (interfaceTypes : List Str) (done : List Step) : GenResult :=
  match w.newGolangParser with
  | .error e => failWith (done ++ [Step.newGolangParser]) ("create parser: ".toList ++ e)
  | .ok _ =>
    let included := includePackages w pkgImportPath packages
    let done := done ++ [Step.newGolangParser] ++ includeSteps pkgImportPath packages
    match w.toTypescript included with
    | .error e => failWith (done ++ [Step.toTypescript]) ("convert to typescript: ".toList ++ e)
    | .ok _ =>
      match w.serialize included with
      | .error e =>
        failWith (done ++ [Step.toTypescript, Step.serialize]) ("serialize: ".toList ++ e)
      | .ok output =>
        match applyWhitelist w opts output with
        | (s, .error e) => failWith (done ++ [Step.toTypescript, Step.serialize] ++ s) e
        | (s, .ok output) =>
          { steps := done ++ [Step.toTypescript, Step.serialize] ++ s
            output := deduplicateTypes (filterInterfaceTypes output interfaceTypes)
            err := none }

/-- Source: `GenerateTypesWithOptions`. -/
def GenerateTypesWithOptions (w : World) (opts : Options) : GenResult :=
  if opts.PkgDir = [] then failWith [] "pkg-dir is required".toList
  else
    match resolvePkgDir w opts.PkgDir with
    | .error e => failWith [Step.resolvePkgDir] ("resolve pkg dir: ".toList ++ e)
    | .ok pkgDir =>
      match resolvePkgPath w pkgDir opts.PkgPath with
      | .error e =>
        failWith [Step.resolvePkgDir, Step.resolvePkgPath]
          ("resolve pkg import path: ".toList ++ e)
      | .ok pkgImportPath =>
        match w.findPackages pkgDir pkgImportPath with
        | .error e =>
          failWith [Step.resolvePkgDir, Step.resolvePkgPath, Step.findPackages]
            ("find packages: ".toList ++ e)
        | .ok packages =>
          match w.collectInterfaceTypeNames pkgDir pkgImportPath with
          | .error e =>
            failWith [Step.resolvePkgDir, Step.resolvePkgPath, Step.findPackages,
              Step.collectInterfaceTypeNames] ("collect interface types: ".toList ++ e)
          | .ok interfaceTypes =>
            generateFrom w opts pkgImportPath packages interfaceTypes
              [Step.resolvePkgDir, Step.resolvePkgPath, Step.findPackages,
                Step.collectInterfaceTypeNames]

/-- Source: `GenerateTypes`. The fields that are not named hold the empty string. -/
def GenerateTypes (w : World) (pkgPath : Str) : GenResult :=
  GenerateTypesWithOptions w
    { PkgPath := pkgPath, PkgDir := [], IncludePattern := [], IncludeType := [] }

/-- A world in which every call succeeds, the engine serializes one block, and
the pattern `(` does not compile. -/
def sampleWorld : World :=
  { absDir := fun d => .ok d
    findModulePath := fun _ => .ok "example.com/test".toList
    pathJoin := fun a b => a ++ "/".toList ++ b
    findPackages := fun _ root => .ok [root ++ "/foo".toList]
    collectInterfaceTypeNames := fun _ _ => .ok ["foo_Transaction".toList]
    newGolangParser := .ok ()
    includeGenerateWithPrefix := fun _ _ => true
    toTypescript := fun _ => .ok ()
    serialize := fun _ => .ok "// From foo/a.go\nexport interface foo_A \x7b\n\x7d\n".toList
    regexpCompile := fun p =>
      if p = "(".toList then .error "error parsing regexp: missing closing )".toList
      else .ok (fun _ => true)
    order := MapOrder.insertion }

/-- The same world without the root directory. -/
def worldNoDir : World :=
  { sampleWorld with absDir := fun _ => .error "stat pkg directory: no such file".toList }

/-- Options with the invalid path pattern `(`. -/
def optsBadPattern : Options :=
  { PkgPath := [], PkgDir := "pkg".toList, IncludePattern := "(".toList, IncludeType := [] }

/-- The name a sequence of lines gives its block, in words: the export name
of the first line whose export name is not empty, the empty name when there is
no such line. -/
def nameOfLines (lines : List Str) : Str :=
  match lines.find? (fun l => decide (extractExportName l ≠ [])) with
  | some l => extractExportName l
  | none => []

/-- The first line of a sequence that begins with one of the introducers that
`extractExportName` knows. -/
def firstIntroducedLine (lines : List Str) : Option Str :=
  lines.find? (fun l => exportPrefixes.any (fun pfx => hasPrefix l pfx))

/-- A block whose first declaration line has no name after the introducer. -/
def rawEmptyName : Str := "// From a\nexport type \nexport type B = 1".toList

/-- A string that matches `[A-Za-z_][A-Za-z0-9_]*`. -/
def IsIdent (t : Str) : Prop :=
  ∃ c rest, t = c :: rest ∧ isIdentStart c = true ∧ ∀ x ∈ rest, isWordChar x = true

/-- What stands before a whole word: nothing, or a string that ends with a
character outside `[A-Za-z0-9_]`. -/
def EndsAtBoundary (pre : Str) : Prop :=
  pre = [] ∨ ∃ p x, pre = p ++ [x] ∧ isWordChar x = false

/-- What stands after a whole word: nothing, or a string that begins with a
character outside `[A-Za-z0-9_]`. -/
def StartsAtBoundary (post : Str) : Prop :=
  post = [] ∨ ∃ x p, post = x :: p ∧ isWordChar x = false

/-- The string `r` is a maximal run of characters of `[A-Za-z0-9_]` in `line`. -/
def IsWordRun (line r : Str) : Prop :=
  ∃ pre post, line = pre ++ r ++ post ∧ r ≠ [] ∧ (∀ x ∈ r, isWordChar x = true) ∧
    EndsAtBoundary pre ∧ StartsAtBoundary post

/-- The string `t` is a whole word of `line` that begins with a letter or an
underscore: a maximal run of `[A-Za-z0-9_]` whose first character is not a digit. -/
def IsWordToken (line t : Str) : Prop :=
  IsWordRun line t ∧ ∃ c rest, t = c :: rest ∧ isIdentStart c = true

/-- The string `t` is a maximal match of `[A-Za-z_][A-Za-z0-9_]*` in `line`:
an occurrence that matches and lies in no other occurrence that matches. -/
def IsMaximalMatch (line t : Str) : Prop :=
  ∃ pre post, line = pre ++ t ++ post ∧ IsIdent t ∧
    ∀ pre' t' post', line = pre' ++ t' ++ post' → pre' <+: pre → post' <:+ post →
      IsIdent t' → t' = t

/-- A text in which the block `A` holds the line `9B` and a block `B` follows. -/
def rawDigit : Str := "// From a\nexport type A = 1\n9B\n// From b\nexport type B = 1".toList

/-- The first block of `rawDigit`. -/
def digitFirst : TsBlock :=
  { source := "a".toList
    lines := ["// From a".toList, "export type A = 1".toList, "9B".toList]
    name := "A".toList }

/-- The second block of `rawDigit`. -/
def digitSecond : TsBlock :=
  { source := "b".toList
    lines := ["// From b".toList, "export type B = 1".toList]
    name := "B".toList }

/-- The expansion loop of `expandLoop` with a record, `done`, of the names
taken from the queue so far, in order; it returns the set `selected` and the
record. -/
def expandTrace (ord : MapOrder) (refsByName : List (Str × List Str)) :
    Nat → List Str → List Str → List Str → Option (List Str × List Str)
  | _, done, selected, [] => some (selected, done)
  | 0, _, _, _ :: _ => none
  | fuel + 1, done, selected, name :: queue =>
    let st := visitRefs (ord.iter name (mapGet refsByName name)) (selected, queue)
    expandTrace ord refsByName fuel (done ++ [name]) st.1 st.2

/-- Two blocks that refer to each other. -/
def rawCycle : Str :=
  "// From a\nexport type A = B | null\n// From b\nexport type B = A | null".toList

/-- Two blocks named `X`, the first of which refers to `B`, then the block `B`. -/
def rawShadow : Str :=
  ("// From a\nexport type X = B\n\n" ++
   "// From b\nexport type X = string\n\n" ++
   "// From c\nexport type B = number\n").toList

/-- The first block of `rawShadow`. -/
def shadowFirst : TsBlock :=
  { source := "a".toList
    lines := ["// From a".toList, "export type X = B".toList, []]
    name := "X".toList }

/-- The name pattern `^X$`. -/
def onlyX : Str → Bool := fun s => s == "X".toList

/-- Every run of lines that the deduplicator holds back (a line that begins
with `// From `, `/**`, ` *` or ` */`, then further such lines and empty lines)
is immediately followed by a declaration line; `holding` tells whether such a
run is under way at the start. -/
def commentsAttached : Bool → List Str → Bool
  | holding, [] => !holding
  | holding, l :: ls =>
    if isDeclLine l then commentsAttached false ls
    else if isDedupComment l then commentsAttached true ls
    else if l = [] then commentsAttached holding ls
    else !holding && commentsAttached false ls

/-- A text that ends with an origin marker. -/
def rawTrailing : Str := "export type A = 1\n// From b".toList

/-- A text with a line between an origin marker and the declaration. -/
def rawDeferred : Str := "// From a\nfoo\nexport type A = 1".toList

/-- What holds of the state of `filterInterfaceTypes` at every turn when no
declared name is excluded: the open block, if any, will be kept. -/
def IfaceKeeps (excluded : List Str) (st : IfaceState) : Prop :=
  IfaceInv excluded st ∧ (st.current.isSome = true → st.currentName ∉ excluded)

/-- An exclusion set that holds no name declared by `rawChain`. -/
def excludedElsewhere : List Str := ["Z".toList, "b".toList]

/-! # Theorems -/

/-! ## Lines of a text -/

theorem splitLines_ne_nil (s : Str) : splitLines s ≠ [] := by
  induction s with
  | nil => simp [splitLines]
  | cons c cs ih =>
    unfold splitLines
    split
    · simp
    · split
      · simp
      · simp

theorem joinLines_splitLines (s : Str) : joinLines (splitLines s) = s := by
  induction s with
  | nil => simp [splitLines, joinLines]
  | cons c cs ih =>
    unfold splitLines
    split
    · next h =>
      subst h
      cases hcs : splitLines cs with
      | nil => exact absurd hcs (splitLines_ne_nil cs)
      | cons l ls =>
        rw [hcs] at ih
        simp [joinLines, ih]
    · cases hcs : splitLines cs with
      | nil => exact absurd hcs (splitLines_ne_nil cs)
      | cons l ls =>
        rw [hcs] at ih
        cases ls with
        | nil => simpa [joinLines] using ih
        | cons m ms =>
          simp only [joinLines] at ih ⊢
          simp [← ih]

theorem newline_not_mem_of_mem_splitLines (s : Str) :
    ∀ l ∈ splitLines s, '\n' ∉ l := by
  induction s with
  | nil => simp [splitLines]
  | cons c cs ih =>
    unfold splitLines
    split
    · intro l hl
      rcases List.mem_cons.1 hl with h | h
      · simp [h]
      · exact ih l h
    · next hc =>
      cases hcs : splitLines cs with
      | nil => exact absurd hcs (splitLines_ne_nil cs)
      | cons l ls =>
        rw [hcs] at ih
        intro l' hl'
        rcases List.mem_cons.1 hl' with h | h
        · subst h
          have := ih l (List.mem_cons_self _ _)
          simp only [List.mem_cons, not_or]
          exact ⟨fun e => hc e.symm, this⟩
        · exact ih l' (List.mem_cons_of_mem _ h)

theorem splitLines_append_newline (l rest : Str) (hl : '\n' ∉ l) :
    splitLines (l ++ '\n' :: rest) = l :: splitLines rest := by
  induction l with
  | nil => simp [splitLines]
  | cons c cs ih =>
    have hc : c ≠ '\n' := fun e => hl (by simp [e])
    have hcs : '\n' ∉ cs := fun h => hl (List.mem_cons_of_mem _ h)
    simp only [List.cons_append]
    rw [splitLines, if_neg hc, ih hcs]

theorem splitLines_of_no_newline (l : Str) (hl : '\n' ∉ l) : splitLines l = [l] := by
  induction l with
  | nil => simp [splitLines]
  | cons c cs ih =>
    have hc : c ≠ '\n' := fun e => hl (by simp [e])
    have hcs : '\n' ∉ cs := fun h => hl (List.mem_cons_of_mem _ h)
    rw [splitLines, if_neg hc, ih hcs]

theorem splitLines_joinLines (ls : List Str) (hne : ls ≠ [])
    (hls : ∀ l ∈ ls, '\n' ∉ l) : splitLines (joinLines ls) = ls := by
  induction ls with
  | nil => exact absurd rfl hne
  | cons l rest ih =>
    cases rest with
    | nil => simpa [joinLines] using splitLines_of_no_newline l (hls l (List.mem_cons_self _ _))
    | cons m ms =>
      simp only [joinLines]
      rw [splitLines_append_newline l _ (hls l (List.mem_cons_self _ _))]
      rw [ih (by simp) (fun x hx => hls x (List.mem_cons_of_mem _ hx))]

theorem splitLines_joinLines_nil : splitLines (joinLines []) = [[]] := by
  simp [joinLines, splitLines]

/-! ## The deduplicator -/

theorem declLines_append (xs ys : List Str) :
    declLines (xs ++ ys) = declLines xs ++ declLines ys := by
  simp [declLines]

theorem declLines_splitLines_joinLines (ls : List Str) (hls : ∀ l ∈ ls, '\n' ∉ l) :
    declLines (splitLines (joinLines ls)) = declLines ls := by
  by_cases hne : ls = []
  · subst hne
    rw [splitLines_joinLines_nil]
    decide
  · rw [splitLines_joinLines ls hne hls]

theorem dedupStep_declLines (rest : List Str) (st : DedupState) (x : Str)
    (hp : declLines st.pendingComment = []) :
    declLines (dedupStep st x).pendingComment = [] ∧
    declLines (dedupStep st x).result ++
        firstOccurrences (dedupStep st x).seen (declLines rest) =
      declLines st.result ++ firstOccurrences st.seen (declLines (x :: rest)) := by
  unfold dedupStep
  by_cases hd : isDeclLine x = true
  · simp only [hd, if_true]
    by_cases hs : extractTypeName x ∈ st.seen
    · simp [hs, declLines, hd, firstOccurrences]
    · simp only [hs, if_false]
      refine ⟨by simp [declLines], ?_⟩
      simp only [declLines] at hp
      simp [declLines, hd, firstOccurrences, hs, hp]
  · have hd' : isDeclLine x = false := by simpa using hd
    have hx : declLines (x :: rest) = declLines rest := by simp [declLines, hd']
    rw [hx]
    simp only [hd', Bool.false_eq_true, if_false]
    have hpx : declLines (st.pendingComment ++ [x]) = [] := by
      rw [declLines_append, hp]; simp [declLines, hd']
    have hrx : declLines (st.result ++ [x]) = declLines st.result := by
      rw [declLines_append]; simp [declLines, hd']
    split
    · split
      · exact ⟨hp, rfl⟩
      · exact ⟨hpx, rfl⟩
    · split
      · split
        · exact ⟨hp, rfl⟩
        · split
          · exact ⟨hpx, rfl⟩
          · exact ⟨hp, by rw [hrx]⟩
      · split
        · exact ⟨hp, rfl⟩
        · exact ⟨hp, by rw [hrx]⟩

theorem dedup_foldl_declLines (xs : List Str) :
    ∀ st : DedupState, declLines st.pendingComment = [] →
      declLines (xs.foldl dedupStep st).result =
        declLines st.result ++ firstOccurrences st.seen (declLines xs) := by
  induction xs with
  | nil => intro st _; simp [declLines, firstOccurrences]
  | cons x xs ih =>
    intro st hp
    obtain ⟨h1, h2⟩ := dedupStep_declLines xs st x hp
    rw [List.foldl_cons, ih _ h1, h2]

theorem declLines_dedupLines (ls : List Str) :
    declLines (dedupLines ls) = firstOccurrences [] (declLines ls) := by
  have := dedup_foldl_declLines ls
    { result := [], seen := [], skip := false, pendingComment := [] } rfl
  simpa [dedupLines, dedupRun, declLines] using this

/-- The eight ways a turn of the deduplicator goes. -/
theorem dedupStep_cases (st : DedupState) (x : Str) :
    (isDeclLine x = true ∧ extractTypeName x ∈ st.seen ∧
      dedupStep st x = { st with skip := true, pendingComment := [] }) ∨
    (isDeclLine x = true ∧ extractTypeName x ∉ st.seen ∧
      dedupStep st x =
        { result := st.result ++ st.pendingComment ++ [x]
          seen := st.seen ++ [extractTypeName x]
          skip := false
          pendingComment := [] }) ∨
    (isDeclLine x = false ∧ isDedupComment x = true ∧ st.skip = true ∧ dedupStep st x = st) ∨
    (isDeclLine x = false ∧ isDedupComment x = true ∧ st.skip = false ∧
      dedupStep st x = { st with pendingComment := st.pendingComment ++ [x] }) ∨
    (isDeclLine x = false ∧ isDedupComment x = false ∧ x = [] ∧ st.skip = true ∧
      dedupStep st x = { st with skip := false }) ∨
    (isDeclLine x = false ∧ isDedupComment x = false ∧ x = [] ∧ st.skip = false ∧
      st.pendingComment ≠ [] ∧
      dedupStep st x = { st with pendingComment := st.pendingComment ++ [x] }) ∨
    (isDeclLine x = false ∧ isDedupComment x = false ∧ x = [] ∧ st.skip = false ∧
      st.pendingComment = [] ∧ dedupStep st x = { st with result := st.result ++ [x] }) ∨
    (isDeclLine x = false ∧ isDedupComment x = false ∧ x ≠ [] ∧ st.skip = true ∧
      dedupStep st x = st) ∨
    (isDeclLine x = false ∧ isDedupComment x = false ∧ x ≠ [] ∧ st.skip = false ∧
      dedupStep st x = { st with result := st.result ++ [x] }) := by
  by_cases hd : isDeclLine x = true
  · by_cases hs : extractTypeName x ∈ st.seen
    · exact Or.inl ⟨hd, hs, by simp [dedupStep, hd, hs]⟩
    · exact Or.inr (Or.inl ⟨hd, hs, by simp [dedupStep, hd, hs]⟩)
  · have hd' : isDeclLine x = false := by simpa using hd
    by_cases hc : isDedupComment x = true
    · by_cases hk : st.skip = true
      · exact Or.inr (Or.inr (Or.inl ⟨hd', hc, hk, by simp [dedupStep, hd', hc, hk]⟩))
      · have hk' : st.skip = false := by simpa using hk
        exact Or.inr (Or.inr (Or.inr (Or.inl ⟨hd', hc, hk', by simp [dedupStep, hd', hc, hk']⟩)))
    · have hc' : isDedupComment x = false := by simpa using hc
      by_cases hx : x = []
      · by_cases hk : st.skip = true
        · exact Or.inr (Or.inr (Or.inr (Or.inr (Or.inl
            ⟨hd', hc', hx, hk, by
              subst hx
              simp [dedupStep, hd', hc', hk]⟩))))
        · have hk' : st.skip = false := by simpa using hk
          by_cases hp : st.pendingComment = []
          · exact Or.inr (Or.inr (Or.inr (Or.inr (Or.inr (Or.inr (Or.inl
              ⟨hd', hc', hx, hk', hp, by
                subst hx
                simp [dedupStep, hd', hc', hk', hp]⟩))))))
          · exact Or.inr (Or.inr (Or.inr (Or.inr (Or.inr (Or.inl
              ⟨hd', hc', hx, hk', hp, by
                subst hx
                simp [dedupStep, hd', hc', hk', hp]⟩)))))
      · by_cases hk : st.skip = true
        · exact Or.inr (Or.inr (Or.inr (Or.inr (Or.inr (Or.inr (Or.inr (Or.inl
            ⟨hd', hc', hx, hk, by simp [dedupStep, hd', hc', hx, hk]⟩)))))))
        · have hk' : st.skip = false := by simpa using hk
          exact Or.inr (Or.inr (Or.inr (Or.inr (Or.inr (Or.inr (Or.inr (Or.inr
            ⟨hd', hc', hx, hk', by simp [dedupStep, hd', hc', hx, hk']⟩)))))))

theorem dedupStep_mem (st : DedupState) (x : Str) (l : Str)
    (hl : l ∈ (dedupStep st x).result ∨ l ∈ (dedupStep st x).pendingComment) :
    l = x ∨ l ∈ st.result ∨ l ∈ st.pendingComment := by
  rcases dedupStep_cases st x with h | h | h | h | h | h | h | h | h
  all_goals
    have e := h.2
    repeat (first | rw [e] at hl | have e := e.2)
    try simp only [List.mem_append, List.mem_singleton, List.not_mem_nil] at hl
    tauto

theorem dedup_foldl_mem (xs : List Str) :
    ∀ (st : DedupState) (l : Str),
      (l ∈ (xs.foldl dedupStep st).result ∨ l ∈ (xs.foldl dedupStep st).pendingComment) →
      l ∈ xs ∨ l ∈ st.result ∨ l ∈ st.pendingComment := by
  induction xs with
  | nil => intro st l h; exact Or.inr h
  | cons x xs ih =>
    intro st l h
    rw [List.foldl_cons] at h
    rcases ih _ l h with h1 | h1
    · exact Or.inl (List.mem_cons_of_mem _ h1)
    · rcases dedupStep_mem st x l h1 with h2 | h2
      · exact Or.inl (by simp [h2])
      · exact Or.inr h2

theorem mem_of_mem_dedupLines (ls : List Str) (l : Str) (h : l ∈ dedupLines ls) : l ∈ ls := by
  rcases dedup_foldl_mem ls _ l (Or.inl h) with h1 | h1 | h1
  · exact h1
  · simp at h1
  · simp at h1

theorem firstOccurrences_sublist (ds : List Str) :
    ∀ earlier, (firstOccurrences earlier ds).Sublist ds := by
  induction ds with
  | nil => intro _; simp [firstOccurrences]
  | cons d ds ih =>
    intro earlier
    unfold firstOccurrences
    split
    · exact (ih _).trans (List.sublist_cons_self _ _)
    · exact (ih _).cons_cons _

theorem firstOccurrences_not_earlier (ds : List Str) :
    ∀ earlier, ∀ d ∈ firstOccurrences earlier ds, extractTypeName d ∉ earlier := by
  induction ds with
  | nil => intro _ d hd; simp [firstOccurrences] at hd
  | cons d ds ih =>
    intro earlier e he
    unfold firstOccurrences at he
    split at he
    · exact ih _ e he
    · next hn =>
      rcases List.mem_cons.1 he with h | h
      · subst h; exact hn
      · exact fun hmem => ih _ e h (List.mem_append_left _ hmem)

theorem firstOccurrences_nodup (ds : List Str) :
    ∀ earlier, ((firstOccurrences earlier ds).map extractTypeName).Nodup := by
  induction ds with
  | nil => intro _; simp [firstOccurrences]
  | cons d ds ih =>
    intro earlier
    unfold firstOccurrences
    split
    · exact ih _
    · rw [List.map_cons, List.nodup_cons]
      refine ⟨?_, ih _⟩
      intro hmem
      obtain ⟨e, he, hname⟩ := List.mem_map.1 hmem
      exact firstOccurrences_not_earlier ds _ e he (by simp [hname])

theorem firstOccurrences_covers (ds : List Str) :
    ∀ earlier, ∀ d ∈ ds, extractTypeName d ∈ earlier ∨
      extractTypeName d ∈ (firstOccurrences earlier ds).map extractTypeName := by
  induction ds with
  | nil => intro _ d hd; simp at hd
  | cons d ds ih =>
    intro earlier e he
    unfold firstOccurrences
    rcases List.mem_cons.1 he with h | h
    · subst h
      split
      · next hin => exact Or.inl hin
      · exact Or.inr (by simp)
    · split
      · exact ih _ e h
      · rcases ih (earlier ++ [extractTypeName d]) e h with h1 | h1
        · rcases List.mem_append.1 h1 with h2 | h2
          · exact Or.inl h2
          · right
            simp only [List.mem_singleton] at h2
            simp [h2]
        · exact Or.inr (List.mem_cons_of_mem _ h1)

theorem newline_free_dedupLines (s : Str) : ∀ l ∈ dedupLines (splitLines s), '\n' ∉ l :=
  fun l hl => newline_not_mem_of_mem_splitLines s l (mem_of_mem_dedupLines _ l hl)

theorem declLines_deduplicateTypes (s : Str) :
    declLines (splitLines (deduplicateTypes s)) =
      firstOccurrences [] (declLines (splitLines s)) := by
  unfold deduplicateTypes
  rw [declLines_splitLines_joinLines _ (newline_free_dedupLines s), declLines_dedupLines]

theorem isDedupComment_nil : isDedupComment [] = false := by decide

theorem isDeclLine_nil : isDeclLine [] = false := by decide

/-- Lines that can wait are put back in `pendingComment` when read again. -/
theorem dedup_foldl_pending (ps : List Str) :
    ∀ st : DedupState, st.skip = false →
      (∀ l ∈ ps, isDeclLine l = false ∧ (isDedupComment l = true ∨ l = [])) →
      (st.pendingComment ≠ [] ∨ ps = [] ∨ ∃ c rest, ps = c :: rest ∧ isDedupComment c = true) →
      ps.foldl dedupStep st = { st with pendingComment := st.pendingComment ++ ps } := by
  induction ps with
  | nil => intro st _ _ _; simp
  | cons p ps ih =>
    intro st hk hall hhead
    have hp := hall p (List.mem_cons_self _ _)
    have hstep : dedupStep st p = { st with pendingComment := st.pendingComment ++ [p] } := by
      by_cases hc : isDedupComment p = true
      · simp [dedupStep, hp.1, hc, hk]
      · have hc' : isDedupComment p = false := by simpa using hc
        have hnil : p = [] := by
          rcases hp.2 with h | h
          · exact absurd h hc
          · exact h
        have hne : st.pendingComment ≠ [] := by
          rcases hhead with h | h | ⟨c, rest, h, hcc⟩
          · exact h
          · simp at h
          · have : p = c := (List.cons.inj h).1
            subst this
            exact absurd hcc hc
        subst hnil
        simp [dedupStep, isDeclLine_nil, isDedupComment_nil, hk, hne]
    rw [List.foldl_cons, hstep,
      ih { st with pendingComment := st.pendingComment ++ [p] } hk
        (fun l hl => hall l (List.mem_cons_of_mem _ hl)) (Or.inl (by simp))]
    simp

theorem pendingShape_nil : PendingShape [] := ⟨by simp, Or.inl rfl⟩

theorem pendingShape_snoc (ps : List Str) (x : Str) (h : PendingShape ps)
    (hd : isDeclLine x = false) (hx : isDedupComment x = true ∨ (x = [] ∧ ps ≠ [])) :
    PendingShape (ps ++ [x]) := by
  refine ⟨?_, Or.inr ?_⟩
  · intro l hl
    rcases List.mem_append.1 hl with h1 | h1
    · exact h.1 l h1
    · simp only [List.mem_singleton] at h1
      subst h1
      exact ⟨hd, hx.imp id (fun h => h.1)⟩
  · rcases h.2 with h2 | ⟨c, rest, h2, hc⟩
    · subst h2
      rcases hx with h3 | h3
      · exact ⟨x, [], rfl, h3⟩
      · exact absurd rfl h3.2
    · exact ⟨c, rest ++ [x], by simp [h2], hc⟩

theorem dedupRun_append (xs ys : List Str) :
    dedupRun (xs ++ ys) = ys.foldl dedupStep (dedupRun xs) := by
  simp [dedupRun, List.foldl_append]

/-- A turn of the deduplicator keeps its state stable. -/
theorem dedupStable_step (st : DedupState) (x : Str) (h : DedupStable st) :
    DedupStable (dedupStep st x) := by
  obtain ⟨hrun, hshape⟩ := h
  rcases dedupStep_cases st x with
    ⟨_, _, e⟩ | ⟨hd, hs, e⟩ | ⟨_, _, _, e⟩ | ⟨hd, hc, _, e⟩ | ⟨_, _, _, _, e⟩ |
    ⟨hd, _, hx, _, hp, e⟩ | ⟨hd, hc, hx, _, _, e⟩ | ⟨_, _, _, _, e⟩ | ⟨hd, hc, hx, _, e⟩
  · rw [e]; exact ⟨hrun, pendingShape_nil⟩
  · rw [e]
    refine ⟨?_, pendingShape_nil⟩
    show dedupRun (st.result ++ st.pendingComment ++ [x]) = _
    rw [dedupRun_append, dedupRun_append, hrun,
      dedup_foldl_pending st.pendingComment _ rfl hshape.1 (Or.inr hshape.2)]
    simp [dedupStep, hd, hs]
  · rw [e]; exact ⟨hrun, hshape⟩
  · rw [e]; exact ⟨hrun, pendingShape_snoc _ _ hshape hd (Or.inl hc)⟩
  · rw [e]; exact ⟨hrun, hshape⟩
  · rw [e]; exact ⟨hrun, pendingShape_snoc _ _ hshape hd (Or.inr ⟨hx, hp⟩)⟩
  · rw [e]
    refine ⟨?_, hshape⟩
    show dedupRun (st.result ++ [x]) = _
    rw [dedupRun_append, hrun]
    subst hx
    simp [dedupStep, isDeclLine_nil, isDedupComment_nil]
  · rw [e]; exact ⟨hrun, hshape⟩
  · rw [e]
    refine ⟨?_, hshape⟩
    show dedupRun (st.result ++ [x]) = _
    rw [dedupRun_append, hrun]
    simp [dedupStep, hd, hc, hx]

theorem dedupStable_foldl (xs : List Str) :
    ∀ st : DedupState, DedupStable st → DedupStable (xs.foldl dedupStep st) := by
  induction xs with
  | nil => intro st h; exact h
  | cons x xs ih => intro st h; exact ih _ (dedupStable_step st x h)

theorem dedupStable_dedupRun (ls : List Str) : DedupStable (dedupRun ls) :=
  dedupStable_foldl ls _ ⟨rfl, pendingShape_nil⟩

/-- On lines, the deduplicator maps its own result to itself. -/
theorem dedupLines_dedupLines (ls : List Str) : dedupLines (dedupLines ls) = dedupLines ls := by
  have h := (dedupStable_dedupRun ls).1
  show (dedupRun (dedupRun ls).result).result = (dedupRun ls).result
  rw [h]

/-- C3 — idempotence of the deduplicator: applied to its own output,
`deduplicateTypes` returns that output unchanged, for every text. -/
theorem deduplicateTypes_idempotent (s : Str) :
    deduplicateTypes (deduplicateTypes s) = deduplicateTypes s := by
  unfold deduplicateTypes
  by_cases hne : dedupLines (splitLines s) = []
  · rw [hne]
    decide
  · rw [splitLines_joinLines _ hne (newline_free_dedupLines s), dedupLines_dedupLines]

/-- C8 — the deduplicator keeps exactly the first occurrence: the declaration
lines of the output of `deduplicateTypes` are the declaration lines of the
input whose name no earlier declaration line declares, in the same order; no
name is declared twice in the output, and every name the input declares is
declared in the output. -/
theorem dedup_keeps_first_occurrence (s : Str) :
    declLines (splitLines (deduplicateTypes s)) =
        firstOccurrences [] (declLines (splitLines s)) ∧
    (declNames (splitLines (deduplicateTypes s))).Nodup ∧
    ∀ n ∈ declNames (splitLines s), n ∈ declNames (splitLines (deduplicateTypes s)) := by
  refine ⟨declLines_deduplicateTypes s, ?_, ?_⟩
  · unfold declNames
    rw [declLines_deduplicateTypes]
    exact firstOccurrences_nodup _ _
  · intro n hn
    unfold declNames at hn ⊢
    rw [declLines_deduplicateTypes]
    obtain ⟨d, hd, rfl⟩ := List.mem_map.1 hn
    rcases firstOccurrences_covers _ [] d hd with h | h
    · simp at h
    · exact h

/-! ## The interface filter -/

/-- The ways a turn of the interface filter goes when nothing waits in `pending`. -/
theorem ifaceStep_cases (excluded : List Str) (st : IfaceState) (x : Str)
    (hp : st.pending = []) :
    (∃ cur, isDeclLine x = true ∧ st.current = some cur ∧
      ifaceStep excluded st x =
        { result := if st.currentName ∈ excluded then st.result else st.result ++ cur
          pending := []
          current := some [x]
          currentName := extractTypeName x
          seenType := true }) ∨
    (isDeclLine x = true ∧ st.current = none ∧
      ifaceStep excluded st x =
        { result := st.result
          pending := []
          current := some [x]
          currentName := extractTypeName x
          seenType := true }) ∨
    (∃ cur, isDeclLine x = false ∧ st.current = some cur ∧
      ifaceStep excluded st x = { st with current := some (cur ++ [x]) }) ∨
    (isDeclLine x = false ∧ st.current = none ∧ st.seenType = true ∧
      ifaceStep excluded st x = { st with pending := [x] }) ∨
    (isDeclLine x = false ∧ st.current = none ∧ st.seenType = false ∧
      ifaceStep excluded st x = { st with result := st.result ++ [x] }) := by
  by_cases hd : isDeclLine x = true
  · cases hc : st.current with
    | some cur =>
      refine Or.inl ⟨cur, hd, rfl, ?_⟩
      by_cases he : st.currentName ∈ excluded <;>
        simp [ifaceStep, hd, hc, flushCurrent, hp, he]
    | none =>
      refine Or.inr (Or.inl ⟨hd, rfl, ?_⟩)
      simp [ifaceStep, hd, hc, hp]
  · have hd' : isDeclLine x = false := by simpa using hd
    cases hc : st.current with
    | some cur =>
      exact Or.inr (Or.inr (Or.inl ⟨cur, hd', rfl, by simp [ifaceStep, hd', hc]⟩))
    | none =>
      by_cases hs : st.seenType = true
      · exact Or.inr (Or.inr (Or.inr (Or.inl
          ⟨hd', rfl, hs, by simp [ifaceStep, hd', hc, hs, hp]⟩)))
      · have hs' : st.seenType = false := by simpa using hs
        exact Or.inr (Or.inr (Or.inr (Or.inr
          ⟨hd', rfl, hs', by simp [ifaceStep, hd', hc, hs']⟩)))

theorem ifaceInv_init (excluded : List Str) : IfaceInv excluded ifaceInit :=
  ⟨rfl, by simp [ifaceInit], by simp [ifaceInit], by simp [ifaceInit]⟩

theorem ifaceInv_step (excluded : List Str) (st : IfaceState) (x : Str)
    (h : IfaceInv excluded st) : IfaceInv excluded (ifaceStep excluded st x) := by
  obtain ⟨hp, hseen, hres, hcur⟩ := h
  rcases ifaceStep_cases excluded st x hp with
    ⟨cur, hd, hc, e⟩ | ⟨hd, hc, e⟩ | ⟨cur, hd, hc, e⟩ | ⟨_, hc, hs, _⟩ | ⟨hd, hc, hs, e⟩
  · rw [e]
    refine ⟨rfl, fun _ => rfl, ?_, ?_⟩
    · intro l hl hdl
      by_cases he : st.currentName ∈ excluded
      · simp only [he, if_true] at hl
        exact hres l hl hdl
      · simp only [he, if_false] at hl
        rcases List.mem_append.1 hl with h1 | h1
        · exact hres l h1 hdl
        · rw [hcur cur hc l h1 hdl]; exact he
    · intro c hc' l hl _
      simp only [Option.some.injEq] at hc'
      subst hc'
      simp only [List.mem_singleton] at hl
      rw [hl]
  · rw [e]
    refine ⟨rfl, fun _ => rfl, hres, ?_⟩
    intro c hc' l hl _
    simp only [Option.some.injEq] at hc'
    subst hc'
    simp only [List.mem_singleton] at hl
    rw [hl]
  · rw [e]
    refine ⟨hp, fun _ => rfl, hres, ?_⟩
    intro c hc' l hl hdl
    simp only [Option.some.injEq] at hc'
    subst hc'
    rcases List.mem_append.1 hl with h1 | h1
    · exact hcur cur hc l h1 hdl
    · simp only [List.mem_singleton] at h1
      rw [h1, hd] at hdl
      exact absurd hdl (by simp)
  · have := hseen hs
    rw [hc] at this
    exact absurd this (by simp)
  · rw [e]
    refine ⟨hp, ?_, ?_, ?_⟩
    · intro h'; exact hseen h'
    · intro l hl hdl
      rcases List.mem_append.1 hl with h1 | h1
      · exact hres l h1 hdl
      · simp only [List.mem_singleton] at h1
        rw [h1, hd] at hdl
        exact absurd hdl (by simp)
    · intro c hc'
      rw [hc] at hc'
      exact absurd hc' (by simp)

theorem ifaceInv_foldl (excluded : List Str) (xs : List Str) :
    ∀ st, IfaceInv excluded st → IfaceInv excluded (xs.foldl (ifaceStep excluded) st) := by
  induction xs with
  | nil => intro st h; exact h
  | cons x xs ih => intro st h; exact ih _ (ifaceInv_step excluded st x h)

/-- What `ifaceLines` returns, from the state after the loop. -/
theorem ifaceLines_eq (excluded : List Str) (lines : List Str) :
    ifaceLines excluded lines =
      (let st := lines.foldl (ifaceStep excluded) ifaceInit
       match st.current with
       | some cur => if st.currentName ∈ excluded then st.result else st.result ++ cur
       | none => st.result) := by
  have hinv := ifaceInv_foldl excluded lines ifaceInit (ifaceInv_init excluded)
  unfold ifaceLines ifaceFinish
  simp only
  cases hc : (lines.foldl (ifaceStep excluded) ifaceInit).current with
  | some cur =>
    by_cases he : (lines.foldl (ifaceStep excluded) ifaceInit).currentName ∈ excluded <;>
      simp [flushCurrent, hc, he]
  | none =>
    simp [hinv.1]

/-- No declaration of an excluded name is left by the interface filter. -/
theorem ifaceLines_not_excluded (excluded : List Str) (lines : List Str) :
    ∀ l ∈ ifaceLines excluded lines, isDeclLine l = true → extractTypeName l ∉ excluded := by
  have hinv := ifaceInv_foldl excluded lines ifaceInit (ifaceInv_init excluded)
  rw [ifaceLines_eq]
  simp only
  intro l hl hdl
  cases hc : (lines.foldl (ifaceStep excluded) ifaceInit).current with
  | some cur =>
    rw [hc] at hl
    simp only at hl
    by_cases he : (lines.foldl (ifaceStep excluded) ifaceInit).currentName ∈ excluded
    · simp only [he, if_true] at hl
      exact hinv.2.2.1 l hl hdl
    · simp only [he, if_false] at hl
      rcases List.mem_append.1 hl with h1 | h1
      · exact hinv.2.2.1 l h1 hdl
      · rw [hinv.2.2.2 cur hc l h1 hdl]; exact he
  | none =>
    rw [hc] at hl
    exact hinv.2.2.1 l hl hdl

theorem ifaceHeld_step (excluded : List Str) (st : IfaceState) (x : Str)
    (h : IfaceInv excluded st) :
    (ifaceHeld (ifaceStep excluded st x)).Sublist (ifaceHeld st ++ [x]) := by
  obtain ⟨hp, hseen, -, -⟩ := h
  rcases ifaceStep_cases excluded st x hp with
    ⟨cur, hd, hc, e⟩ | ⟨hd, hc, e⟩ | ⟨cur, hd, hc, e⟩ | ⟨_, hc, hs, _⟩ | ⟨hd, hc, hs, e⟩
  · rw [e]
    simp only [ifaceHeld, hc, Option.getD_some]
    by_cases he : st.currentName ∈ excluded
    · simp only [he, if_true]
      exact List.Sublist.append (List.sublist_append_left _ _) (List.Sublist.refl _)
    · simp only [he, if_false]
      exact List.Sublist.refl _
  · rw [e]
    simp [ifaceHeld, hc]
  · rw [e]
    simp [ifaceHeld, hc]
  · have := hseen hs
    rw [hc] at this
    exact absurd this (by simp)
  · rw [e]
    simp [ifaceHeld, hc]

theorem ifaceHeld_foldl (excluded : List Str) (xs : List Str) :
    ∀ st, IfaceInv excluded st →
      (ifaceHeld (xs.foldl (ifaceStep excluded) st)).Sublist (ifaceHeld st ++ xs) := by
  induction xs with
  | nil => intro st _; simp
  | cons x xs ih =>
    intro st h
    rw [List.foldl_cons]
    refine (ih _ (ifaceInv_step excluded st x h)).trans ?_
    have := (ifaceHeld_step excluded st x h).append (List.Sublist.refl xs)
    simpa using this

/-- The interface filter only removes lines. -/
theorem ifaceLines_sublist (excluded : List Str) (lines : List Str) :
    (ifaceLines excluded lines).Sublist lines := by
  have h := ifaceHeld_foldl excluded lines ifaceInit (ifaceInv_init excluded)
  have h0 : ifaceHeld ifaceInit ++ lines = lines := by simp [ifaceHeld, ifaceInit]
  rw [h0] at h
  refine List.Sublist.trans ?_ h
  rw [ifaceLines_eq]
  simp only [ifaceHeld]
  cases hc : (lines.foldl (ifaceStep excluded) ifaceInit).current with
  | some cur =>
    by_cases he : (lines.foldl (ifaceStep excluded) ifaceInit).currentName ∈ excluded
    · simp [he]
    · simp [he]
  | none => simp

theorem newline_free_sublist_splitLines (s : Str) (ls : List Str)
    (h : ls.Sublist (splitLines s)) : ∀ l ∈ ls, '\n' ∉ l :=
  fun l hl => newline_not_mem_of_mem_splitLines s l (h.subset hl)

/-- The declaration lines of the output of `filterInterfaceTypes`: none bears
an excluded name, and they are declaration lines of the input, in order. -/
theorem declLines_filterInterfaceTypes (content : Str) (excluded : List Str) :
    (∀ l ∈ declLines (splitLines (filterInterfaceTypes content excluded)),
      extractTypeName l ∉ excluded) ∧
    (declLines (splitLines (filterInterfaceTypes content excluded))).Sublist
      (declLines (splitLines content)) := by
  unfold filterInterfaceTypes
  by_cases he : excluded = []
  · simp [he]
  · simp only [he, if_false]
    have hsub := ifaceLines_sublist excluded (splitLines content)
    rw [declLines_splitLines_joinLines _ (newline_free_sublist_splitLines content _ hsub)]
    refine ⟨?_, hsub.filter _⟩
    intro l hl
    have := List.mem_filter.1 hl
    exact ifaceLines_not_excluded excluded _ l this.1 this.2

/-- C2 — exclusion invariance: whatever the patterns and the exclusion set, no
declaration line of `deduplicateTypes(filterInterfaceTypes(filterByWhitelist(raw,
path, name), excluded))` declares a name of the exclusion set. -/
theorem exclusion_invariance (ord : MapOrder) (raw : Str)
    (fileRegexp typeRegexp : Option (Str → Bool)) (excluded : List Str) :
    ∀ line ∈ splitLines (shapeOutput ord raw fileRegexp typeRegexp excluded),
      isDeclLine line = true → extractTypeName line ∉ excluded := by
  intro line hline hdecl
  have hmem : line ∈ declLines (splitLines (shapeOutput ord raw fileRegexp typeRegexp excluded)) :=
    List.mem_filter.2 ⟨hline, hdecl⟩
  unfold shapeOutput at hmem
  rw [declLines_deduplicateTypes] at hmem
  exact (declLines_filterInterfaceTypes _ excluded).1 line
    ((firstOccurrences_sublist _ _).subset hmem)

/-- C2 at the chain text: `A` is whitelisted, `B` and `C` come by closure and
`B` is excluded; the declaration line of `C` is in the final text and its name
is not excluded. -/
theorem exclusion_invariance_witness :
    "export type C = string;".toList ∈
        splitLines (shapeOutput MapOrder.insertion rawChain none (some onlyA) ["B".toList]) ∧
    isDeclLine "export type C = string;".toList = true ∧
    extractTypeName "export type C = string;".toList ∉ ["B".toList] :=
  ⟨by decide, by decide,
    exclusion_invariance MapOrder.insertion rawChain none (some onlyA) ["B".toList]
      "export type C = string;".toList (by decide) (by decide)⟩

/-- C7 — identity when unfiltered: without a path pattern and without a name
pattern `filterByWhitelist` returns its input, byte for byte. -/
theorem filterByWhitelist_unfiltered (ord : MapOrder) (s : Str) :
    filterByWhitelist ord s none none = s := rfl

/-! ## Splitting into blocks -/

theorem concatLines_append (xs ys : List TsBlock) :
    concatLines (xs ++ ys) = concatLines xs ++ concatLines ys := by
  induction xs with
  | nil => rfl
  | cons b bs ih => simp [concatLines, ih]

theorem parseStep_lines (st : ParseState) (x : Str)
    (h : st.current = none → st.blocks = []) :
    ((parseStep st x).current = none → (parseStep st x).blocks = []) ∧
    parsedLines (parseStep st x) = parsedLines st ++ [x] := by
  unfold parseStep
  by_cases hm : hasPrefix x fromMarker = true
  · simp only [hm, if_true]
    refine ⟨by simp, ?_⟩
    cases hc : st.current with
    | some cur => simp [parsedLines, concatLines_append, concatLines, hc]
    | none => simp [parsedLines, hc]
  · simp only [hm, if_false]
    cases hc : st.current with
    | some cur =>
      refine ⟨by simp, ?_⟩
      simp [parsedLines, hc]
    | none =>
      refine ⟨fun _ => h hc, ?_⟩
      simp [parsedLines, h hc, concatLines, hc]

theorem parse_foldl_lines (xs : List Str) :
    ∀ st : ParseState, (st.current = none → st.blocks = []) →
      parsedLines (xs.foldl parseStep st) = parsedLines st ++ xs := by
  induction xs with
  | nil => intro st _; simp
  | cons x xs ih =>
    intro st h
    obtain ⟨h1, h2⟩ := parseStep_lines st x h
    rw [List.foldl_cons, ih _ h1, h2]
    simp

/-- The header and the blocks of the splitting loop partition the lines. -/
theorem parseBlocks_lines (lines : List Str) :
    (parseBlocks lines).1 ++ concatLines (parseBlocks lines).2 = lines := by
  have h := parse_foldl_lines lines { header := [], blocks := [], current := none }
    (fun _ => rfl)
  simp only [parsedLines, concatLines, List.append_nil, List.nil_append] at h
  unfold parseBlocks
  simp only
  cases hc : (lines.foldl parseStep { header := [], blocks := [], current := none }).current with
  | some cur =>
    rw [hc] at h
    simp only [concatLines_append, concatLines, List.append_nil]
    rw [← List.append_assoc]
    exact h
  | none =>
    rw [hc] at h
    simpa using h

theorem concatLines_nameBlocks (bs : List TsBlock) :
    concatLines (nameBlocks bs) = concatLines bs := by
  induction bs with
  | nil => rfl
  | cons b bs ih =>
    simp only [nameBlocks, List.map_cons, concatLines] at ih ⊢
    rw [ih]

theorem emit_foldl (selected : List Str) (bs : List TsBlock) :
    ∀ acc : List Str,
      bs.foldl (emitStep selected) acc =
      acc ++ concatLines (bs.filter (fun b => decide (b.name ≠ []) && decide (b.name ∈ selected))) := by
  induction bs with
  | nil => intro acc; simp [concatLines]
  | cons b bs ih =>
    intro acc
    rw [List.foldl_cons, ih]
    by_cases hn : b.name = []
    · simp [emitStep, hn, List.filter_cons]
    · by_cases hs : b.name ∈ selected
      · simp [emitStep, hn, hs, List.filter_cons, concatLines]
      · simp [emitStep, hn, hs, List.filter_cons]

/-- The output loop of `filterByWhitelist` emits the named blocks whose name
is selected, whole and in order. -/
theorem emitBlocks_eq (selected : List Str) (bs : List TsBlock) :
    emitBlocks selected bs =
      concatLines (bs.filter (fun b => decide (b.name ≠ []) && decide (b.name ∈ selected))) := by
  unfold emitBlocks
  rw [emit_foldl]
  simp

theorem concatLines_sublist (xs ys : List TsBlock) (h : xs.Sublist ys) :
    (concatLines xs).Sublist (concatLines ys) := by
  induction h with
  | slnil => exact List.Sublist.refl _
  | cons b _ ih =>
    simp only [concatLines]
    exact ih.trans (List.sublist_append_right _ _)
  | cons₂ b _ ih =>
    simp only [concatLines]
    exact List.Sublist.append (List.Sublist.refl _) ih

theorem lines_infix_concatLines (bs : List TsBlock) (b : TsBlock) (h : b ∈ bs) :
    b.lines <:+: concatLines bs := by
  induction bs with
  | nil => simp at h
  | cons c cs ih =>
    simp only [concatLines]
    rcases List.mem_cons.1 h with h1 | h1
    · subst h1
      exact ⟨[], concatLines cs, by simp⟩
    · obtain ⟨p, q, hpq⟩ := ih h1
      exact ⟨c.lines ++ p, q, by simp [← hpq]⟩

/-- The lines `filterByWhitelist` keeps are lines of its input, in order. -/
theorem whitelistLines_sublist (ord : MapOrder) (content : Str)
    (fileRegexp typeRegexp : Option (Str → Bool)) :
    (whitelistLines ord content fileRegexp typeRegexp).Sublist (splitLines content) := by
  unfold whitelistLines
  simp only
  rw [emitBlocks_eq]
  have h := parseBlocks_lines (splitLines content)
  have h2 := concatLines_sublist
    ((nameBlocks (parseBlocks (splitLines content)).2).filter
      (fun b => decide (b.name ≠ []) &&
        decide (b.name ∈ selectedNames ord (nameBlocks (parseBlocks (splitLines content)).2)
          fileRegexp typeRegexp)))
    (nameBlocks (parseBlocks (splitLines content)).2) (List.filter_sublist _)
  rw [concatLines_nameBlocks] at h2
  have h3 := List.Sublist.append (List.Sublist.refl (parseBlocks (splitLines content)).1) h2
  rw [h] at h3
  exact h3

/-- The declaration lines of the output of `filterByWhitelist` are declaration
lines of its input, in order. -/
theorem declLines_filterByWhitelist (ord : MapOrder) (content : Str)
    (fileRegexp typeRegexp : Option (Str → Bool)) :
    (declLines (splitLines (filterByWhitelist ord content fileRegexp typeRegexp))).Sublist
      (declLines (splitLines content)) := by
  have hsub := whitelistLines_sublist ord content fileRegexp typeRegexp
  have key : (declLines (splitLines
      (joinLines (whitelistLines ord content fileRegexp typeRegexp)))).Sublist
      (declLines (splitLines content)) := by
    rw [declLines_splitLines_joinLines _ (newline_free_sublist_splitLines content _ hsub)]
    exact hsub.filter _
  cases fileRegexp <;> cases typeRegexp <;> first
    | exact List.Sublist.refl _
    | exact key

/-- C6 — order preservation: the names declared by the final output
`deduplicateTypes(filterInterfaceTypes(filterByWhitelist(raw, ...), excluded))`
form a duplicate-free subsequence of the names declared by the raw text; the
declaration lines themselves are a subsequence of the raw declaration lines,
so retained declarations stand in the order they had in the raw input. -/
theorem order_preservation (ord : MapOrder) (raw : Str)
    (fileRegexp typeRegexp : Option (Str → Bool)) (excluded : List Str) :
    (declNames (splitLines (shapeOutput ord raw fileRegexp typeRegexp excluded))).Nodup ∧
    (declNames (splitLines (shapeOutput ord raw fileRegexp typeRegexp excluded))).Sublist
      (declNames (splitLines raw)) ∧
    (declLines (splitLines (shapeOutput ord raw fileRegexp typeRegexp excluded))).Sublist
      (declLines (splitLines raw)) := by
  have hlines : (declLines (splitLines
      (shapeOutput ord raw fileRegexp typeRegexp excluded))).Sublist
      (declLines (splitLines raw)) := by
    unfold shapeOutput
    rw [declLines_deduplicateTypes]
    exact ((firstOccurrences_sublist _ _).trans
      (declLines_filterInterfaceTypes _ excluded).2).trans
      (declLines_filterByWhitelist ord raw fileRegexp typeRegexp)
  refine ⟨?_, hlines.map _, hlines⟩
  unfold declNames shapeOutput
  rw [declLines_deduplicateTypes]
  exact firstOccurrences_nodup _ _

/-! ## The expansion loop -/

theorem visitRefs_spec (refs : List Str) :
    ∀ sel q : List Str, ∃ new : List Str,
      visitRefs refs (sel, q) = (sel ++ new, q ++ new) ∧ new.Nodup ∧
      (∀ x ∈ new, x ∉ sel ∧ x ∈ refs) ∧ (∀ x ∈ refs, x ∈ sel ∨ x ∈ new) := by
  induction refs with
  | nil => intro sel q; exact ⟨[], by simp [visitRefs], by simp, by simp, by simp⟩
  | cons r rs ih =>
    intro sel q
    by_cases hr : r ∈ sel
    · obtain ⟨new, h1, h2, h3, h4⟩ := ih sel q
      refine ⟨new, ?_, h2, ?_, ?_⟩
      · simp only [visitRefs, List.foldl_cons, visitStep, hr, if_true] at h1 ⊢
        exact h1
      · intro x hx
        exact ⟨(h3 x hx).1, List.mem_cons_of_mem _ (h3 x hx).2⟩
      · intro x hx
        rcases List.mem_cons.1 hx with h | h
        · subst h; exact Or.inl hr
        · exact h4 x h
    · obtain ⟨new, h1, h2, h3, h4⟩ := ih (sel ++ [r]) (q ++ [r])
      refine ⟨r :: new, ?_, ?_, ?_, ?_⟩
      · simp only [visitRefs, List.foldl_cons, visitStep, hr, if_false] at h1 ⊢
        rw [h1]
        simp
      · rw [List.nodup_cons]
        exact ⟨fun hmem => (h3 r hmem).1 (by simp), h2⟩
      · intro x hx
        rcases List.mem_cons.1 hx with h | h
        · subst h; exact ⟨hr, List.mem_cons_self _ _⟩
        · exact ⟨fun hs => (h3 x h).1 (List.mem_append_left _ hs),
            List.mem_cons_of_mem _ (h3 x h).2⟩
      · intro x hx
        rcases List.mem_cons.1 hx with h | h
        · subst h; exact Or.inr (List.mem_cons_self _ _)
        · rcases h4 x h with h5 | h5
          · rcases List.mem_append.1 h5 with h6 | h6
            · exact Or.inl h6
            · simp only [List.mem_singleton] at h6
              subst h6
              exact Or.inr (List.mem_cons_self _ _)
          · exact Or.inr (List.mem_cons_of_mem _ h5)

/-- The expansion loop ends within its bound and returns the names reached
from the selected ones: when every reference is an export name, the selected
names are distinct export names, the queued names are selected, the names no
longer queued have their references selected, and the bound covers the queue
and the export names not yet selected. -/
theorem expandLoop_spec (ord : MapOrder) (m : List (Str × List Str)) (names : List Str)
    (hm : ∀ n x, x ∈ mapGet m n → x ∈ names) :
    ∀ (fuel : Nat) (sel q : List Str), sel.Nodup → (∀ x ∈ sel, x ∈ names) →
      (∀ x ∈ q, x ∈ sel) → q.length + names.length ≤ fuel + sel.length →
      (∀ n ∈ sel, n ∉ q → ∀ x, x ∈ mapGet m n → x ∈ sel) →
      ∃ out, expandLoop ord m fuel sel q = some out ∧ (∀ x ∈ sel, x ∈ out) ∧
        (∀ n ∈ out, ∀ x, x ∈ mapGet m n → x ∈ out) ∧
        (∀ n ∈ out, ∃ s ∈ sel, Reaches m s n) := by
  intro fuel
  induction fuel with
  | zero =>
    intro sel q hnd hsub hq hfuel hclosed
    cases q with
    | nil =>
      exact ⟨sel, rfl, fun _ h => h, fun n hn x hx => hclosed n hn (by simp) x hx,
        fun n hn => ⟨n, hn, Relation.ReflTransGen.refl⟩⟩
    | cons name queue =>
      have hlen : sel.length ≤ names.length := (hnd.subperm hsub).length_le
      simp only [List.length_cons] at hfuel
      omega
  | succ fuel ih =>
    intro sel q hnd hsub hq hfuel hclosed
    cases q with
    | nil =>
      exact ⟨sel, rfl, fun _ h => h, fun n hn x hx => hclosed n hn (by simp) x hx,
        fun n hn => ⟨n, hn, Relation.ReflTransGen.refl⟩⟩
    | cons name queue =>
      obtain ⟨new, hv, hnew, hfresh, hcover⟩ :=
        visitRefs_spec (ord.iter name (mapGet m name)) sel queue
      have hperm := ord.perm name (mapGet m name)
      have hname : name ∈ sel := hq name (List.mem_cons_self _ _)
      have hnd' : (sel ++ new).Nodup :=
        List.Nodup.append hnd hnew (fun x hx hx' => (hfresh x hx').1 hx)
      have hsub' : ∀ x ∈ sel ++ new, x ∈ names := by
        intro x hx
        rcases List.mem_append.1 hx with h | h
        · exact hsub x h
        · exact hm name x (hperm.mem_iff.1 (hfresh x h).2)
      have hq' : ∀ x ∈ queue ++ new, x ∈ sel ++ new := by
        intro x hx
        rcases List.mem_append.1 hx with h | h
        · exact List.mem_append_left _ (hq x (List.mem_cons_of_mem _ h))
        · exact List.mem_append_right _ h
      have hfuel' : (queue ++ new).length + names.length ≤ fuel + (sel ++ new).length := by
        simp only [List.length_append, List.length_cons] at hfuel ⊢
        omega
      have hclosed' : ∀ n ∈ sel ++ new, n ∉ queue ++ new →
          ∀ x, x ∈ mapGet m n → x ∈ sel ++ new := by
        intro n hn hnq x hx
        have hn1 : n ∉ queue := fun h => hnq (List.mem_append_left _ h)
        have hn2 : n ∉ new := fun h => hnq (List.mem_append_right _ h)
        have hn3 : n ∈ sel := by
          rcases List.mem_append.1 hn with h | h
          · exact h
          · exact absurd h hn2
        by_cases hnn : n = name
        · subst hnn
          rcases hcover x (hperm.mem_iff.2 hx) with h | h
          · exact List.mem_append_left _ h
          · exact List.mem_append_right _ h
        · refine List.mem_append_left _ (hclosed n hn3 ?_ x hx)
          intro h
          rcases List.mem_cons.1 h with h' | h'
          · exact hnn h'
          · exact hn1 h'
      obtain ⟨out, ho, hin, hcl, hsound⟩ := ih (sel ++ new) (queue ++ new) hnd' hsub' hq'
        hfuel' hclosed'
      refine ⟨out, ?_, fun x hx => hin x (List.mem_append_left _ hx), hcl, ?_⟩
      · simp only [expandLoop, hv]
        exact ho
      · intro n hn
        obtain ⟨s, hs, hreach⟩ := hsound n hn
        rcases List.mem_append.1 hs with h | h
        · exact ⟨s, h, hreach⟩
        · exact ⟨name, hname,
            Relation.ReflTransGen.head (hperm.mem_iff.1 (hfresh s h).2) hreach⟩

/-! ## The sets and maps built by `filterByWhitelist` -/

theorem mem_setInsert (s : List Str) (k x : Str) : x ∈ setInsert s k ↔ x ∈ s ∨ x = k := by
  unfold setInsert
  by_cases h : k ∈ s
  · simp only [h, if_true]
    constructor
    · exact Or.inl
    · rintro (h1 | h1)
      · exact h1
      · rw [h1]; exact h
  · simp [h]

theorem nodup_setInsert (s : List Str) (k : Str) (h : s.Nodup) : (setInsert s k).Nodup := by
  unfold setInsert
  by_cases hk : k ∈ s
  · simpa [hk] using h
  · simp only [hk, if_false]
    exact List.Nodup.append h (by simp) (by
      intro x hx hx'
      simp only [List.mem_singleton] at hx'
      exact hk (hx' ▸ hx))

theorem exportNames_foldl (bs : List TsBlock) :
    ∀ acc : List Str, acc.Nodup →
      (bs.foldl exportNamesStep acc).Nodup ∧
      ∀ n, n ∈ bs.foldl exportNamesStep acc ↔ n ∈ acc ∨ ∃ b ∈ bs, b.name ≠ [] ∧ b.name = n := by
  induction bs with
  | nil => intro acc h; simp [h]
  | cons b bs ih =>
    intro acc h
    rw [List.foldl_cons]
    by_cases hb : b.name = []
    · have hstep : exportNamesStep acc b = acc := by simp [exportNamesStep, hb]
      rw [hstep]
      obtain ⟨h1, h2⟩ := ih acc h
      refine ⟨h1, fun n => ?_⟩
      rw [h2 n]
      simp only [List.mem_cons, or_and_right, exists_or, exists_eq_left]
      constructor
      · rintro (h3 | h3)
        · exact Or.inl h3
        · exact Or.inr (Or.inr h3)
      · rintro (h3 | h3 | h3)
        · exact Or.inl h3
        · exact absurd hb h3.1
        · exact Or.inr h3
    · have hstep : exportNamesStep acc b = setInsert acc b.name := by
        simp [exportNamesStep, hb]
      rw [hstep]
      obtain ⟨h1, h2⟩ := ih (setInsert acc b.name) (nodup_setInsert _ _ h)
      refine ⟨h1, fun n => ?_⟩
      rw [h2 n, mem_setInsert]
      simp only [List.mem_cons, or_and_right, exists_or, exists_eq_left]
      constructor
      · rintro ((h3 | h3) | h3)
        · exact Or.inl h3
        · exact Or.inr (Or.inl ⟨hb, h3.symm⟩)
        · exact Or.inr (Or.inr h3)
      · rintro (h3 | h3 | h3)
        · exact Or.inl (Or.inl h3)
        · exact Or.inl (Or.inr h3.2.symm)
        · exact Or.inr h3

theorem nodup_exportNamesOf (bs : List TsBlock) : (exportNamesOf bs).Nodup :=
  (exportNames_foldl bs [] List.nodup_nil).1

/-- The export names are the non-empty names of the blocks. -/
theorem mem_exportNamesOf (bs : List TsBlock) (n : Str) :
    n ∈ exportNamesOf bs ↔ ∃ b ∈ bs, b.name ≠ [] ∧ b.name = n := by
  have := (exportNames_foldl bs [] List.nodup_nil).2 n
  simpa [exportNamesOf] using this

theorem selectStep_spec (fileRegexp typeRegexp : Option (Str → Bool))
    (st : List Str × List Str) (b : TsBlock) (h1 : st.1 = st.2) (h2 : st.1.Nodup) :
    (selectStep fileRegexp typeRegexp st b).1 = (selectStep fileRegexp typeRegexp st b).2 ∧
    (selectStep fileRegexp typeRegexp st b).1.Nodup ∧
    ∀ n, n ∈ (selectStep fileRegexp typeRegexp st b).1 ↔
      n ∈ st.1 ∨ (b.name ≠ [] ∧
        matchesWhitelist b.source b.name fileRegexp typeRegexp = true ∧ b.name = n) := by
  unfold selectStep
  by_cases hb : b.name = []
  · simp only [hb, if_true]
    exact ⟨h1, h2, fun n => by simp⟩
  · by_cases hmatch : matchesWhitelist b.source b.name fileRegexp typeRegexp = true
    · by_cases hin : b.name ∈ st.1
      · simp only [hb, hmatch, hin, if_true, if_false]
        refine ⟨h1, h2, fun n => ?_⟩
        constructor
        · exact Or.inl
        · rintro (h | ⟨_, _, h⟩)
          · exact h
          · exact h ▸ hin
      · simp only [hb, hmatch, hin, if_true, if_false]
        refine ⟨by rw [h1], ?_, fun n => ?_⟩
        · exact List.Nodup.append h2 (by simp) (by
            intro x hx hx'
            simp only [List.mem_singleton] at hx'
            exact hin (hx' ▸ hx))
        · simp only [List.mem_append, List.mem_singleton, ne_eq, hb, not_false_eq_true,
            true_and]
          constructor
          · rintro (h | h)
            · exact Or.inl h
            · exact Or.inr h.symm
          · rintro (h | h)
            · exact Or.inl h
            · exact Or.inr h.symm
    · simp only [hb, hmatch, if_false]
      refine ⟨h1, h2, fun n => ?_⟩
      constructor
      · exact Or.inl
      · rintro (h | ⟨_, h, _⟩)
        · exact h
        · exact absurd h (by simp)

theorem initialSelection_foldl (fileRegexp typeRegexp : Option (Str → Bool))
    (bs : List TsBlock) :
    ∀ st : List Str × List Str, st.1 = st.2 → st.1.Nodup →
      (bs.foldl (selectStep fileRegexp typeRegexp) st).1 =
        (bs.foldl (selectStep fileRegexp typeRegexp) st).2 ∧
      (bs.foldl (selectStep fileRegexp typeRegexp) st).1.Nodup ∧
      ∀ n, n ∈ (bs.foldl (selectStep fileRegexp typeRegexp) st).1 ↔
        n ∈ st.1 ∨ ∃ b ∈ bs, b.name ≠ [] ∧
          matchesWhitelist b.source b.name fileRegexp typeRegexp = true ∧ b.name = n := by
  induction bs with
  | nil => intro st h1 h2; exact ⟨h1, h2, fun n => by simp⟩
  | cons b bs ih =>
    intro st h1 h2
    rw [List.foldl_cons]
    obtain ⟨s1, s2, s3⟩ := selectStep_spec fileRegexp typeRegexp st b h1 h2
    obtain ⟨e1, e2, e3⟩ := ih _ s1 s2
    refine ⟨e1, e2, fun n => ?_⟩
    rw [e3 n, s3 n]
    simp only [List.mem_cons, or_and_right, exists_or, exists_eq_left]
    tauto

/-- The seed of the expansion: `selected` and `queue` hold the same distinct
names, those of the named blocks that match the whitelist. -/
theorem initialSelection_spec (bs : List TsBlock) (fileRegexp typeRegexp : Option (Str → Bool)) :
    (initialSelection bs fileRegexp typeRegexp).1 = (initialSelection bs fileRegexp typeRegexp).2 ∧
    (initialSelection bs fileRegexp typeRegexp).1.Nodup ∧
    ∀ n, n ∈ (initialSelection bs fileRegexp typeRegexp).1 ↔
      ∃ b ∈ bs, b.name ≠ [] ∧
        matchesWhitelist b.source b.name fileRegexp typeRegexp = true ∧ b.name = n := by
  have := initialSelection_foldl fileRegexp typeRegexp bs ([], []) rfl List.nodup_nil
  simpa [initialSelection] using this

theorem refsToken_foldl (exportNames : List Str) (name : Str) (tokens : List Str) :
    ∀ refs : List Str, ∀ t,
      t ∈ tokens.foldl (refsTokenStep exportNames name) refs ↔
        t ∈ refs ∨ (t ∈ tokens ∧ t ≠ name ∧ t ∈ exportNames) := by
  induction tokens with
  | nil => intro refs t; simp
  | cons k ks ih =>
    intro refs t
    rw [List.foldl_cons, ih]
    unfold refsTokenStep
    by_cases h1 : k = name
    · simp only [h1, if_true, List.mem_cons]
      constructor
      · rintro (h | h)
        · exact Or.inl h
        · exact Or.inr ⟨Or.inr h.1, h.2⟩
      · rintro (h | ⟨h | h, h'⟩)
        · exact Or.inl h
        · exact absurd h h'.1
        · exact Or.inr ⟨h, h'⟩
    · by_cases h2 : k ∈ exportNames
      · simp only [h1, h2, if_true, if_false, mem_setInsert, List.mem_cons]
        constructor
        · rintro ((h | h) | h)
          · exact Or.inl h
          · exact Or.inr ⟨Or.inl h, h ▸ h1, h ▸ h2⟩
          · exact Or.inr ⟨Or.inr h.1, h.2⟩
        · rintro (h | ⟨h | h, h'⟩)
          · exact Or.inl (Or.inl h)
          · exact Or.inl (Or.inr h)
          · exact Or.inr ⟨h, h'⟩
      · simp only [h1, h2, if_false, List.mem_cons]
        constructor
        · rintro (h | h)
          · exact Or.inl h
          · exact Or.inr ⟨Or.inr h.1, h.2⟩
        · rintro (h | ⟨h | h, h'⟩)
          · exact Or.inl h
          · exact absurd (h ▸ h'.2) h2
          · exact Or.inr ⟨h, h'⟩

theorem refsLine_foldl (exportNames : List Str) (name : Str) (lines : List Str) :
    ∀ refs : List Str, ∀ t,
      t ∈ lines.foldl (refsLineStep exportNames name) refs ↔
        t ∈ refs ∨ (∃ line ∈ lines, isCommentLine line = false ∧ t ∈ findAllTokens line) ∧
          t ≠ name ∧ t ∈ exportNames := by
  induction lines with
  | nil => intro refs t; simp
  | cons l ls ih =>
    intro refs t
    rw [List.foldl_cons, ih]
    unfold refsLineStep
    by_cases hc : isCommentLine l = true
    · simp only [hc, if_true, List.mem_cons, or_and_right, exists_or, exists_eq_left]
      simp
    · have hc' : isCommentLine l = false := by simpa using hc
      simp only [hc', Bool.false_eq_true, if_false, refsToken_foldl, List.mem_cons,
        or_and_right, exists_or, exists_eq_left, true_and]
      tauto

/-- The reference set of a block: the export names other than its own that
are tokens of one of its lines that is not a comment line. -/
theorem mem_blockRefs (exportNames : List Str) (b : TsBlock) (t : Str) :
    t ∈ blockRefs exportNames b ↔
      (∃ line ∈ b.lines, isCommentLine line = false ∧ t ∈ findAllTokens line) ∧
        t ≠ b.name ∧ t ∈ exportNames := by
  unfold blockRefs
  rw [refsLine_foldl]
  simp

theorem mapGet_cons (m : List (Str × List Str)) (k n : Str) (v : List Str) :
    mapGet ((k, v) :: m) n = if n = k then v else mapGet m n := by
  unfold mapGet
  by_cases h : n = k
  · simp [h, List.lookup_cons]
  · have : (n == k) = false := by simpa using h
    simp [h, List.lookup_cons, this]

theorem refsByName_foldl (exportNames : List Str) (bs : List TsBlock) :
    ∀ (acc : List (Str × List Str)) (n : Str),
      (∃ c ∈ bs, c.name = n ∧ n ≠ [] ∧
        mapGet (bs.foldl (refsByNameStep exportNames) acc) n = blockRefs exportNames c) ∨
      ((∀ c ∈ bs, c.name = n → n = []) ∧
        mapGet (bs.foldl (refsByNameStep exportNames) acc) n = mapGet acc n) := by
  induction bs with
  | nil => intro acc n; exact Or.inr ⟨by simp, rfl⟩
  | cons b bs ih =>
    intro acc n
    rw [List.foldl_cons]
    rcases ih (refsByNameStep exportNames acc b) n with ⟨c, hc, h1, h2, h3⟩ | ⟨h1, h2⟩
    · exact Or.inl ⟨c, List.mem_cons_of_mem _ hc, h1, h2, h3⟩
    · by_cases hb : b.name = []
      · right
        refine ⟨?_, ?_⟩
        · intro c hc hcn
          rcases List.mem_cons.1 hc with h | h
          · rw [← hcn, h, hb]
          · exact h1 c h hcn
        · rw [h2]
          simp [refsByNameStep, hb]
      · by_cases hn : n = b.name
        · left
          refine ⟨b, List.mem_cons_self _ _, hn.symm, hn ▸ hb, ?_⟩
          rw [h2]
          simp [refsByNameStep, hb, mapSet, mapGet_cons, hn]
        · right
          refine ⟨?_, ?_⟩
          · intro c hc hcn
            rcases List.mem_cons.1 hc with h | h
            · exact absurd (by rw [← hcn, h]) hn
            · exact h1 c h hcn
          · rw [h2]
            simp [refsByNameStep, hb, mapSet, mapGet_cons, hn]

/-- What `refsByName` holds for a name: the reference set of a block of that
name, or nothing when no block bears the name. -/
theorem mapGet_refsByNameOf (exportNames : List Str) (bs : List TsBlock) (n : Str) :
    (∃ c ∈ bs, c.name = n ∧ n ≠ [] ∧
      mapGet (refsByNameOf exportNames bs) n = blockRefs exportNames c) ∨
    ((∀ c ∈ bs, c.name = n → n = []) ∧ mapGet (refsByNameOf exportNames bs) n = []) := by
  have := refsByName_foldl exportNames bs [] n
  simpa [refsByNameOf, mapGet] using this

theorem refs_subset_exportNames (bs : List TsBlock) (n x : Str)
    (h : x ∈ mapGet (refsByNameOf (exportNamesOf bs) bs) n) : x ∈ exportNamesOf bs := by
  rcases mapGet_refsByNameOf (exportNamesOf bs) bs n with ⟨c, _, _, _, h3⟩ | ⟨_, h2⟩
  · rw [h3] at h
    exact ((mem_blockRefs _ c x).1 h).2.2
  · rw [h2] at h
    simp at h

/-- The selected set when `filterByWhitelist` builds its result: the names
reached, along `refsByName`, from the name of a named block that matches the
whitelist. The expansion loop ends within its bound. -/
theorem mem_selectedNames (ord : MapOrder) (bs : List TsBlock)
    (fileRegexp typeRegexp : Option (Str → Bool)) (n : Str) :
    n ∈ selectedNames ord bs fileRegexp typeRegexp ↔
      ∃ b ∈ bs, b.name ≠ [] ∧ matchesWhitelist b.source b.name fileRegexp typeRegexp = true ∧
        Reaches (refsByNameOf (exportNamesOf bs) bs) b.name n := by
  obtain ⟨i1, i2, i3⟩ := initialSelection_spec bs fileRegexp typeRegexp
  have hsub : ∀ x ∈ (initialSelection bs fileRegexp typeRegexp).1, x ∈ exportNamesOf bs := by
    intro x hx
    obtain ⟨b, hb, hbn, _, hbe⟩ := (i3 x).1 hx
    exact (mem_exportNamesOf bs x).2 ⟨b, hb, hbn, hbe⟩
  obtain ⟨out, ho, hin, hcl, hsound⟩ := expandLoop_spec ord
    (refsByNameOf (exportNamesOf bs) bs) (exportNamesOf bs)
    (fun n x hx => refs_subset_exportNames bs n x hx)
    (exportNamesOf bs).length (initialSelection bs fileRegexp typeRegexp).1
    (initialSelection bs fileRegexp typeRegexp).2 i2 hsub
    (fun x hx => i1 ▸ hx) (by rw [i1]; omega)
    (fun n hn hnq => absurd (i1 ▸ hn) hnq)
  have hsel : selectedNames ord bs fileRegexp typeRegexp = out := by
    simp only [selectedNames, ho]
  rw [hsel]
  constructor
  · intro hn
    obtain ⟨s, hs, hreach⟩ := hsound n hn
    obtain ⟨b, hb, hbn, hbm, hbe⟩ := (i3 s).1 hs
    exact ⟨b, hb, hbn, hbm, hbe ▸ hreach⟩
  · rintro ⟨b, hb, hbn, hbm, hreach⟩
    have hstart : b.name ∈ out := hin _ ((i3 b.name).2 ⟨b, hb, hbn, hbm, rfl⟩)
    induction hreach with
    | refl => exact hstart
    | tail _ hedge ih => exact hcl _ ih _ hedge

/-! ## Transitive inclusion -/

theorem block_unique (bs : List TsBlock) (h : (namedBlockNames bs).Nodup)
    (a b : TsBlock) (ha : a ∈ bs) (hb : b ∈ bs) (hn : a.name ≠ []) (he : a.name = b.name) :
    a = b := by
  have ha' : a ∈ bs.filter (fun b => decide (b.name ≠ [])) :=
    List.mem_filter.2 ⟨ha, by simpa using hn⟩
  have hb' : b ∈ bs.filter (fun b => decide (b.name ≠ [])) :=
    List.mem_filter.2 ⟨hb, by simpa using (he ▸ hn)⟩
  exact List.inj_on_of_nodup_map h ha' hb' he

/-- With one block per name, `refsByName` holds for the name of a block the
reference set of that block. -/
theorem mapGet_refsByNameOf_unique (bs : List TsBlock) (h : (namedBlockNames bs).Nodup)
    (a : TsBlock) (ha : a ∈ bs) (hn : a.name ≠ []) :
    mapGet (refsByNameOf (exportNamesOf bs) bs) a.name = blockRefs (exportNamesOf bs) a := by
  rcases mapGet_refsByNameOf (exportNamesOf bs) bs a.name with ⟨c, hc, h1, _, h3⟩ | ⟨h1, _⟩
  · have : a = c := block_unique bs h a c ha hc hn h1.symm
    rw [h3, this]
  · exact absurd (h1 a ha rfl) hn

theorem reaches_of_refersIn (bs : List TsBlock) (h : (namedBlockNames bs).Nodup)
    (a b : TsBlock) (ha : a ∈ bs) (hn : a.name ≠ [])
    (hreach : Relation.ReflTransGen (RefersIn bs) a b) :
    b ∈ bs ∧ b.name ≠ [] ∧ Reaches (refsByNameOf (exportNamesOf bs) bs) a.name b.name := by
  induction hreach with
  | refl => exact ⟨ha, hn, Relation.ReflTransGen.refl⟩
  | @tail x y _ hedge ih =>
    obtain ⟨hx, hxn, hxr⟩ := ih
    obtain ⟨_, hy, _, hyn, hline⟩ := hedge
    refine ⟨hy, hyn, ?_⟩
    by_cases hxy : y.name = x.name
    · rw [hxy]; exact hxr
    · refine Relation.ReflTransGen.tail hxr ?_
      show y.name ∈ mapGet (refsByNameOf (exportNamesOf bs) bs) x.name
      rw [mapGet_refsByNameOf_unique bs h x hx hxn, mem_blockRefs]
      exact ⟨hline, hxy, (mem_exportNamesOf bs y.name).2 ⟨y, hy, hyn, rfl⟩⟩

theorem lines_infix_whitelistLines (ord : MapOrder) (raw : Str)
    (fileRegexp typeRegexp : Option (Str → Bool)) (b : TsBlock) (hb : b ∈ blocksOf raw)
    (hn : b.name ≠ [])
    (hsel : b.name ∈ selectedNames ord (blocksOf raw) fileRegexp typeRegexp) :
    b.lines <:+: whitelistLines ord raw fileRegexp typeRegexp := by
  show b.lines <:+: (parseBlocks (splitLines raw)).1 ++
    emitBlocks (selectedNames ord (blocksOf raw) fileRegexp typeRegexp) (blocksOf raw)
  rw [emitBlocks_eq]
  have hmem : b ∈ (blocksOf raw).filter
      (fun b => decide (b.name ≠ []) &&
        decide (b.name ∈ selectedNames ord (blocksOf raw) fileRegexp typeRegexp)) :=
    List.mem_filter.2 ⟨hb, by simp [hn, hsel]⟩
  obtain ⟨p, q, hpq⟩ := lines_infix_concatLines _ b hmem
  refine ⟨(parseBlocks (splitLines raw)).1 ++ p, q, ?_⟩
  simp only [List.append_assoc] at hpq ⊢
  rw [hpq]

theorem lines_infix_raw (raw : Str) (b : TsBlock) (hb : b ∈ blocksOf raw) :
    b.lines <:+: splitLines raw := by
  obtain ⟨p, q, hpq⟩ := lines_infix_concatLines _ b hb
  unfold blocksOf at hpq
  rw [concatLines_nameBlocks] at hpq
  have h := parseBlocks_lines (splitLines raw)
  refine ⟨(parseBlocks (splitLines raw)).1 ++ p, q, ?_⟩
  simp only [List.append_assoc] at hpq ⊢
  rw [hpq]
  exact h

theorem splitLines_filterByWhitelist (ord : MapOrder) (raw : Str)
    (fileRegexp typeRegexp : Option (Str → Bool))
    (hpat : fileRegexp.isSome = true ∨ typeRegexp.isSome = true)
    (hne : whitelistLines ord raw fileRegexp typeRegexp ≠ []) :
    splitLines (filterByWhitelist ord raw fileRegexp typeRegexp) =
      whitelistLines ord raw fileRegexp typeRegexp := by
  have h : filterByWhitelist ord raw fileRegexp typeRegexp =
      joinLines (whitelistLines ord raw fileRegexp typeRegexp) := by
    cases fileRegexp <;> cases typeRegexp <;> simp_all [filterByWhitelist]
  rw [h]
  exact splitLines_joinLines _ hne
    (newline_free_sublist_splitLines raw _ (whitelistLines_sublist ord raw fileRegexp typeRegexp))

/-- A named block whose name is selected has all its lines, in a row, in the
output of `filterByWhitelist`. -/
theorem lines_infix_filterByWhitelist (ord : MapOrder) (raw : Str)
    (fileRegexp typeRegexp : Option (Str → Bool)) (b : TsBlock) (hb : b ∈ blocksOf raw)
    (hn : b.name ≠ [])
    (hsel : b.name ∈ selectedNames ord (blocksOf raw) fileRegexp typeRegexp) :
    b.lines <:+: splitLines (filterByWhitelist ord raw fileRegexp typeRegexp) := by
  by_cases hpat : fileRegexp.isSome = true ∨ typeRegexp.isSome = true
  · have hin := lines_infix_whitelistLines ord raw fileRegexp typeRegexp b hb hn hsel
    by_cases hne : whitelistLines ord raw fileRegexp typeRegexp = []
    · rw [hne] at hin
      have : b.lines = [] := List.eq_nil_of_infix_nil hin
      rw [this]
      exact ⟨[], _, by simp; rfl⟩
    · rw [splitLines_filterByWhitelist ord raw fileRegexp typeRegexp hpat hne]
      exact hin
  · have h1 : fileRegexp = none := by
      cases fileRegexp with
      | none => rfl
      | some _ => simp at hpat
    have h2 : typeRegexp = none := by
      cases typeRegexp with
      | none => rfl
      | some _ => simp at hpat
    subst h1 h2
    exact lines_infix_raw raw b hb

/-- C1 — transitive inclusion: in a raw text where each name is declared by
one block, let block `a` match the whitelist (for the claim: a name pattern and
no path pattern) and let block `b` be reached from `a` through references, each
a whole-word occurrence of the next block's name on a non-comment line (`a`
refers to `B`, `B` to `C`, and so on). Then all the lines of `b` stand, in a
row, in the output of `filterByWhitelist`. -/
theorem transitive_inclusion (ord : MapOrder) (raw : Str)
    (fileRegexp typeRegexp : Option (Str → Bool))
    (huniq : (namedBlockNames (blocksOf raw)).Nodup)
    (a b : TsBlock) (ha : a ∈ blocksOf raw) (hnamed : a.name ≠ [])
    (hmatch : matchesWhitelist a.source a.name fileRegexp typeRegexp = true)
    (hreach : Relation.ReflTransGen (RefersIn (blocksOf raw)) a b) :
    b.lines <:+: splitLines (filterByWhitelist ord raw fileRegexp typeRegexp) := by
  obtain ⟨hb, hbn, hr⟩ := reaches_of_refersIn (blocksOf raw) huniq a b ha hnamed hreach
  exact lines_infix_filterByWhitelist ord raw fileRegexp typeRegexp b hb hbn
    ((mem_selectedNames ord (blocksOf raw) fileRegexp typeRegexp b.name).2
      ⟨a, ha, hnamed, hmatch, hr⟩)

/-- C1 at a text where `A` refers to `B` and `B` to `C`: selecting `A` by name
puts the block of `C` in the output. -/
theorem transitive_inclusion_witness :
    chainC.lines <:+: splitLines (filterByWhitelist MapOrder.insertion rawChain none (some onlyA)) :=
  transitive_inclusion MapOrder.insertion rawChain none (some onlyA) (by decide)
    chainA chainC (by decide) (by decide) (by decide)
    (Relation.ReflTransGen.tail
      (Relation.ReflTransGen.tail Relation.ReflTransGen.refl
        (show RefersIn (blocksOf rawChain) chainA chainB from
          ⟨by decide, by decide, by decide, by decide, by decide⟩))
      (show RefersIn (blocksOf rawChain) chainB chainC from
        ⟨by decide, by decide, by decide, by decide, by decide⟩))

/-! ## Monotonicity of the selection -/

theorem whitelistLines_mono (ord₁ ord₂ : MapOrder) (raw : Str)
    (file₁ type₁ file₂ type₂ : Option (Str → Bool))
    (hsel : ∀ n, n ∈ selectedNames ord₁ (blocksOf raw) file₁ type₁ →
      n ∈ selectedNames ord₂ (blocksOf raw) file₂ type₂) :
    (whitelistLines ord₁ raw file₁ type₁).Sublist (whitelistLines ord₂ raw file₂ type₂) := by
  show ((parseBlocks (splitLines raw)).1 ++
      emitBlocks (selectedNames ord₁ (blocksOf raw) file₁ type₁) (blocksOf raw)).Sublist
    ((parseBlocks (splitLines raw)).1 ++
      emitBlocks (selectedNames ord₂ (blocksOf raw) file₂ type₂) (blocksOf raw))
  rw [emitBlocks_eq, emitBlocks_eq]
  refine List.Sublist.append (List.Sublist.refl _) (concatLines_sublist _ _ ?_)
  refine List.monotone_filter_right _ ?_
  intro b hb
  simp only [Bool.and_eq_true, decide_eq_true_eq] at hb ⊢
  exact ⟨hb.1, hsel _ hb.2⟩

/-- A looser whitelist selects every name a stricter one selects. -/
theorem selectedNames_mono (ord₁ ord₂ : MapOrder) (bs : List TsBlock)
    (file₁ type₁ file₂ type₂ : Option (Str → Bool))
    (hsub : ∀ source name, matchesWhitelist source name file₁ type₁ = true →
      matchesWhitelist source name file₂ type₂ = true) :
    ∀ n, n ∈ selectedNames ord₁ bs file₁ type₁ → n ∈ selectedNames ord₂ bs file₂ type₂ := by
  intro n hn
  obtain ⟨b, hb, hbn, hbm, hr⟩ := (mem_selectedNames ord₁ bs file₁ type₁ n).1 hn
  exact (mem_selectedNames ord₂ bs file₂ type₂ n).2 ⟨b, hb, hbn, hsub _ _ hbm, hr⟩

/-- C4 as amended — closure monotonicity: let the looser configuration accept
every (origin, name) pair the stricter one accepts, and let the stricter one
have a pattern whenever the looser one has. Then every name selected under the
stricter configuration is selected under the looser one and, when the stricter
output is not the empty text, its lines are a subsequence of the lines of the
looser output. -/
theorem closure_monotonicity (ord₁ ord₂ : MapOrder) (raw : Str)
    (file₁ type₁ file₂ type₂ : Option (Str → Bool))
    (hmode : (file₂.isSome = true ∨ type₂.isSome = true) →
      (file₁.isSome = true ∨ type₁.isSome = true))
    (hsub : ∀ source name, matchesWhitelist source name file₁ type₁ = true →
      matchesWhitelist source name file₂ type₂ = true) :
    (∀ n, n ∈ selectedNames ord₁ (blocksOf raw) file₁ type₁ →
      n ∈ selectedNames ord₂ (blocksOf raw) file₂ type₂) ∧
    (filterByWhitelist ord₁ raw file₁ type₁ ≠ [] →
      (splitLines (filterByWhitelist ord₁ raw file₁ type₁)).Sublist
        (splitLines (filterByWhitelist ord₂ raw file₂ type₂))) := by
  have hsel := selectedNames_mono ord₁ ord₂ (blocksOf raw) file₁ type₁ file₂ type₂ hsub
  refine ⟨hsel, fun hne => ?_⟩
  by_cases hp₁ : file₁.isSome = true ∨ type₁.isSome = true
  · have hw₁ : whitelistLines ord₁ raw file₁ type₁ ≠ [] := by
      intro h
      apply hne
      have e : filterByWhitelist ord₁ raw file₁ type₁ =
          joinLines (whitelistLines ord₁ raw file₁ type₁) := by
        cases file₁ <;> cases type₁ <;> simp_all [filterByWhitelist]
      rw [e, h]
      rfl
    rw [splitLines_filterByWhitelist ord₁ raw file₁ type₁ hp₁ hw₁]
    by_cases hp₂ : file₂.isSome = true ∨ type₂.isSome = true
    · have hmono := whitelistLines_mono ord₁ ord₂ raw file₁ type₁ file₂ type₂ hsel
      have hw₂ : whitelistLines ord₂ raw file₂ type₂ ≠ [] := by
        intro h
        rw [h] at hmono
        exact hw₁ (List.eq_nil_of_sublist_nil hmono)
      rw [splitLines_filterByWhitelist ord₂ raw file₂ type₂ hp₂ hw₂]
      exact hmono
    · have h1 : file₂ = none := by
        cases file₂ with
        | none => rfl
        | some _ => simp at hp₂
      have h2 : type₂ = none := by
        cases type₂ with
        | none => rfl
        | some _ => simp at hp₂
      subst h1 h2
      exact whitelistLines_sublist ord₁ raw file₁ type₁
  · have hp₂ : ¬(file₂.isSome = true ∨ type₂.isSome = true) := fun h => hp₁ (hmode h)
    have h1 : file₁ = none := by
      cases file₁ with
      | none => rfl
      | some _ => simp at hp₁
    have h2 : type₁ = none := by
      cases type₁ with
      | none => rfl
      | some _ => simp at hp₁
    have h3 : file₂ = none := by
      cases file₂ with
      | none => rfl
      | some _ => simp at hp₂
    have h4 : type₂ = none := by
      cases type₂ with
      | none => rfl
      | some _ => simp at hp₂
    subst h1 h2 h3 h4
    exact List.Sublist.refl _

/-- C4 as amended, at the chain text: the pattern `^A$` against a pattern
that matches every name. -/
theorem closure_monotonicity_witness :
    (∀ n, n ∈ selectedNames MapOrder.insertion (blocksOf rawChain) none (some onlyA) →
      n ∈ selectedNames MapOrder.insertion (blocksOf rawChain) none (some matchAll)) ∧
    (filterByWhitelist MapOrder.insertion rawChain none (some onlyA) ≠ [] →
      (splitLines (filterByWhitelist MapOrder.insertion rawChain none (some onlyA))).Sublist
        (splitLines (filterByWhitelist MapOrder.insertion rawChain none (some matchAll)))) :=
  closure_monotonicity MapOrder.insertion MapOrder.insertion rawChain none (some onlyA) none
    (some matchAll) (fun _ => by decide)
    (fun source name h => by
      by_cases hn : name = []
      · simp [matchesWhitelist, hn] at h
      · simp [matchesWhitelist, hn, matchAll])

/-- C4 as stated fails twice. Without any pattern every pair is accepted and
the text is returned whole, the block that declares nothing included; with a
pattern that accepts every pair that block is dropped. And when the stricter
configuration selects nothing in a text without header (here the path pattern
`^A$` against the origin `a`), its output is the empty text, whose one empty
line is not a line of the looser output. -/
theorem closure_monotonicity_counterexample :
    ((∀ source name, matchesWhitelist source name none none = true →
        matchesWhitelist source name (some matchAll) none = true) ∧
      ¬ (splitLines (filterByWhitelist MapOrder.insertion rawUnnamed none none)).Sublist
        (splitLines (filterByWhitelist MapOrder.insertion rawUnnamed (some matchAll) none))) ∧
    ((∀ source name, matchesWhitelist source name (some onlyA) none = true →
        matchesWhitelist source name (some matchAll) none = true) ∧
      ¬ (splitLines (filterByWhitelist MapOrder.insertion rawSingle (some onlyA) none)).Sublist
        (splitLines (filterByWhitelist MapOrder.insertion rawSingle (some matchAll) none))) := by
  refine ⟨⟨fun source name _ => by simp [matchesWhitelist, matchAll], by decide⟩,
    ⟨fun source name _ => by simp [matchesWhitelist, matchAll], by decide⟩⟩

/-! ## Exactness of the selection -/

theorem parseInv_step (st : ParseState) (x : Str) (h : ParseInv st) :
    ParseInv (parseStep st x) := by
  obtain ⟨h1, h2, h3⟩ := h
  unfold parseStep
  by_cases hm : hasPrefix x fromMarker = true
  · simp only [hm, if_true]
    refine ⟨h1, ?_, ?_⟩
    · cases hc : st.current with
      | some cur =>
        intro b hb
        rcases List.mem_append.1 hb with h | h
        · exact h2 b h
        · simp only [List.mem_singleton] at h
          exact h ▸ h3 cur hc
      | none => exact h2
    · intro c hc
      simp only [Option.some.injEq] at hc
      subst hc
      exact ⟨x, [], rfl, hm, by simp⟩
  · have hm' : hasPrefix x fromMarker = false := by simpa using hm
    simp only [hm', Bool.false_eq_true, if_false]
    cases hc : st.current with
    | some cur =>
      refine ⟨h1, h2, ?_⟩
      intro c hc'
      simp only [Option.some.injEq] at hc'
      subst hc'
      obtain ⟨marker, rest, e1, e2, e3⟩ := h3 cur hc
      refine ⟨marker, rest ++ [x], by simp [e1], e2, ?_⟩
      intro l hl
      rcases List.mem_append.1 hl with h | h
      · exact e3 l h
      · simp only [List.mem_singleton] at h
        exact h ▸ hm'
    | none =>
      refine ⟨?_, h2, ?_⟩
      · intro l hl
        rcases List.mem_append.1 hl with h | h
        · exact h1 l h
        · simp only [List.mem_singleton] at h
          exact h ▸ hm'
      · intro c hc'
        simp [hc] at hc'

theorem parseInv_foldl (xs : List Str) :
    ∀ st, ParseInv st → ParseInv (xs.foldl parseStep st) := by
  induction xs with
  | nil => intro st h; exact h
  | cons x xs ih => intro st h; exact ih _ (parseInv_step st x h)

/-- The header holds no origin marker and every block starts with its only one. -/
theorem parseBlocks_shape (lines : List Str) :
    (∀ l ∈ (parseBlocks lines).1, hasPrefix l fromMarker = false) ∧
    ∀ b ∈ (parseBlocks lines).2, BlockShape b := by
  have h := parseInv_foldl lines { header := [], blocks := [], current := none }
    ⟨by simp, by simp, by simp⟩
  obtain ⟨h1, h2, h3⟩ := h
  unfold parseBlocks
  simp only
  cases hc : (lines.foldl parseStep { header := [], blocks := [], current := none }).current with
  | some cur =>
    refine ⟨h1, ?_⟩
    intro b hb
    rcases List.mem_append.1 hb with h | h
    · exact h2 b h
    · simp only [List.mem_singleton] at h
      exact h ▸ h3 cur hc
  | none => exact ⟨h1, h2⟩

theorem blockShape_of_mem_blocksOf (raw : Str) (b : TsBlock) (hb : b ∈ blocksOf raw) :
    BlockShape b ∧ b.name = firstExportName b.lines := by
  unfold blocksOf nameBlocks at hb
  obtain ⟨c, hc, rfl⟩ := List.mem_map.1 hb
  exact ⟨(parseBlocks_shape (splitLines raw)).2 c hc, rfl⟩

theorem concatLines_head_marker (bs : List TsBlock) (h : ∀ c ∈ bs, BlockShape c)
    (x : Str) (xs : List Str) (e : concatLines bs = x :: xs) :
    hasPrefix x fromMarker = true := by
  cases bs with
  | nil => simp [concatLines] at e
  | cons c cs =>
    obtain ⟨marker, rest, e1, e2, _⟩ := h c (List.mem_cons_self _ _)
    simp only [concatLines, e1, List.cons_append, List.cons.injEq] at e
    exact e.1 ▸ e2

theorem prefix_of_prefix_append_marker (rest rc tail : List Str)
    (hrest : ∀ l ∈ rest, hasPrefix l fromMarker = false)
    (htail : ∀ x xs, tail = x :: xs → hasPrefix x fromMarker = true)
    (h : rest <+: rc ++ tail) : rest <+: rc := by
  rcases List.prefix_or_prefix_of_prefix h (List.prefix_append rc tail) with h1 | h1
  · exact h1
  · obtain ⟨r, hr⟩ := h1
    subst hr
    have h2 : r <+: tail := (List.prefix_append_right_inj rc).1 h
    cases r with
    | nil => simp
    | cons x xs =>
      obtain ⟨t, ht⟩ := h2
      have hx := htail x (xs ++ t) (by simp [← ht])
      have := hrest x (by simp)
      rw [hx] at this
      exact absurd this (by simp)

/-- A marker line followed by lines that are not markers, found in a row in a
header without markers followed by blocks, begins a block and does not run
past it. -/
theorem prefix_of_infix_concatLines (bs : List TsBlock) (hbs : ∀ c ∈ bs, BlockShape c)
    (m : Str) (rest : List Str) (hm : hasPrefix m fromMarker = true)
    (hrest : ∀ l ∈ rest, hasPrefix l fromMarker = false) :
    ∀ header : List Str, (∀ l ∈ header, hasPrefix l fromMarker = false) →
      (m :: rest) <:+: header ++ concatLines bs → ∃ c ∈ bs, (m :: rest) <+: c.lines := by
  induction bs with
  | nil =>
    intro header
    induction header with
    | nil =>
      intro _ h
      simp [concatLines] at h
    | cons x xs ihh =>
      intro hh h
      rw [List.cons_append, List.infix_cons_iff] at h
      rcases h with h | h
      · obtain ⟨t, ht⟩ := h
        simp only [List.cons_append, List.cons.injEq] at ht
        have := hh x (List.mem_cons_self _ _)
        rw [← ht.1, hm] at this
        exact absurd this (by simp)
      · exact ihh (fun l hl => hh l (List.mem_cons_of_mem _ hl)) h
  | cons c cs ih =>
    intro header
    induction header with
    | nil =>
      intro _ h
      obtain ⟨marker, rc, e1, e2, e3⟩ := hbs c (List.mem_cons_self _ _)
      simp only [List.nil_append, concatLines, e1, List.cons_append] at h
      rw [List.infix_cons_iff] at h
      rcases h with h | h
      · refine ⟨c, List.mem_cons_self _ _, ?_⟩
        rw [e1]
        obtain ⟨t, ht⟩ := h
        simp only [List.cons_append, List.cons.injEq] at ht
        have hp : rest <+: rc ++ concatLines cs := ⟨t, ht.2⟩
        have hp' := prefix_of_prefix_append_marker rest rc (concatLines cs) hrest
          (fun x xs e => concatLines_head_marker cs
            (fun c hc => hbs c (List.mem_cons_of_mem _ hc)) x xs e) hp
        obtain ⟨u, hu⟩ := hp'
        exact ⟨u, by simp [ht.1, ← hu]⟩
      · obtain ⟨c', hc', hp⟩ := ih (fun c hc => hbs c (List.mem_cons_of_mem _ hc)) rc e3 h
        exact ⟨c', List.mem_cons_of_mem _ hc', hp⟩
    | cons x xs ihh =>
      intro hh h
      rw [List.cons_append, List.infix_cons_iff] at h
      rcases h with h | h
      · obtain ⟨t, ht⟩ := h
        simp only [List.cons_append, List.cons.injEq] at ht
        have := hh x (List.mem_cons_self _ _)
        rw [← ht.1, hm] at this
        exact absurd this (by simp)
      · exact ihh (fun l hl => hh l (List.mem_cons_of_mem _ hl)) h

theorem firstExportName_of_prefix (p l : List Str) (h : p <+: l)
    (hn : firstExportName p ≠ []) : firstExportName l = firstExportName p := by
  induction p generalizing l with
  | nil => simp [firstExportName] at hn
  | cons x xs ih =>
    obtain ⟨t, ht⟩ := h
    subst ht
    simp only [List.cons_append, firstExportName] at hn ⊢
    by_cases hx : extractExportName x = []
    · simp only [hx, ne_eq, not_true_eq_false, if_false] at hn ⊢
      exact ih (xs ++ t) (List.prefix_append _ _) hn
    · simp [hx]

/-- A named block whose lines stand in a row in the output of
`filterByWhitelist`, a pattern being given, has its name selected. -/
theorem selected_of_lines_infix (ord : MapOrder) (raw : Str)
    (fileRegexp typeRegexp : Option (Str → Bool))
    (hpat : fileRegexp.isSome = true ∨ typeRegexp.isSome = true)
    (b : TsBlock) (hb : b ∈ blocksOf raw) (hn : b.name ≠ [])
    (hemit : b.lines <:+: splitLines (filterByWhitelist ord raw fileRegexp typeRegexp)) :
    b.name ∈ selectedNames ord (blocksOf raw) fileRegexp typeRegexp := by
  obtain ⟨⟨m, rest, e1, e2, e3⟩, hname⟩ := blockShape_of_mem_blocksOf raw b hb
  by_cases hne : whitelistLines ord raw fileRegexp typeRegexp = []
  · have e : filterByWhitelist ord raw fileRegexp typeRegexp = [] := by
      have : filterByWhitelist ord raw fileRegexp typeRegexp =
          joinLines (whitelistLines ord raw fileRegexp typeRegexp) := by
        cases fileRegexp <;> cases typeRegexp <;> simp_all [filterByWhitelist]
      rw [this, hne]
      rfl
    rw [e, e1] at hemit
    obtain ⟨p, q, hpq⟩ := hemit
    have hmem : m ∈ splitLines [] := by
      rw [← hpq]
      simp
    simp only [splitLines, List.mem_singleton] at hmem
    rw [hmem] at e2
    exact absurd e2 (by decide)
  · rw [splitLines_filterByWhitelist ord raw fileRegexp typeRegexp hpat hne] at hemit
    have hw : whitelistLines ord raw fileRegexp typeRegexp =
        (parseBlocks (splitLines raw)).1 ++
          concatLines ((blocksOf raw).filter (fun b => decide (b.name ≠ []) &&
            decide (b.name ∈ selectedNames ord (blocksOf raw) fileRegexp typeRegexp))) := by
      rw [← emitBlocks_eq]
      rfl
    rw [hw, e1] at hemit
    obtain ⟨c, hc, hp⟩ := prefix_of_infix_concatLines _
      (fun c hc => (blockShape_of_mem_blocksOf raw c (List.mem_filter.1 hc).1).1)
      m rest e2 e3 _ (parseBlocks_shape (splitLines raw)).1 hemit
    obtain ⟨hc1, hc2⟩ := List.mem_filter.1 hc
    simp only [Bool.and_eq_true, decide_eq_true_eq] at hc2
    have hcname := (blockShape_of_mem_blocksOf raw c hc1).2
    have : c.name = b.name := by
      rw [hcname, hname, e1]
      exact firstExportName_of_prefix _ _ hp (by rw [← e1, ← hname]; exact hn)
    rw [← this]
    exact hc2.2

theorem nameRefers_of_reaches (bs : List TsBlock) (n x : Str)
    (h : Reaches (refsByNameOf (exportNamesOf bs) bs) n x) :
    Relation.ReflTransGen (NameRefers bs) n x := by
  refine Relation.ReflTransGen.mono ?_ h
  intro u v huv
  rcases mapGet_refsByNameOf (exportNamesOf bs) bs u with ⟨c, hc, h1, h2, h3⟩ | ⟨_, h2⟩
  · have hv : v ∈ blockRefs (exportNamesOf bs) c := h3 ▸ huv
    obtain ⟨hline, hne, _⟩ := (mem_blockRefs _ c v).1 hv
    exact ⟨c, hc, h1, h2, h1 ▸ hne, hline⟩
  · have hv : v ∈ ([] : List Str) := h2 ▸ huv
    simp at hv

/-- C5 as amended — the selection is exact: a pattern being given, a named
block has its lines in the output of `filterByWhitelist` only if a block of
the same name is initially selected (its origin matches the path pattern when
one is given and its name matches the name pattern when one is given), or its
name is reached from the name of an initially selected block along references,
each a whole-word occurrence of another name on a non-comment line of a block
bearing the referring name. -/
theorem selection_exact (ord : MapOrder) (raw : Str)
    (fileRegexp typeRegexp : Option (Str → Bool))
    (hpat : fileRegexp.isSome = true ∨ typeRegexp.isSome = true)
    (b : TsBlock) (hb : b ∈ blocksOf raw) (hn : b.name ≠ [])
    (hemit : b.lines <:+: splitLines (filterByWhitelist ord raw fileRegexp typeRegexp)) :
    ∃ a ∈ blocksOf raw, a.name ≠ [] ∧
      matchesWhitelist a.source a.name fileRegexp typeRegexp = true ∧
      Relation.ReflTransGen (NameRefers (blocksOf raw)) a.name b.name := by
  have hsel := selected_of_lines_infix ord raw fileRegexp typeRegexp hpat b hb hn hemit
  obtain ⟨a, ha, han, ham, hr⟩ :=
    (mem_selectedNames ord (blocksOf raw) fileRegexp typeRegexp b.name).1 hsel
  exact ⟨a, ha, han, ham, nameRefers_of_reaches _ _ _ hr⟩

/-- C5 as amended, at the chain text with the pattern `^A$`: the block of `C`
is in the output, and is reached from a block that matches. -/
theorem selection_exact_witness :
    ∃ a ∈ blocksOf rawChain, a.name ≠ [] ∧
      matchesWhitelist a.source a.name none (some onlyA) = true ∧
      Relation.ReflTransGen (NameRefers (blocksOf rawChain)) a.name chainC.name :=
  selection_exact MapOrder.insertion rawChain none (some onlyA) (by decide) chainC
    (by decide) (by decide) (by decide)

/-- C5 as stated fails when two blocks declare one name. With the path pattern
`^foo/`, the second block of `rawDup` is in the output although its origin
`baz/b` does not match the pattern and no block refers to its name: the name
`X` was selected through the first block. -/
theorem selection_exact_counterexample :
    dupSecond ∈ blocksOf rawDup ∧ dupSecond.name ≠ [] ∧
    dupSecond.lines <:+:
      splitLines (filterByWhitelist MapOrder.insertion rawDup (some underFoo) none) ∧
    matchesWhitelist dupSecond.source dupSecond.name (some underFoo) none = false ∧
    ¬ ∃ n, NameRefers (blocksOf rawDup) n dupSecond.name := by
  refine ⟨by decide, by decide, by decide, by decide, ?_⟩
  rintro ⟨n, c, hc, hcn, _, hx, _⟩
  have hall : ∀ c ∈ blocksOf rawDup, c.name = dupSecond.name := by decide
  exact hx ((hall c hc).symm.trans hcn)

/-! ## The deduplicator on a text of blocks -/

theorem isDeclLine_of_isDedupComment (c : Str) (h : isDedupComment c = true) :
    isDeclLine c = false := by
  cases c with
  | nil => rfl
  | cons x xs =>
    by_cases hx : x = 'e'
    · subst hx
      simp [isDedupComment, hasPrefix, List.isPrefixOf] at h
    · have hx' : ¬ 'e' = x := fun e => hx e.symm
      simp [isDeclLine, hasPrefix, introInterface, introType, List.isPrefixOf, hx']

theorem dedup_foldl_body_skipped (body : List Str) :
    ∀ st : DedupState, st.skip = true →
      (∀ l ∈ body, l ≠ [] ∧ isDeclLine l = false ∧ isDedupComment l = false) →
      body.foldl dedupStep st = st := by
  induction body with
  | nil => intro st _ _; rfl
  | cons l ls ih =>
    intro st hk hall
    obtain ⟨h1, h2, h3⟩ := hall l (List.mem_cons_self _ _)
    have hstep : dedupStep st l = st := by simp [dedupStep, h1, h2, h3, hk]
    rw [List.foldl_cons, hstep]
    exact ih st hk (fun x hx => hall x (List.mem_cons_of_mem _ hx))

theorem dedup_foldl_body_kept (body : List Str) :
    ∀ st : DedupState, st.skip = false →
      (∀ l ∈ body, l ≠ [] ∧ isDeclLine l = false ∧ isDedupComment l = false) →
      body.foldl dedupStep st = { st with result := st.result ++ body } := by
  induction body with
  | nil => intro st _ _; simp
  | cons l ls ih =>
    intro st hk hall
    obtain ⟨h1, h2, h3⟩ := hall l (List.mem_cons_self _ _)
    have hstep : dedupStep st l = { st with result := st.result ++ [l] } := by
      simp [dedupStep, h1, h2, h3, hk]
    rw [List.foldl_cons, hstep,
      ih { st with result := st.result ++ [l] } hk
        (fun x hx => hall x (List.mem_cons_of_mem _ hx))]
    simp

theorem asRead_parts (b : DocBlock) (h : b.asRead = true) :
    (∀ c ∈ b.comments, isDedupComment c = true) ∧ isDeclLine b.decl = true ∧
    (∀ l ∈ b.body, l ≠ [] ∧ isDeclLine l = false ∧ isDedupComment l = false) := by
  simp only [DocBlock.asRead, Bool.and_eq_true, List.all_eq_true, decide_eq_true_eq,
    Bool.not_eq_true', ne_eq, Bool.decide_eq_true] at h
  exact ⟨h.1.1.2, h.1.2, fun l hl => ⟨(h.2 l hl).1.1, (h.2 l hl).1.2, (h.2 l hl).2⟩⟩

theorem isDedupComment_marker (origin : Str) : isDedupComment (fromMarker ++ origin) = true := by
  simp [isDedupComment, hasPrefix, fromMarker, List.isPrefixOf]

/-- The deduplicator over one block read between blocks: a block whose name
has been seen leaves the state as it was, any other block is appended whole. -/
theorem dedup_foldl_block (b : DocBlock) (hb : b.asRead = true) (st : DedupState)
    (hk : st.skip = false) (hp : st.pendingComment = []) :
    b.lines.foldl dedupStep st =
      if extractTypeName b.decl ∈ st.seen then st
      else { result := st.result ++ b.lines
             seen := st.seen ++ [extractTypeName b.decl]
             skip := false
             pendingComment := [] } := by
  obtain ⟨hc, hd, hbody⟩ := asRead_parts b hb
  have hsplit : b.lines = ((fromMarker ++ b.origin) :: b.comments) ++ ([b.decl] ++ (b.body ++ [[]])) := by
    simp [DocBlock.lines]
  have hpend : ((fromMarker ++ b.origin) :: b.comments).foldl dedupStep st =
      { st with pendingComment := (fromMarker ++ b.origin) :: b.comments } := by
    rw [dedup_foldl_pending _ st hk ?_ (Or.inr (Or.inr ⟨_, _, rfl, isDedupComment_marker _⟩)), hp]
    · simp
    · intro l hl
      rcases List.mem_cons.1 hl with h | h
      · subst h
        exact ⟨isDeclLine_of_isDedupComment _ (isDedupComment_marker _),
          Or.inl (isDedupComment_marker _)⟩
      · exact ⟨isDeclLine_of_isDedupComment _ (hc l h), Or.inl (hc l h)⟩
  rw [hsplit, List.foldl_append, hpend, List.foldl_append]
  by_cases hs : extractTypeName b.decl ∈ st.seen
  · have hdecl : [b.decl].foldl dedupStep
        { st with pendingComment := (fromMarker ++ b.origin) :: b.comments } =
        { st with skip := true, pendingComment := [] } := by
      simp [dedupStep, hd, hs]
    rw [hdecl, List.foldl_append,
      dedup_foldl_body_skipped b.body { st with skip := true, pendingComment := [] } rfl hbody]
    simp only [hs, if_true]
    have : dedupStep { st with skip := true, pendingComment := [] } [] =
        { st with skip := false, pendingComment := [] } := by
      simp [dedupStep, isDeclLine_nil, isDedupComment_nil]
    rw [List.foldl_cons, List.foldl_nil, this]
    cases st
    simp_all
  · have hdecl : [b.decl].foldl dedupStep
        { st with pendingComment := (fromMarker ++ b.origin) :: b.comments } =
        { result := st.result ++ ((fromMarker ++ b.origin) :: b.comments) ++ [b.decl]
          seen := st.seen ++ [extractTypeName b.decl]
          skip := false
          pendingComment := [] } := by
      simp [dedupStep, hd, hs]
    rw [hdecl, List.foldl_append, dedup_foldl_body_kept b.body _ rfl hbody]
    simp only [hs, if_false]
    simp [dedupStep, isDeclLine_nil, isDedupComment_nil, DocBlock.lines]

theorem dedup_foldl_blocks (bs : List DocBlock) (hbs : ∀ b ∈ bs, b.asRead = true) :
    ∀ st : DedupState, st.skip = false → st.pendingComment = [] →
      ((docLines bs).foldl dedupStep st).result =
        st.result ++ docLines (firstBlocks st.seen bs) := by
  induction bs with
  | nil => intro st _ _; simp [docLines, firstBlocks]
  | cons b bs ih =>
    intro st hk hp
    have hb := hbs b (List.mem_cons_self _ _)
    have hrest : ∀ c ∈ bs, c.asRead = true := fun c hc => hbs c (List.mem_cons_of_mem _ hc)
    simp only [docLines, List.foldl_append]
    rw [dedup_foldl_block b hb st hk hp]
    by_cases hs : extractTypeName b.decl ∈ st.seen
    · simp only [hs, if_true, firstBlocks]
      exact ih hrest st hk hp
    · simp only [hs, if_false, firstBlocks]
      rw [ih hrest _ rfl rfl]
      simp [docLines]

theorem newline_free_docLines (bs : List DocBlock) (hbs : ∀ b ∈ bs, b.oneLineEach = true) :
    ∀ l ∈ docLines bs, '\n' ∉ l := by
  induction bs with
  | nil => intro l hl; simp [docLines] at hl
  | cons b bs ih =>
    intro l hl
    simp only [docLines, List.mem_append] at hl
    rcases hl with h | h
    · have hb := hbs b (List.mem_cons_self _ _)
      simp only [DocBlock.oneLineEach, Bool.and_eq_true, Bool.not_eq_true', List.all_eq_true,
        List.contains_eq_any_beq, List.any_eq_false, beq_iff_eq] at hb
      simp only [DocBlock.lines, List.mem_cons, List.mem_append, List.mem_singleton,
        List.not_mem_nil, or_false] at h
      rcases h with h | ((h | h) | h) | h
      · subst h
        intro hmem
        rcases List.mem_append.1 hmem with h' | h'
        · revert h'; decide
        · exact hb.1.1.1 _ h' rfl
      · intro hmem
        exact hb.1.1.2 l h _ hmem rfl
      · subst h
        intro hmem
        exact hb.1.2 _ hmem rfl
      · intro hmem
        exact hb.2 l h _ hmem rfl
      · subst h
        simp
    · exact ih (fun c hc => hbs c (List.mem_cons_of_mem _ hc)) l h

/-- C9 as amended — the deduplicator removes a repeated block in full: for a
text that is a sequence of blocks, each an origin marker line, comment lines
that begin with `/**`, ` *` or ` */` (or `// From `), a declaration line, body
lines that are neither empty, nor declarations, nor begin with one of those
comment openers, and an empty line, `deduplicateTypes` returns the blocks whose
name no earlier block declares, whole and in order, and nothing else. -/
theorem dedup_removes_repeated_blocks (blocks : List DocBlock)
    (h : ∀ b ∈ blocks, b.asRead = true) :
    deduplicateTypes (joinLines (docLines blocks)) =
      joinLines (docLines (firstBlocks [] blocks)) := by
  cases blocks with
  | nil => decide
  | cons b bs =>
    have hne : docLines (b :: bs) ≠ [] := by simp [docLines, DocBlock.lines]
    have hfree := newline_free_docLines (b :: bs) (fun c hc => by
      have := h c hc
      simp only [DocBlock.asRead, Bool.and_eq_true] at this
      exact this.1.1.1)
    unfold deduplicateTypes
    rw [splitLines_joinLines _ hne hfree]
    have := dedup_foldl_blocks (b :: bs) h
      { result := [], seen := [], skip := false, pendingComment := [] } rfl rfl
    simp only [List.nil_append] at this
    show joinLines ((docLines (b :: bs)).foldl dedupStep _).result = _
    rw [this]

/-- C9 as amended, at a text with two blocks named `Dup`. -/
theorem dedup_removes_repeated_blocks_witness :
    deduplicateTypes (joinLines (docLines blocksDup)) =
      joinLines (docLines (firstBlocks [] blocksDup)) :=
  dedup_removes_repeated_blocks blocksDup (by decide)

/-- C9 as stated fails twice. A `//` line comment that is not an origin marker
is not held back with the marker: that of a first-seen block is emitted before
its marker and that of a repeated block is emitted although the block is
dropped. And a body line that begins with a blank and a star is held back as a
comment and lost. -/
theorem dedup_removes_repeated_blocks_counterexample :
    ((∀ b ∈ blocksLineComment, b.asClaimed = true) ∧
      deduplicateTypes (joinLines (docLines blocksLineComment)) ≠
        joinLines (docLines (firstBlocks [] blocksLineComment)) ∧
      deduplicateTypes (joinLines (docLines blocksLineComment)) =
        "// first\n// From a\nexport type Dup = 1\n\n// second".toList) ∧
    ((∀ b ∈ blocksStarBody, b.asClaimed = true) ∧
      deduplicateTypes (joinLines (docLines blocksStarBody)) ≠
        joinLines (docLines (firstBlocks [] blocksStarBody)) ∧
      deduplicateTypes (joinLines (docLines blocksStarBody)) =
        "// From a\nexport type A =".toList) := by
  decide

/-- C10 at a failing input: with `A` excluded, `filterInterfaceTypes` keeps the
origin marker of the excluded block `A` and removes that of the retained block
`B`, where the concatenation of the blocks that are not excluded is the block
`B` with its own marker. -/
theorem filterInterfaceTypes_failing_input :
    filterInterfaceTypes (joinLines (docLines blocksIface)) ["A".toList] =
      "// From a\nexport type B = string\n".toList ∧
    joinLines (docLines (blocksIface.filter
        (fun b => decide (extractTypeName b.decl ∉ ["A".toList])))) =
      "// From b\nexport type B = string\n".toList := by
  decide

/-! ## The declaration-name prefix -/

theorem replaceAll_append (a b : Str) (old : Char) (new : Str) :
    replaceAll (a ++ b) old new = replaceAll a old new ++ replaceAll b old new := by
  induction a with
  | nil => simp [replaceAll]
  | cons c cs ih =>
    by_cases h : c = old
    · simp [replaceAll, h, ih]
    · simp [replaceAll, h, ih]

theorem sanitizePath_nil : sanitizePath [] = [] := by decide

/-- The four replacements together act character by character. -/
theorem sanitizePath_cons (c : Char) (cs : Str) :
    sanitizePath (c :: cs) = sanitizeChar c ++ sanitizePath cs := by
  have e : (c :: cs) = [c] ++ cs := rfl
  rw [e]
  simp only [sanitizePath, replaceAll_append]
  congr 1
  by_cases h1 : c = '/'
  · subst h1; decide
  · by_cases h2 : c = '-'
    · subst h2; decide
    · by_cases h3 : c = '.'
      · subst h3; decide
      · by_cases h4 : c = '@'
        · subst h4; decide
        · simp [replaceAll, sanitizeChar, h1, h2, h3, h4]

theorem sanitizeChar_ne_nil (c : Char) : sanitizeChar c ≠ [] := by
  unfold sanitizeChar
  split
  · decide
  · split
    · decide
    · simp

theorem sanitizePath_eq_nil (rel : Str) : sanitizePath rel = [] ↔ rel = [] := by
  cases rel with
  | nil => simp [sanitizePath_nil]
  | cons c cs =>
    rw [sanitizePath_cons]
    simp [sanitizeChar_ne_nil]

theorem mem_sanitizeChar (c x : Char) (h : x ∈ sanitizeChar c) :
    x ≠ '/' ∧ x ≠ '-' ∧ x ≠ '.' ∧ x ≠ '@' := by
  unfold sanitizeChar at h
  split at h
  · simp only [String.toList, List.mem_cons, List.mem_singleton, List.not_mem_nil, or_false,
      or_self] at h
    subst h; decide
  · split at h
    · simp only [String.toList, List.mem_singleton] at h
      subst h; decide
    · next h1 h2 =>
      simp only [List.mem_singleton] at h
      subst h
      simp only [not_or] at h2
      exact ⟨h1, h2.1, h2.2.1, h2.2.2⟩

theorem mem_sanitizePath (rel : Str) :
    ∀ x ∈ sanitizePath rel, x ≠ '/' ∧ x ≠ '-' ∧ x ≠ '.' ∧ x ≠ '@' := by
  induction rel with
  | nil => intro x hx; simp [sanitizePath_nil] at hx
  | cons c cs ih =>
    intro x hx
    rw [sanitizePath_cons] at hx
    rcases List.mem_append.1 hx with h | h
    · exact mem_sanitizeChar c x h
    · exact ih x h

theorem guardFirst_eq (pfx : Str) :
    guardFirst pfx =
      if startsWithLetterOrUnderscore pfx = true ∨ pfx = [] then pfx else "pkg_".toList ++ pfx := by
  cases pfx with
  | nil => simp [guardFirst]
  | cons c cs =>
    by_cases h : isLetterOrUnderscore c = true
    · simp [guardFirst, startsWithLetterOrUnderscore, h]
    · simp [guardFirst, startsWithLetterOrUnderscore, h]

theorem prefixForImportPath_eq (root path : Str) (h : relSuffix root path ≠ []) :
    prefixForImportPath root path =
      (if startsWithLetterOrUnderscore (sanitizePath (relSuffix root path)) = true
        then sanitizePath (relSuffix root path)
        else "pkg_".toList ++ sanitizePath (relSuffix root path)) ++ "_".toList := by
  have hs : sanitizePath (relSuffix root path) ≠ [] := fun e => h ((sanitizePath_eq_nil _).1 e)
  simp only [prefixForImportPath, h, hs, if_false, guardFirst_eq, or_false]

theorem relSuffix_self (root : Str) : relSuffix root root = [] := by
  simp [relSuffix, trimPrefix, hasPrefix]

theorem prefix_shape_aux (root path : Str) :
    (relSuffix root path = [] → prefixForImportPath root path = []) ∧
    prefixForImportPath root root = [] :=
  ⟨fun h => by simp [prefixForImportPath, h], by simp [prefixForImportPath, relSuffix_self]⟩

/-- C12 — shape of the prefix: `prefixForImportPath` returns the empty string
when the relative suffix is empty, in particular for the root itself; otherwise
it returns the sanitized suffix, with `pkg_` in front exactly when the sanitized
suffix does not begin with an ASCII letter or an underscore, followed by `_`:
a string without `/`, `-`, `.` and `@`, that begins with an ASCII letter or an
underscore and ends with `_`. -/
theorem prefix_shape (root path : Str) :
    (relSuffix root path = [] → prefixForImportPath root path = []) ∧
    prefixForImportPath root root = [] ∧
    (relSuffix root path ≠ [] →
      prefixForImportPath root path =
        (if startsWithLetterOrUnderscore (sanitizePath (relSuffix root path)) = true
          then sanitizePath (relSuffix root path)
          else "pkg_".toList ++ sanitizePath (relSuffix root path)) ++ "_".toList ∧
      (∀ c ∈ prefixForImportPath root path, c ≠ '/' ∧ c ≠ '-' ∧ c ≠ '.' ∧ c ≠ '@') ∧
      startsWithLetterOrUnderscore (prefixForImportPath root path) = true ∧
      (∃ body, prefixForImportPath root path = body ++ ['_'])) := by
  refine ⟨fun h => by simp [prefixForImportPath, h], by
    simp [prefixForImportPath, relSuffix_self], fun h => ?_⟩
  have e := prefixForImportPath_eq root path h
  refine ⟨e, ?_, ?_, ?_⟩
  · have hg : ∀ c ∈ "pkg_".toList, c ≠ '/' ∧ c ≠ '-' ∧ c ≠ '.' ∧ c ≠ '@' := by decide
    have hu : ∀ c ∈ "_".toList, c ≠ '/' ∧ c ≠ '-' ∧ c ≠ '.' ∧ c ≠ '@' := by decide
    intro c hc
    rw [e] at hc
    rcases List.mem_append.1 hc with h1 | h1
    · split at h1
      · exact mem_sanitizePath _ c h1
      · rcases List.mem_append.1 h1 with h2 | h2
        · exact hg c h2
        · exact mem_sanitizePath _ c h2
    · exact hu c h1
  · rw [e]
    split
    · next hs =>
      cases hsp : sanitizePath (relSuffix root path) with
      | nil => rw [hsp] at hs; simp [startsWithLetterOrUnderscore] at hs
      | cons x xs =>
        rw [hsp] at hs
        simpa [startsWithLetterOrUnderscore] using hs
    · rfl
  · rw [e]
    exact ⟨_, rfl⟩

theorem sanitizeChar_plain (c : Char) (h : c ≠ '-' ∧ c ≠ '.' ∧ c ≠ '@' ∧ c ≠ '_') :
    (c = '/' ∧ sanitizeChar c = ['_', '_']) ∨ (c ≠ '/' ∧ sanitizeChar c = [c]) := by
  by_cases h1 : c = '/'
  · exact Or.inl ⟨h1, by subst h1; decide⟩
  · exact Or.inr ⟨h1, by simp [sanitizeChar, h1, h.1, h.2.1, h.2.2.1]⟩

theorem sanitizePath_head_other (a : Str) (ha : plainSuffix a) (x : Char) (rest : Str)
    (e : sanitizePath a = x :: rest) (hx : x ≠ '_') :
    ∃ a', a = x :: a' ∧ sanitizePath a' = rest := by
  cases a with
  | nil => simp [sanitizePath_nil] at e
  | cons c cs =>
    rw [sanitizePath_cons] at e
    rcases sanitizeChar_plain c (ha c (List.mem_cons_self _ _)) with ⟨_, h2⟩ | ⟨_, h2⟩
    · rw [h2] at e
      simp only [List.cons_append, List.cons.injEq] at e
      exact absurd e.1.symm hx
    · rw [h2] at e
      simp only [List.cons_append, List.nil_append, List.cons.injEq] at e
      exact ⟨cs, by rw [e.1], e.2⟩

theorem sanitizePath_head_underscore (a : Str) (ha : plainSuffix a) (rest : Str)
    (e : sanitizePath a = '_' :: rest) :
    ∃ a', a = '/' :: a' ∧ rest = '_' :: sanitizePath a' := by
  cases a with
  | nil => simp [sanitizePath_nil] at e
  | cons c cs =>
    rw [sanitizePath_cons] at e
    have hc := ha c (List.mem_cons_self _ _)
    rcases sanitizeChar_plain c hc with ⟨h1, h2⟩ | ⟨_, h2⟩
    · rw [h2] at e
      simp only [List.cons_append, List.nil_append, List.cons.injEq, true_and] at e
      exact ⟨cs, by rw [h1], e.symm⟩
    · rw [h2] at e
      simp only [List.cons_append, List.nil_append, List.cons.injEq] at e
      exact absurd e.1 hc.2.2.2

theorem plainSuffix_tail (c : Char) (cs : Str) (h : plainSuffix (c :: cs)) : plainSuffix cs :=
  fun x hx => h x (List.mem_cons_of_mem _ hx)

/-- On suffixes without `-`, `.`, `@` and `_` the sanitizing loses nothing. -/
theorem sanitizePath_injective (a : Str) :
    ∀ b : Str, plainSuffix a → plainSuffix b → sanitizePath a = sanitizePath b → a = b := by
  induction a with
  | nil =>
    intro b _ _ e
    rw [sanitizePath_nil] at e
    exact ((sanitizePath_eq_nil b).1 e.symm).symm
  | cons c cs ih =>
    intro b ha hb e
    rw [sanitizePath_cons] at e
    rcases sanitizeChar_plain c (ha c (List.mem_cons_self _ _)) with ⟨h1, h2⟩ | ⟨_, h2⟩
    · rw [h2] at e
      have e2 : sanitizePath b = '_' :: ('_' :: sanitizePath cs) := e.symm
      obtain ⟨b', hb', e'⟩ := sanitizePath_head_underscore b hb _ e2
      subst hb'
      rw [h1, ih b' (plainSuffix_tail _ _ ha) (plainSuffix_tail _ _ hb) (List.cons.inj e').2]
    · rw [h2] at e
      obtain ⟨b', hb', e'⟩ := sanitizePath_head_other b hb c _ e.symm
        (ha c (List.mem_cons_self _ _)).2.2.2
      subst hb'
      rw [ih b' (plainSuffix_tail _ _ ha) (plainSuffix_tail _ _ hb) e'.symm]

/-- A sanitized plain suffix does not read `pkg_` followed by a string that
needed the guard. -/
theorem sanitizePath_ne_guarded (a : Str) (ha : plainSuffix a) (t : Str)
    (ht : startsWithLetterOrUnderscore t = false)
    (e : sanitizePath a = "pkg_".toList ++ t) : False := by
  have e0 : sanitizePath a = 'p' :: 'k' :: 'g' :: '_' :: t := e
  obtain ⟨a1, h1, e1⟩ := sanitizePath_head_other a ha 'p' _ e0 (by decide)
  subst h1
  have ha1 := plainSuffix_tail _ _ ha
  obtain ⟨a2, h2, e2⟩ := sanitizePath_head_other a1 ha1 'k' _ e1 (by decide)
  subst h2
  have ha2 := plainSuffix_tail _ _ ha1
  obtain ⟨a3, h3, e3⟩ := sanitizePath_head_other a2 ha2 'g' _ e2 (by decide)
  subst h3
  have ha3 := plainSuffix_tail _ _ ha2
  obtain ⟨a4, _, e4⟩ := sanitizePath_head_underscore a3 ha3 _ e3
  rw [e4] at ht
  simp [startsWithLetterOrUnderscore, isLetterOrUnderscore] at ht

theorem prefixBody_injective (a b : Str) (ha : plainSuffix a) (hb : plainSuffix b)
    (e : (if startsWithLetterOrUnderscore (sanitizePath a) = true then sanitizePath a
          else "pkg_".toList ++ sanitizePath a) =
         (if startsWithLetterOrUnderscore (sanitizePath b) = true then sanitizePath b
          else "pkg_".toList ++ sanitizePath b)) : a = b := by
  by_cases h1 : startsWithLetterOrUnderscore (sanitizePath a) = true
  · by_cases h2 : startsWithLetterOrUnderscore (sanitizePath b) = true
    · simp only [h1, h2, if_true] at e
      exact sanitizePath_injective a b ha hb e
    · simp only [h1, h2, if_true, if_false] at e
      exact (sanitizePath_ne_guarded a ha _ (by simpa using h2) e).elim
  · by_cases h2 : startsWithLetterOrUnderscore (sanitizePath b) = true
    · simp only [h1, h2, if_true, if_false] at e
      exact (sanitizePath_ne_guarded b hb _ (by simpa using h1) e.symm).elim
    · simp only [h1, h2, if_false] at e
      exact sanitizePath_injective a b ha hb (List.append_cancel_left e)

/-- C11 as amended — prefix injectivity: two package paths whose relative
suffixes differ and hold none of the characters `-`, `.`, `@` and `_` get
different prefixes. -/
theorem prefix_injective (root path₁ path₂ : Str)
    (h₁ : plainSuffix (relSuffix root path₁)) (h₂ : plainSuffix (relSuffix root path₂))
    (hne : relSuffix root path₁ ≠ relSuffix root path₂) :
    prefixForImportPath root path₁ ≠ prefixForImportPath root path₂ := by
  intro e
  apply hne
  by_cases ha : relSuffix root path₁ = []
  · by_cases hb : relSuffix root path₂ = []
    · rw [ha, hb]
    · rw [(prefix_shape_aux root path₁).1 ha, prefixForImportPath_eq root path₂ hb] at e
      simp at e
  · by_cases hb : relSuffix root path₂ = []
    · rw [(prefix_shape_aux root path₂).1 hb, prefixForImportPath_eq root path₁ ha] at e
      simp at e
    · rw [prefixForImportPath_eq root path₁ ha, prefixForImportPath_eq root path₂ hb] at e
      exact prefixBody_injective _ _ h₁ h₂ (List.append_cancel_right e)

/-- C11 as amended, at the paths `r/a/b` and `r/ab`. -/
theorem prefix_injective_witness :
    prefixForImportPath "r".toList "r/a/b".toList ≠ prefixForImportPath "r".toList "r/ab".toList :=
  prefix_injective "r".toList "r/a/b".toList "r/ab".toList (by decide) (by decide) (by decide)

/-- C11 as stated fails: the sanitizing maps `-`, `.` and `@` to `_` and `/`
to `__`, and the guard puts `pkg_` in front, so suffixes that differ in these
get the same prefix. -/
theorem prefix_injective_counterexample :
    (relSuffix "r".toList "r/a-b".toList ≠ relSuffix "r".toList "r/a.b".toList ∧
      prefixForImportPath "r".toList "r/a-b".toList =
        prefixForImportPath "r".toList "r/a.b".toList) ∧
    (relSuffix "r".toList "r/a@b".toList ≠ relSuffix "r".toList "r/a_b".toList ∧
      prefixForImportPath "r".toList "r/a@b".toList =
        prefixForImportPath "r".toList "r/a_b".toList) ∧
    (relSuffix "r".toList "r/a/b".toList ≠ relSuffix "r".toList "r/a__b".toList ∧
      prefixForImportPath "r".toList "r/a/b".toList =
        prefixForImportPath "r".toList "r/a__b".toList) ∧
    (relSuffix "r".toList "r/1a".toList ≠ relSuffix "r".toList "r/pkg_1a".toList ∧
      prefixForImportPath "r".toList "r/1a".toList =
        prefixForImportPath "r".toList "r/pkg_1a".toList) := by
  decide

/-! ## Header retention -/

theorem takeWhile_append_stop (p : Str → Bool) (xs ys : List Str)
    (hxs : ∀ x ∈ xs, p x = true) (hys : ∀ y rest, ys = y :: rest → p y = false) :
    (xs ++ ys).takeWhile p = xs := by
  induction xs with
  | nil =>
    cases ys with
    | nil => rfl
    | cons y rest => simp [List.takeWhile, hys y rest rfl]
  | cons x xs ih =>
    simp only [List.cons_append, List.takeWhile_cons, hxs x (List.mem_cons_self _ _), if_true]
    rw [ih (fun z hz => hxs z (List.mem_cons_of_mem _ hz))]

/-- The header of the splitting loop is made of the lines before the first
origin marker line. -/
theorem parseBlocks_header (lines : List Str) : (parseBlocks lines).1 = headerOf lines := by
  have h := parseBlocks_lines lines
  obtain ⟨h1, h2⟩ := parseBlocks_shape lines
  unfold headerOf
  conv_rhs => rw [← h]
  rw [takeWhile_append_stop _ _ _ (fun x hx => by simp [h1 x hx])
    (fun y rest e => by simp [concatLines_head_marker _ h2 y rest e])]

/-- C13 — header retention: whatever the patterns, the output of
`filterByWhitelist` is the join of a sequence of lines (which is the sequence
of the lines of the output unless it is empty) that begins with the lines
preceding the first origin marker line, verbatim and in order, and that is a
subsequence of the lines of the input. -/
theorem header_retention (ord : MapOrder) (raw : Str)
    (fileRegexp typeRegexp : Option (Str → Bool)) :
    ∃ kept : List Str,
      filterByWhitelist ord raw fileRegexp typeRegexp = joinLines kept ∧
      (kept ≠ [] → splitLines (filterByWhitelist ord raw fileRegexp typeRegexp) = kept) ∧
      headerOf (splitLines raw) <+: kept ∧
      kept.Sublist (splitLines raw) := by
  by_cases hpat : fileRegexp.isSome = true ∨ typeRegexp.isSome = true
  · refine ⟨whitelistLines ord raw fileRegexp typeRegexp, ?_,
      splitLines_filterByWhitelist ord raw fileRegexp typeRegexp hpat, ?_,
      whitelistLines_sublist ord raw fileRegexp typeRegexp⟩
    · cases fileRegexp <;> cases typeRegexp <;> simp_all [filterByWhitelist]
    · rw [← parseBlocks_header]
      exact ⟨_, rfl⟩
  · have h1 : fileRegexp = none := by
      cases fileRegexp with
      | none => rfl
      | some _ => simp at hpat
    have h2 : typeRegexp = none := by
      cases typeRegexp with
      | none => rfl
      | some _ => simp at hpat
    subst h1 h2
    exact ⟨splitLines raw, (joinLines_splitLines raw).symm, fun _ => rfl,
      List.takeWhile_prefix _, List.Sublist.refl _⟩

/-! ## Errors of `GenerateTypesWithOptions` -/

/-- C14 — a missing root directory is rejected: when `PkgDir` is the empty
string, whatever the other options and whatever the file system and the engine
would answer, `GenerateTypesWithOptions` returns the empty output and the error
`pkg-dir is required`, and makes no call at all. -/
theorem missing_pkgDir_rejected (w : World) (pkgPath includePattern includeType : Str) :
    (GenerateTypesWithOptions w
      { PkgPath := pkgPath, PkgDir := [], IncludePattern := includePattern,
        IncludeType := includeType }).err = some "pkg-dir is required".toList ∧
    (GenerateTypesWithOptions w
      { PkgPath := pkgPath, PkgDir := [], IncludePattern := includePattern,
        IncludeType := includeType }).output = [] ∧
    (GenerateTypesWithOptions w
      { PkgPath := pkgPath, PkgDir := [], IncludePattern := includePattern,
        IncludeType := includeType }).steps = [] := by
  simp [GenerateTypesWithOptions, failWith]

/-- C15 as amended — an invalid filter pattern is reported once the earlier
steps have succeeded: with a root directory given, when the directory and
the import path resolve and discovery, classification, parser creation,
conversion and serialization succeed, `GenerateTypesWithOptions` returns the empty output
and the compilation error of `IncludePattern`, or that of `IncludeType` when
`IncludePattern` is empty or compiles. -/
theorem invalid_pattern_reported (w : World) (opts : Options)
    (pkgDir pkgImportPath : Str) (packages interfaceTypes : List Str) (output : Str)
    (hdir : opts.PkgDir ≠ [])
    (h₁ : resolvePkgDir w opts.PkgDir = .ok pkgDir)
    (h₂ : resolvePkgPath w pkgDir opts.PkgPath = .ok pkgImportPath)
    (h₃ : w.findPackages pkgDir pkgImportPath = .ok packages)
    (h₄ : w.collectInterfaceTypeNames pkgDir pkgImportPath = .ok interfaceTypes)
    (h₅ : w.newGolangParser = .ok ())
    (h₆ : w.toTypescript (includePackages w pkgImportPath packages) = .ok ())
    (h₇ : w.serialize (includePackages w pkgImportPath packages) = .ok output) :
    (∀ e, opts.IncludePattern ≠ [] → w.regexpCompile opts.IncludePattern = .error e →
      (GenerateTypesWithOptions w opts).err = some ("compile include pattern: ".toList ++ e) ∧
      (GenerateTypesWithOptions w opts).output = []) ∧
    (∀ e, (opts.IncludePattern = [] ∨ ∃ re, w.regexpCompile opts.IncludePattern = .ok re) →
      opts.IncludeType ≠ [] → w.regexpCompile opts.IncludeType = .error e →
      (GenerateTypesWithOptions w opts).err =
        some ("compile include type pattern: ".toList ++ e) ∧
      (GenerateTypesWithOptions w opts).output = []) := by
  have hgen : GenerateTypesWithOptions w opts =
      match applyWhitelist w opts output with
      | (s, .error e) =>
        failWith ([Step.resolvePkgDir, Step.resolvePkgPath, Step.findPackages,
          Step.collectInterfaceTypeNames] ++ [Step.newGolangParser] ++
          includeSteps pkgImportPath packages ++ [Step.toTypescript, Step.serialize] ++ s) e
      | (s, .ok output) =>
        { steps := [Step.resolvePkgDir, Step.resolvePkgPath, Step.findPackages,
            Step.collectInterfaceTypeNames] ++ [Step.newGolangParser] ++
            includeSteps pkgImportPath packages ++ [Step.toTypescript, Step.serialize] ++ s
          output := deduplicateTypes (filterInterfaceTypes output interfaceTypes)
          err := none } := by
    simp only [GenerateTypesWithOptions, hdir, if_false, h₁, h₂, h₃, h₄, generateFrom, h₅, h₆, h₇]
  constructor
  · intro e hp he
    have ha : applyWhitelist w opts output =
        ([Step.regexpCompile opts.IncludePattern],
          .error ("compile include pattern: ".toList ++ e)) := by
      simp [applyWhitelist, compileOptional, hp, he]
    rw [hgen, ha]
    exact ⟨rfl, rfl⟩
  · intro e hfile ht he
    rcases hfile with hp | ⟨re, hre⟩
    · have ha : applyWhitelist w opts output =
          ([Step.regexpCompile opts.IncludeType],
            .error ("compile include type pattern: ".toList ++ e)) := by
        simp [applyWhitelist, compileOptional, hp, ht, he]
      rw [hgen, ha]
      exact ⟨rfl, rfl⟩
    · by_cases hp : opts.IncludePattern = []
      · have ha : applyWhitelist w opts output =
            ([Step.regexpCompile opts.IncludeType],
              .error ("compile include type pattern: ".toList ++ e)) := by
          simp [applyWhitelist, compileOptional, hp, ht, he]
        rw [hgen, ha]
        exact ⟨rfl, rfl⟩
      · have ha : applyWhitelist w opts output =
            ([Step.regexpCompile opts.IncludePattern] ++ [Step.regexpCompile opts.IncludeType],
              .error ("compile include type pattern: ".toList ++ e)) := by
          simp [applyWhitelist, compileOptional, hp, hre, ht, he]
        rw [hgen, ha]
        exact ⟨rfl, rfl⟩

/-- C15 as amended, in a world where every earlier step succeeds and the path
pattern is `(`. -/
theorem invalid_pattern_reported_witness :
    (GenerateTypesWithOptions sampleWorld optsBadPattern).err =
      some "compile include pattern: error parsing regexp: missing closing )".toList ∧
    (GenerateTypesWithOptions sampleWorld optsBadPattern).output = [] :=
  (invalid_pattern_reported sampleWorld optsBadPattern "pkg".toList
    "example.com/test/pkg".toList ["example.com/test/pkg/foo".toList]
    ["foo_Transaction".toList] "// From foo/a.go\nexport interface foo_A \x7b\n\x7d\n".toList
    (by decide) rfl rfl rfl rfl rfl rfl rfl).1
    "error parsing regexp: missing closing )".toList (by decide) rfl

/-- C15 as stated fails: the patterns are compiled after serialization. When
the root directory cannot be read, the error returned is that of the directory
and the pattern is never compiled; when every step succeeds, discovery,
classification and conversion have all been done before the pattern is
compiled. -/
theorem invalid_pattern_counterexample :
    ((GenerateTypesWithOptions worldNoDir optsBadPattern).err =
        some "resolve pkg dir: stat pkg directory: no such file".toList ∧
      (GenerateTypesWithOptions worldNoDir optsBadPattern).steps = [Step.resolvePkgDir]) ∧
    (GenerateTypesWithOptions sampleWorld optsBadPattern).steps =
      [Step.resolvePkgDir, Step.resolvePkgPath, Step.findPackages,
        Step.collectInterfaceTypeNames, Step.newGolangParser,
        Step.includeGenerateWithPrefix "example.com/test/pkg/foo".toList "foo_".toList,
        Step.toTypescript, Step.serialize, Step.regexpCompile "(".toList] := by
  decide

/-! ## Name extraction -/

theorem takeWhile_append_delim (p : Char → Bool) (name rest : Str)
    (hname : ∀ c ∈ name, p c = true)
    (hrest : rest = [] ∨ ∃ c r, rest = c :: r ∧ p c = false) :
    (name ++ rest).takeWhile p = name := by
  induction name with
  | nil =>
    rcases hrest with h | ⟨c, r, h, hc⟩
    · simp [h]
    · simp [h, hc]
  | cons x xs ih =>
    simp only [List.cons_append, List.takeWhile_cons, hname x (List.mem_cons_self _ _), if_true]
    rw [ih (fun c hc => hname c (List.mem_cons_of_mem _ hc))]

theorem hasPrefix_append (p s : Str) : hasPrefix (p ++ s) p = true := by
  simp [hasPrefix]

theorem trimPrefix_append (p s : Str) : trimPrefix (p ++ s) p = s := by
  simp [trimPrefix, hasPrefix]

theorem hasPrefix_iff (s p : Str) : hasPrefix s p = true ↔ ∃ t, s = p ++ t := by
  simp only [hasPrefix, List.isPrefixOf_iff_prefix]
  constructor
  · rintro ⟨t, ht⟩; exact ⟨t, ht.symm⟩
  · rintro ⟨t, ht⟩; exact ⟨t, ht.symm⟩

/-- A name without blank followed by nothing or by a delimiter does not start
the introducer `export type ` unless it is `export`. -/
theorem not_hasPrefix_introType (name rest : Str)
    (hname : ∀ c ∈ name, c ≠ ' ')
    (hrest : rest = [] ∨ ∃ c r, rest = c :: r ∧ (c = ' ' ∨ c = '{' ∨ c = '<' ∨ c = '='))
    (hexport : name ≠ "export".toList) :
    hasPrefix (name ++ rest) introType = false := by
  by_contra hcon
  have hp : hasPrefix (name ++ rest) introType = true := by simpa using hcon
  obtain ⟨t, ht⟩ := (hasPrefix_iff _ _).1 hp
  have h1 : (name ++ rest).takeWhile (fun c => decide (c ≠ ' ')) = "export".toList := by
    rw [ht]
    simp [introType]
  rcases hrest with h | ⟨c, r, h, hc⟩
  · rw [takeWhile_append_delim _ name rest (fun c hc => by simp [hname c hc]) (Or.inl h)] at h1
    exact hexport h1
  · rcases hc with hc | hc
    · rw [takeWhile_append_delim _ name rest (fun c hc => by simp [hname c hc])
        (Or.inr ⟨c, r, h, by simp [hc]⟩)] at h1
      exact hexport h1
    · have hcne : c ≠ ' ' := by rcases hc with e | e | e <;> (rw [e]; decide)
      have hmem : c ∈ (name ++ rest).takeWhile (fun c => decide (c ≠ ' ')) := by
        rw [h]
        have : ∀ (n : Str), (∀ x ∈ n, x ≠ ' ') →
            c ∈ (n ++ c :: r).takeWhile (fun c => decide (c ≠ ' ')) := by
          intro n
          induction n with
          | nil => intro _; simp [hcne]
          | cons x xs ih =>
            intro hx
            simp only [List.cons_append, List.takeWhile_cons]
            simp only [hx x (List.mem_cons_self _ _), ne_eq, not_false_eq_true, decide_True,
              if_true, List.mem_cons]
            exact Or.inr (ih (fun y hy => hx y (List.mem_cons_of_mem _ hy)))
        exact this name hname
      rw [h1] at hmem
      have hno : ∀ x ∈ "export".toList, x ≠ '{' ∧ x ≠ '<' ∧ x ≠ '=' := by decide
      have := hno c hmem
      rcases hc with e | e | e
      · exact this.1 e
      · exact this.2.1 e
      · exact this.2.2 e

theorem not_hasPrefix_introInterface (s : Str) :
    hasPrefix (introType ++ s) introInterface = false := rfl

theorem firstExportName_eq_nameOfLines (lines : List Str) :
    firstExportName lines = nameOfLines lines := by
  induction lines with
  | nil => rfl
  | cons l ls ih =>
    by_cases h : extractExportName l = []
    · simp only [firstExportName, h, ne_eq, not_true_eq_false, if_false, ih]
      simp [nameOfLines, List.find?, h]
    · simp [firstExportName, nameOfLines, List.find?, h]

/-- C16 as amended — name extraction: on a line made of the introducer
`export interface ` or `export type `, a name and a rest, where the name is not
`export`, holds no white space and none of `{`, `<`, `=`, `(`,
and the rest is empty or begins with a blank, `{`, `<` or `=`, both
`extractExportName` and `extractTypeName` return the name; and the name of a
block is the export name of the first of its lines whose export name is not
empty. -/
theorem name_extraction (intro name rest : Str)
    (hintro : intro = introInterface ∨ intro = introType)
    (hexport : name ≠ "export".toList)
    (hname : ∀ c ∈ name, isSpace c = false ∧ c ≠ '{' ∧ c ≠ '<' ∧ c ≠ '=' ∧ c ≠ '(')
    (hrest : rest = [] ∨ ∃ c r, rest = c :: r ∧ (c = ' ' ∨ c = '{' ∨ c = '<' ∨ c = '=')) :
    extractExportName (intro ++ name ++ rest) = name ∧
    extractTypeName (intro ++ name ++ rest) = name ∧
    ∀ (raw : Str) (b : TsBlock), b ∈ blocksOf raw → b.name = nameOfLines b.lines := by
  have hsp : ∀ c ∈ name, c ≠ ' ' := by
    intro c hc e
    have := (hname c hc).1
    rw [e] at this
    exact absurd this (by decide)
  have htw1 : (name ++ rest).takeWhile
      (fun ch => !(ch == ' ' || ch == '{' || ch == '=' || ch == '<' || ch == '(')) = name := by
    apply takeWhile_append_delim
    · intro c hc
      obtain ⟨_, h2, h3, h4, h5⟩ := hname c hc
      simp [hsp c hc, h2, h3, h4, h5]
    · rcases hrest with h | ⟨c, r, h, hc⟩
      · exact Or.inl h
      · refine Or.inr ⟨c, r, h, ?_⟩
        rcases hc with e | e | e | e <;> (rw [e]; decide)
  have htw2 : (name ++ rest).takeWhile
      (fun ch => !(ch == ' ' || ch == '{' || ch == '=' || ch == '<')) = name := by
    apply takeWhile_append_delim
    · intro c hc
      obtain ⟨_, h2, h3, h4, _⟩ := hname c hc
      simp [hsp c hc, h2, h3, h4]
    · rcases hrest with h | ⟨c, r, h, hc⟩
      · exact Or.inl h
      · refine Or.inr ⟨c, r, h, ?_⟩
        rcases hc with e | e | e | e <;> (rw [e]; decide)
  have hnot := not_hasPrefix_introType name rest hsp hrest hexport
  refine ⟨?_, ?_, ?_⟩
  · rcases hintro with h | h
    · subst h
      simp only [extractExportName, exportPrefixes, extractExportNameFrom, List.append_assoc]
      have e : "export interface ".toList = introInterface := rfl
      rw [e, hasPrefix_append, if_pos rfl, trimPrefix_append]
      exact htw1
    · subst h
      have hno : hasPrefix (introType ++ (name ++ rest)) "export interface ".toList = false :=
        not_hasPrefix_introInterface _
      simp only [extractExportName, exportPrefixes, extractExportNameFrom, List.append_assoc, hno]
      have e : "export type ".toList = introType := rfl
      rw [e, hasPrefix_append]
      simp only [Bool.false_eq_true, if_false, if_true]
      rw [trimPrefix_append]
      exact htw1
  · rcases hintro with h | h
    · subst h
      simp only [extractTypeName, List.append_assoc]
      rw [trimPrefix_append]
      have : trimPrefix (name ++ rest) introType = name ++ rest := by
        simp [trimPrefix, hnot]
      rw [this]
      exact htw2
    · subst h
      have hno : hasPrefix (introType ++ (name ++ rest)) introInterface = false :=
        not_hasPrefix_introInterface _
      simp only [extractTypeName, List.append_assoc]
      have e1 : trimPrefix (introType ++ (name ++ rest)) introInterface =
          introType ++ (name ++ rest) := by
        simp only [trimPrefix, hno, Bool.false_eq_true, if_false]
      rw [e1, trimPrefix_append]
      exact htw2
  · intro raw b hb
    rw [(blockShape_of_mem_blocksOf raw b hb).2, firstExportName_eq_nameOfLines]

/-- C16 as amended, at the line `export interface Foo<T> {`. -/
theorem name_extraction_witness :
    extractExportName ("export interface ".toList ++ "Foo".toList ++ "<T> \x7b".toList) =
      "Foo".toList ∧
    extractTypeName ("export interface ".toList ++ "Foo".toList ++ "<T> \x7b".toList) =
      "Foo".toList ∧
    ∀ (raw : Str) (b : TsBlock), b ∈ blocksOf raw → b.name = nameOfLines b.lines :=
  name_extraction "export interface ".toList "Foo".toList "<T> \x7b".toList
    (Or.inl rfl) (by decide) (by decide)
    (Or.inr ⟨'<', "T> \x7b".toList, rfl, by decide⟩)

/-- C16 as stated fails four times: a tab after the name does not end it for
`extractTypeName`; a `(` inside the name ends it for `extractExportName`; after
`export interface `, the name `export` followed by ` type ` is read by
`extractTypeName` as a second introducer; and a block whose first line with an
introducer has no name after it is named by a later line. -/
theorem name_extraction_counterexample :
    (isSpace '\t' = true ∧
      extractTypeName ("export type ".toList ++ "Foo".toList ++ "\t= 1".toList) ≠ "Foo".toList) ∧
    ((∀ c ∈ "a(b".toList, isSpace c = false ∧ c ≠ '\x7b' ∧ c ≠ '<' ∧ c ≠ '=') ∧
      extractExportName ("export type ".toList ++ "a(b".toList ++ " = 1".toList) ≠
        "a(b".toList) ∧
    ((∀ c ∈ "export".toList, isSpace c = false ∧ c ≠ '\x7b' ∧ c ≠ '<' ∧ c ≠ '=') ∧
      extractTypeName ("export interface ".toList ++ "export".toList ++ " type X".toList) ≠
        "export".toList) ∧
    (∃ b ∈ blocksOf rawEmptyName, ∃ l, firstIntroducedLine b.lines = some l ∧
      extractExportName l ≠ b.name) := by
  refine ⟨by decide, by decide, by decide, ?_⟩
  exact ⟨⟨"a".toList, ["// From a".toList, "export type ".toList, "export type B = 1".toList],
    "B".toList⟩, by decide, "export type ".toList, by decide, by decide⟩

/-! ## Tokens and reference sets -/

theorem mem_wordRunsAux (line : Str) :
    ∀ cur : Str, (∀ x ∈ cur, isWordChar x = true) → ∀ r : Str,
      r ∈ wordRunsAux cur line ↔
        (r ≠ [] ∧ ∃ w post, line = w ++ post ∧ r = cur ++ w ∧
          (∀ x ∈ w, isWordChar x = true) ∧ StartsAtBoundary post) ∨
        (∃ pre x w post, line = pre ++ [x] ++ w ++ post ∧ isWordChar x = false ∧ r = w ∧
          w ≠ [] ∧ (∀ y ∈ w, isWordChar y = true) ∧ StartsAtBoundary post) := by
  induction line with
  | nil =>
    intro cur _ r
    simp only [wordRunsAux]
    constructor
    · intro h
      by_cases hc : cur = []
      · simp [hc] at h
      · simp only [hc, if_false, List.mem_singleton] at h
        exact Or.inl ⟨h ▸ hc, [], [], rfl, by simp [h], by simp, Or.inl rfl⟩
    · rintro (⟨hr, w, post, e, hrw, _, _⟩ | ⟨pre, x, w, post, e, _⟩)
      · have hw : w = [] := by
          cases w with
          | nil => rfl
          | cons a as => simp at e
        subst hw
        simp only [List.append_nil] at hrw
        subst hrw
        simp [hr]
      · simp at e
  | cons c cs ih =>
    intro cur hcur r
    by_cases hc : isWordChar c = true
    · have hcur' : ∀ x ∈ cur ++ [c], isWordChar x = true := by
        intro x hx
        rcases List.mem_append.1 hx with h | h
        · exact hcur x h
        · simp only [List.mem_singleton] at h
          exact h ▸ hc
      simp only [wordRunsAux, hc, if_true]
      rw [ih (cur ++ [c]) hcur' r]
      constructor
      · rintro (⟨hr, w, post, e, hrw, hw, hpost⟩ | ⟨pre, x, w, post, e, hx, hrw, hwne, hw, hpost⟩)
        · refine Or.inl ⟨hr, c :: w, post, by simp [e], by simp [hrw], ?_, hpost⟩
          intro y hy
          rcases List.mem_cons.1 hy with h | h
          · exact h ▸ hc
          · exact hw y h
        · exact Or.inr ⟨c :: pre, x, w, post, by simp [e], hx, hrw, hwne, hw, hpost⟩
      · rintro (⟨hr, w, post, e, hrw, hw, hpost⟩ | ⟨pre, x, w, post, e, hx, hrw, hwne, hw, hpost⟩)
        · cases w with
          | nil =>
            simp only [List.nil_append] at e
            rcases hpost with h | ⟨y, p, h, hy⟩
            · rw [h] at e; simp at e
            · rw [h] at e
              have : c = y := (List.cons.inj e).1
              rw [← this, hc] at hy
              exact absurd hy (by simp)
          | cons a as =>
            simp only [List.cons_append, List.cons.injEq] at e
            refine Or.inl ⟨hr, as, post, e.2, by simp [hrw, e.1], ?_, hpost⟩
            exact fun y hy => hw y (List.mem_cons_of_mem _ hy)
        · cases pre with
          | nil =>
            simp only [List.nil_append, List.singleton_append, List.cons_append,
              List.cons.injEq] at e
            rw [← e.1, hc] at hx
            exact absurd hx (by simp)
          | cons a as =>
            simp only [List.cons_append, List.cons.injEq] at e
            exact Or.inr ⟨as, x, w, post, by simp [e.2], hx, hrw, hwne, hw, hpost⟩
    · have hc' : isWordChar c = false := by simpa using hc
      have key : r ∈ wordRunsAux cur (c :: cs) ↔
          (cur ≠ [] ∧ r = cur) ∨ r ∈ wordRunsAux [] cs := by
        simp only [wordRunsAux, hc', Bool.false_eq_true, if_false]
        by_cases hcn : cur = []
        · simp [hcn]
        · simp [hcn]
      rw [key, ih [] (by simp) r]
      constructor
      · rintro (⟨hcn, hrc⟩ | ⟨hr, w, post, e, hrw, hw, hpost⟩ |
          ⟨pre, x, w, post, e, hx, hrw, hwne, hw, hpost⟩)
        · exact Or.inl ⟨hrc ▸ hcn, [], c :: cs, rfl, by simp [hrc], by simp,
            Or.inr ⟨c, cs, rfl, hc'⟩⟩
        · simp only [List.nil_append] at hrw
          exact Or.inr ⟨[], c, w, post, by simp [e], hc', hrw, hrw ▸ hr, hw, hpost⟩
        · exact Or.inr ⟨c :: pre, x, w, post, by simp [e], hx, hrw, hwne, hw, hpost⟩
      · rintro (⟨hr, w, post, e, hrw, hw, hpost⟩ | ⟨pre, x, w, post, e, hx, hrw, hwne, hw, hpost⟩)
        · cases w with
          | nil =>
            simp only [List.append_nil] at hrw
            exact Or.inl ⟨hrw ▸ hr, hrw⟩
          | cons a as =>
            simp only [List.cons_append, List.cons.injEq] at e
            have := hw a (List.mem_cons_self _ _)
            rw [← e.1, hc'] at this
            exact absurd this (by simp)
        · cases pre with
          | nil =>
            simp only [List.nil_append, List.singleton_append, List.cons_append,
              List.cons.injEq] at e
            exact Or.inr (Or.inl ⟨hrw ▸ hwne, w, post, e.2, by simp [hrw], hw, hpost⟩)
          | cons a as =>
            simp only [List.cons_append, List.cons.injEq] at e
            exact Or.inr (Or.inr ⟨as, x, w, post, by simp [e.2], hx, hrw, hwne, hw, hpost⟩)

/-- The runs that `wordRuns` lists are the maximal runs of word characters. -/
theorem mem_wordRuns (line r : Str) : r ∈ wordRuns line ↔ IsWordRun line r := by
  unfold wordRuns
  rw [mem_wordRunsAux line [] (by simp) r]
  constructor
  · rintro (⟨hr, w, post, e, hrw, hw, hpost⟩ | ⟨pre, x, w, post, e, hx, hrw, hwne, hw, hpost⟩)
    · simp only [List.nil_append] at hrw
      subst hrw
      exact ⟨[], post, by simp [e], hr, hw, Or.inl rfl, hpost⟩
    · subst hrw
      exact ⟨pre ++ [x], post, by simp [e], hwne, hw, Or.inr ⟨pre, x, rfl, hx⟩, hpost⟩
  · rintro ⟨pre, post, e, hr, hw, hpre, hpost⟩
    rcases hpre with h | ⟨p, x, h, hx⟩
    · subst h
      exact Or.inl ⟨hr, r, post, by simpa using e, by simp, hw, hpost⟩
    · subst h
      exact Or.inr ⟨p, x, r, post, by simpa using e, hx, rfl, hr, hw, hpost⟩

/-- The tokens that `findAllTokens` lists are the whole words that begin with
a letter or an underscore. -/
theorem mem_findAllTokens (line t : Str) : t ∈ findAllTokens line ↔ IsWordToken line t := by
  unfold findAllTokens IsWordToken
  rw [List.mem_filter, mem_wordRuns]
  constructor
  · rintro ⟨h1, h2⟩
    refine ⟨h1, ?_⟩
    cases t with
    | nil => simp at h2
    | cons c rest => exact ⟨c, rest, rfl, by simpa using h2⟩
  · rintro ⟨h1, c, rest, e, hc⟩
    subst e
    exact ⟨h1, by simpa using hc⟩

/-- C17 as amended — the reference set: the set `refs` that `filterByWhitelist`
builds for a block holds exactly the strings `t` that are whole words beginning
with a letter or an underscore (maximal runs of `[A-Za-z0-9_]` whose first
character is not a digit) on a line of the block whose trimmed text starts with
none of `//`, `/*`, `*`, that differ from the name of the block and are the
name of a block of the text. So a name found only on comment lines or on the
origin marker, or only inside a longer word, is not a reference, and a block
does not refer to itself. -/
theorem reference_set (raw : Str) (b : TsBlock) (t : Str) :
    (t ∈ blockRefs (exportNamesOf (blocksOf raw)) b ↔
      (∃ line ∈ b.lines,
        (hasPrefix (trimSpace line) "//".toList = false ∧
          hasPrefix (trimSpace line) "/*".toList = false ∧
          hasPrefix (trimSpace line) "*".toList = false) ∧ IsWordToken line t) ∧
      t ≠ b.name ∧ ∃ c ∈ blocksOf raw, c.name = t) ∧
    b.name ∉ blockRefs (exportNamesOf (blocksOf raw)) b := by
  have hcomment : ∀ line : Str, isCommentLine line = false ↔
      (hasPrefix (trimSpace line) "//".toList = false ∧
        hasPrefix (trimSpace line) "/*".toList = false ∧
        hasPrefix (trimSpace line) "*".toList = false) := by
    intro line
    simp [isCommentLine, and_assoc]
  constructor
  · rw [mem_blockRefs]
    constructor
    · rintro ⟨⟨line, hl, hc, ht⟩, hne, hmem⟩
      obtain ⟨c, hcb, _, hcn⟩ := (mem_exportNamesOf _ t).1 hmem
      exact ⟨⟨line, hl, (hcomment line).1 hc, (mem_findAllTokens line t).1 ht⟩, hne, c, hcb, hcn⟩
    · rintro ⟨⟨line, hl, hc, ht⟩, hne, c, hcb, hcn⟩
      refine ⟨⟨line, hl, (hcomment line).2 hc, (mem_findAllTokens line t).2 ht⟩, hne, ?_⟩
      refine (mem_exportNamesOf _ t).2 ⟨c, hcb, ?_, hcn⟩
      obtain ⟨_, x, rest, e, _⟩ := ht
      rw [hcn, e]
      simp
  · intro h
    exact ((mem_blockRefs _ b b.name).1 h).2.1 rfl

/-- C17 as stated fails on a run that begins with a digit: on the line `9B`
of the block `A`, which is not a comment line, `B` is a maximal match of
`[A-Za-z_][A-Za-z0-9_]*`, differs from `A` and is the name of a block, yet it
is not a token of the word-boundary pattern, so it is not in the reference set
of `A` and selecting `A` does not emit the block of `B`. -/
theorem reference_set_counterexample :
    digitFirst ∈ blocksOf rawDigit ∧
    (∃ line ∈ digitFirst.lines, isCommentLine line = false ∧
      IsMaximalMatch line "B".toList) ∧
    "B".toList ≠ digitFirst.name ∧
    (∃ c ∈ blocksOf rawDigit, c.name = "B".toList) ∧
    "B".toList ∉ blockRefs (exportNamesOf (blocksOf rawDigit)) digitFirst ∧
    ¬ digitSecond.lines <:+:
      splitLines (filterByWhitelist MapOrder.insertion rawDigit none (some onlyA)) := by
  refine ⟨by decide, ⟨"9B".toList, by decide, by decide, ?_⟩, by decide,
    ⟨digitSecond, by decide, rfl⟩, by decide, by decide⟩
  refine ⟨['9'], [], rfl, ⟨'B', [], rfl, by decide, by simp⟩, ?_⟩
  intro pre' t' post' e hpre hpost hident
  have hpost' : post' = [] := List.eq_nil_of_suffix_nil hpost
  subst hpost'
  simp only [List.append_nil] at e
  cases pre' with
  | nil =>
    simp only [List.nil_append] at e
    obtain ⟨c, rest, ec, hc, _⟩ := hident
    rw [← e] at ec
    have : c = '9' := (List.cons.inj ec).1.symm
    rw [this] at hc
    exact absurd hc (by decide)
  | cons x xs =>
    obtain ⟨u, hu⟩ := hpre
    have hx : x = '9' ∧ xs = [] := by
      simp only [List.cons_append, List.cons.injEq] at hu
      exact ⟨hu.1, (List.append_eq_nil.1 hu.2).1⟩
    rw [hx.1, hx.2] at e
    exact (List.cons.inj e).2.symm

/-! ## Termination of the expansion -/

/-- The record of `expandTrace` does not change what the loop computes; when
the selected names are those already taken followed by those queued, the names
taken from the queue are, in the end, the selected names in order. -/
theorem expandTrace_eq (ord : MapOrder) (m : List (Str × List Str)) :
    ∀ (fuel : Nat) (done sel q : List Str), sel = done ++ q →
      expandTrace ord m fuel done sel q =
        (expandLoop ord m fuel sel q).map (fun out => (out, out)) := by
  intro fuel
  induction fuel with
  | zero =>
    intro done sel q h
    cases q with
    | nil => simp [expandTrace, expandLoop, h]
    | cons name queue => simp [expandTrace, expandLoop]
  | succ fuel ih =>
    intro done sel q h
    cases q with
    | nil => simp [expandTrace, expandLoop, h]
    | cons name queue =>
      obtain ⟨new, hv, -, -, -⟩ := visitRefs_spec (ord.iter name (mapGet m name)) sel queue
      simp only [expandTrace, expandLoop, hv]
      exact ih (done ++ [name]) (sel ++ new) (queue ++ new) (by simp [h])

/-- The selected names stay distinct export names through the expansion. -/
theorem expandLoop_nodup (ord : MapOrder) (m : List (Str × List Str)) (names : List Str)
    (hm : ∀ n x, x ∈ mapGet m n → x ∈ names) :
    ∀ (fuel : Nat) (sel q out : List Str), sel.Nodup → (∀ x ∈ sel, x ∈ names) →
      expandLoop ord m fuel sel q = some out → out.Nodup ∧ ∀ x ∈ out, x ∈ names := by
  intro fuel
  induction fuel with
  | zero =>
    intro sel q out hnd hsub h
    cases q with
    | nil =>
      simp only [expandLoop, Option.some.injEq] at h
      exact h ▸ ⟨hnd, hsub⟩
    | cons name queue => simp [expandLoop] at h
  | succ fuel ih =>
    intro sel q out hnd hsub h
    cases q with
    | nil =>
      simp only [expandLoop, Option.some.injEq] at h
      exact h ▸ ⟨hnd, hsub⟩
    | cons name queue =>
      obtain ⟨new, hv, hnew, hfresh, -⟩ :=
        visitRefs_spec (ord.iter name (mapGet m name)) sel queue
      simp only [expandLoop, hv] at h
      have hperm := ord.perm name (mapGet m name)
      refine ih (sel ++ new) (queue ++ new) out
        (List.Nodup.append hnd hnew (fun x hx hx' => (hfresh x hx').1 hx)) ?_ h
      intro x hx
      rcases List.mem_append.1 hx with h1 | h1
      · exact hsub x h1
      · exact hm name x (hperm.mem_iff.1 (hfresh x h1).2)

/-- C18 — the closure terminates: for every raw text, whitelist and visiting
order, references in a cycle included, the expansion loop of
`filterByWhitelist` ends within as many turns as there are distinct declared
names; the names taken from the queue are the selected names, each once. -/
theorem closure_terminates (ord : MapOrder) (raw : Str)
    (fileRegexp typeRegexp : Option (Str → Bool)) :
    ∃ out : List Str,
      expandLoop ord (refsByNameOf (exportNamesOf (blocksOf raw)) (blocksOf raw))
        (exportNamesOf (blocksOf raw)).length
        (initialSelection (blocksOf raw) fileRegexp typeRegexp).1
        (initialSelection (blocksOf raw) fileRegexp typeRegexp).2 = some out ∧
      expandTrace ord (refsByNameOf (exportNamesOf (blocksOf raw)) (blocksOf raw))
        (exportNamesOf (blocksOf raw)).length []
        (initialSelection (blocksOf raw) fileRegexp typeRegexp).1
        (initialSelection (blocksOf raw) fileRegexp typeRegexp).2 = some (out, out) ∧
      out.Nodup ∧ out.length ≤ (exportNamesOf (blocksOf raw)).length ∧
      (exportNamesOf (blocksOf raw)).Nodup ∧
      (∀ n, n ∈ exportNamesOf (blocksOf raw) ↔ ∃ b ∈ blocksOf raw, b.name ≠ [] ∧ b.name = n) ∧
      selectedNames ord (blocksOf raw) fileRegexp typeRegexp = out := by
  obtain ⟨i1, i2, i3⟩ := initialSelection_spec (blocksOf raw) fileRegexp typeRegexp
  have hsub : ∀ x ∈ (initialSelection (blocksOf raw) fileRegexp typeRegexp).1,
      x ∈ exportNamesOf (blocksOf raw) := by
    intro x hx
    obtain ⟨b, hb, hbn, _, hbe⟩ := (i3 x).1 hx
    exact (mem_exportNamesOf _ x).2 ⟨b, hb, hbn, hbe⟩
  have hm : ∀ n x, x ∈ mapGet (refsByNameOf (exportNamesOf (blocksOf raw)) (blocksOf raw)) n →
      x ∈ exportNamesOf (blocksOf raw) :=
    fun n x hx => refs_subset_exportNames (blocksOf raw) n x hx
  obtain ⟨out, ho, -, -, -⟩ := expandLoop_spec ord
    (refsByNameOf (exportNamesOf (blocksOf raw)) (blocksOf raw)) (exportNamesOf (blocksOf raw))
    hm (exportNamesOf (blocksOf raw)).length
    (initialSelection (blocksOf raw) fileRegexp typeRegexp).1
    (initialSelection (blocksOf raw) fileRegexp typeRegexp).2 i2 hsub
    (fun x hx => i1 ▸ hx) (by rw [i1]; omega)
    (fun n hn hnq => absurd (i1 ▸ hn) hnq)
  obtain ⟨hnd, hnames⟩ := expandLoop_nodup ord _ _ hm _ _ _ out i2 hsub ho
  refine ⟨out, ho, ?_, hnd, (hnd.subperm hnames).length_le, nodup_exportNamesOf _,
    mem_exportNamesOf _, ?_⟩
  · rw [expandTrace_eq ord _ _ [] _ _ (by rw [i1]; simp), ho]
    rfl
  · simp only [selectedNames, ho]

/-- The closure on two blocks that refer to each other: selecting `A` ends
with `A` and `B` selected. -/
theorem selectedNames_cycle :
    selectedNames MapOrder.insertion (blocksOf rawCycle) none (some onlyA) =
      ["A".toList, "B".toList] := by
  decide

/-! ## Duplicate names in the reference graph -/

/-- C19 at a failing input: two blocks declare `X`; the first refers to `B`,
the second to nothing. The map `refsByName` keeps for `X` the reference set of
the second block, so selecting `X` selects nothing else, and the final text is
the first block of `X`, which refers to `B`, without the declaration of `B`. -/
theorem duplicate_name_refs_failing_input :
    shadowFirst ∈ blocksOf rawShadow ∧
    "B".toList ∈ blockRefs (exportNamesOf (blocksOf rawShadow)) shadowFirst ∧
    mapGet (refsByNameOf (exportNamesOf (blocksOf rawShadow)) (blocksOf rawShadow))
      "X".toList = [] ∧
    selectedNames MapOrder.insertion (blocksOf rawShadow) none (some onlyX) = ["X".toList] ∧
    shapeOutput MapOrder.insertion rawShadow none (some onlyX) [] =
      "// From a\nexport type X = B\n".toList := by
  decide

/-! ## The deduplicator on a text without repeated names -/

theorem dedup_foldl_unchanged (ls : List Str) :
    ∀ (st : DedupState) (holding : Bool), st.skip = false →
      (holding = true ↔ st.pendingComment ≠ []) →
      commentsAttached holding ls = true →
      (∀ d ∈ declLines ls, extractTypeName d ∉ st.seen) →
      (declNames ls).Nodup →
      (ls.foldl dedupStep st).result = st.result ++ st.pendingComment ++ ls := by
  induction ls with
  | nil =>
    intro st holding _ hh hatt _ _
    simp only [commentsAttached, Bool.not_eq_true'] at hatt
    have hp : st.pendingComment = [] := by
      by_contra hne
      have := hh.2 hne
      rw [hatt] at this
      exact absurd this (by simp)
    simp [hp]
  | cons l ls ih =>
    intro st holding hk hh hatt hfresh hnd
    rw [List.foldl_cons]
    rcases dedupStep_cases st l with
      ⟨hd, hs, _⟩ | ⟨hd, hs, e⟩ | ⟨_, _, hk', _⟩ | ⟨hd, hc, _, e⟩ | ⟨_, _, _, hk', _⟩ |
      ⟨hd, hc, hx, _, hp, e⟩ | ⟨hd, hc, hx, _, hp, e⟩ | ⟨_, _, _, hk', _⟩ | ⟨hd, hc, hx, _, e⟩
    · exact absurd hs (hfresh l (by simp [declLines, hd]))
    · have hatt' : commentsAttached false ls = true := by
        simpa [commentsAttached, hd] using hatt
      have hdl : declLines (l :: ls) = l :: declLines ls := by simp [declLines, hd]
      have hdn : declNames (l :: ls) = extractTypeName l :: declNames ls := by
        simp [declNames, hdl]
      rw [hdn, List.nodup_cons] at hnd
      rw [e, ih _ false rfl (by simp) hatt' ?_ hnd.2]
      · simp
      · intro d hdm hmem
        rcases List.mem_append.1 hmem with h | h
        · exact hfresh d (by rw [hdl]; exact List.mem_cons_of_mem _ hdm) h
        · simp only [List.mem_singleton] at h
          exact hnd.1 (by rw [← h]; exact List.mem_map_of_mem _ hdm)
    · rw [hk] at hk'; exact absurd hk' (by simp)
    · have hatt' : commentsAttached true ls = true := by
        simpa [commentsAttached, hd, hc] using hatt
      have hdl : declLines (l :: ls) = declLines ls := by simp [declLines, hd]
      have hdn : declNames (l :: ls) = declNames ls := by simp [declNames, hdl]
      rw [e, ih { st with pendingComment := st.pendingComment ++ [l] } true hk (by simp) hatt'
        (by rw [← hdl]; exact hfresh) (hdn ▸ hnd)]
      simp
    · rw [hk] at hk'; exact absurd hk' (by simp)
    · have hhold : holding = true := hh.2 hp
      have hatt' : commentsAttached true ls = true := by
        simpa [commentsAttached, hd, hc, hx, hhold] using hatt
      have hdl : declLines (l :: ls) = declLines ls := by simp [declLines, hd]
      have hdn : declNames (l :: ls) = declNames ls := by simp [declNames, hdl]
      rw [e, ih { st with pendingComment := st.pendingComment ++ [l] } true hk (by simp) hatt'
        (by rw [← hdl]; exact hfresh) (hdn ▸ hnd)]
      simp
    · have hhold : holding = false := by
        cases holding with
        | false => rfl
        | true => exact absurd hp (hh.1 rfl)
      have hatt' : commentsAttached false ls = true := by
        simpa [commentsAttached, hd, hc, hx, hhold] using hatt
      have hdl : declLines (l :: ls) = declLines ls := by simp [declLines, hd]
      have hdn : declNames (l :: ls) = declNames ls := by simp [declNames, hdl]
      rw [e, ih { st with result := st.result ++ [l] } false hk (by simp [hp]) hatt'
        (by rw [← hdl]; exact hfresh) (hdn ▸ hnd)]
      simp [hp]
    · rw [hk] at hk'; exact absurd hk' (by simp)
    · have hboth : holding = false ∧ commentsAttached false ls = true := by
        simpa [commentsAttached, hd, hc, hx] using hatt
      have hp : st.pendingComment = [] := by
        by_contra hne
        have := hh.2 hne
        rw [hboth.1] at this
        exact absurd this (by simp)
      have hdl : declLines (l :: ls) = declLines ls := by simp [declLines, hd]
      have hdn : declNames (l :: ls) = declNames ls := by simp [declNames, hdl]
      rw [e, ih { st with result := st.result ++ [l] } false hk (by simp [hp]) hboth.2
        (by rw [← hdl]; exact hfresh) (hdn ▸ hnd)]
      simp [hp]

/-- C20 as amended — the deduplicator changes nothing but repeated
declarations: when no name is declared by more than one declaration line and
every run of held-back lines (a line that begins with `// From `, `/**`, ` *`
or ` */`, then further such lines and empty lines) is immediately followed by a
declaration line, `deduplicateTypes` returns the text unchanged. -/
theorem dedup_unchanged (s : Str) (hnodup : (declNames (splitLines s)).Nodup)
    (hattached : commentsAttached false (splitLines s) = true) :
    deduplicateTypes s = s := by
  have h := dedup_foldl_unchanged (splitLines s)
    { result := [], seen := [], skip := false, pendingComment := [] } false rfl (by simp)
    hattached (by simp) hnodup
  simp only [List.nil_append] at h
  unfold deduplicateTypes dedupLines dedupRun
  rw [h, joinLines_splitLines]

/-- C20 as amended, at the chain text, which declares four names once each. -/
theorem dedup_unchanged_witness : deduplicateTypes rawChain = rawChain :=
  dedup_unchanged rawChain (by decide) (by decide)

/-- C20 as stated fails: held-back lines are emitted only with the next
first-seen declaration. An origin marker at the end of the text is lost, and a
line between a marker and its declaration is emitted before the marker. -/
theorem dedup_unchanged_counterexample :
    ((declNames (splitLines rawTrailing)).Nodup ∧
      deduplicateTypes rawTrailing ≠ rawTrailing ∧
      deduplicateTypes rawTrailing = "export type A = 1".toList) ∧
    ((declNames (splitLines rawDeferred)).Nodup ∧
      deduplicateTypes rawDeferred ≠ rawDeferred ∧
      deduplicateTypes rawDeferred = "foo\n// From a\nexport type A = 1".toList) := by
  decide

/-! ## The interface filter when nothing is excluded -/

theorem ifaceKeeps_init (excluded : List Str) : IfaceKeeps excluded ifaceInit :=
  ⟨ifaceInv_init excluded, by simp [ifaceInit]⟩

/-- A turn of the interface filter on a line whose declared name is not
excluded keeps the line. -/
theorem ifaceKeeps_step (excluded : List Str) (st : IfaceState) (x : Str)
    (h : IfaceKeeps excluded st)
    (hx : isDeclLine x = true → extractTypeName x ∉ excluded) :
    IfaceKeeps excluded (ifaceStep excluded st x) ∧
      ifaceHeld (ifaceStep excluded st x) = ifaceHeld st ++ [x] := by
  obtain ⟨hinv, hkeep⟩ := h
  have hinv1 := ifaceInv_step excluded st x hinv
  obtain ⟨hp, hseen, -, -⟩ := hinv
  rcases ifaceStep_cases excluded st x hp with
    ⟨cur, hd, hc, e⟩ | ⟨hd, hc, e⟩ | ⟨cur, hd, hc, e⟩ | ⟨_, hc, hs, _⟩ | ⟨hd, hc, hs, e⟩
  · have hk : st.currentName ∉ excluded := hkeep (by simp [hc])
    refine ⟨⟨hinv1, ?_⟩, ?_⟩
    · intro _
      rw [e]
      exact hx hd
    · rw [e]
      simp [ifaceHeld, hc, hk]
  · refine ⟨⟨hinv1, ?_⟩, ?_⟩
    · intro _
      rw [e]
      exact hx hd
    · rw [e]
      simp [ifaceHeld, hc]
  · refine ⟨⟨hinv1, ?_⟩, ?_⟩
    · intro _
      rw [e]
      exact hkeep (by simp [hc])
    · rw [e]
      simp [ifaceHeld, hc]
  · have := hseen hs
    rw [hc] at this
    exact absurd this (by simp)
  · refine ⟨⟨hinv1, ?_⟩, ?_⟩
    · intro h'
      rw [e] at h'
      simp [hc] at h'
    · rw [e]
      simp [ifaceHeld, hc]

theorem ifaceKeeps_foldl (excluded : List Str) (xs : List Str) :
    ∀ st, IfaceKeeps excluded st →
      (∀ x ∈ xs, isDeclLine x = true → extractTypeName x ∉ excluded) →
      IfaceKeeps excluded (xs.foldl (ifaceStep excluded) st) ∧
        ifaceHeld (xs.foldl (ifaceStep excluded) st) = ifaceHeld st ++ xs := by
  induction xs with
  | nil => intro st h _; exact ⟨h, by simp⟩
  | cons x xs ih =>
    intro st h hxs
    have h1 := ifaceKeeps_step excluded st x h (hxs x (List.mem_cons_self _ _))
    have h2 := ih (ifaceStep excluded st x) h1.1
      (fun y hy => hxs y (List.mem_cons_of_mem _ hy))
    rw [List.foldl_cons]
    refine ⟨h2.1, ?_⟩
    rw [h2.2, h1.2]
    simp

/-- The loop of the interface filter keeps every line when no declared name is
excluded. -/
theorem ifaceLines_of_not_excluded (excluded : List Str) (lines : List Str)
    (h : ∀ n ∈ declNames lines, n ∉ excluded) : ifaceLines excluded lines = lines := by
  have hx : ∀ x ∈ lines, isDeclLine x = true → extractTypeName x ∉ excluded := by
    intro x hx hd
    exact h _ (List.mem_map.2 ⟨x, List.mem_filter.2 ⟨hx, hd⟩, rfl⟩)
  obtain ⟨hk, hheld⟩ := ifaceKeeps_foldl excluded lines ifaceInit (ifaceKeeps_init excluded) hx
  have h0 : ifaceHeld ifaceInit ++ lines = lines := by simp [ifaceHeld, ifaceInit]
  rw [h0] at hheld
  rw [ifaceLines_eq]
  simp only
  cases hc : (lines.foldl (ifaceStep excluded) ifaceInit).current with
  | some cur =>
    have hn := hk.2 (by simp [hc])
    simp only [hn, if_false]
    simpa [ifaceHeld, hc] using hheld
  | none =>
    simpa [ifaceHeld, hc] using hheld

/-- C21 — the interface filter is the identity when nothing is excluded: for
every text and every exclusion set, empty or not, that holds the declared name
of none of the declaration lines of the text, `filterInterfaceTypes` returns the
text itself; and the loop, which the empty set bypasses, keeps every line of
the text. -/
theorem filterInterfaceTypes_identity (content : Str) (excluded : List Str)
    (h : ∀ n ∈ declNames (splitLines content), n ∉ excluded) :
    filterInterfaceTypes content excluded = content ∧
      ifaceLines excluded (splitLines content) = splitLines content := by
  have hl := ifaceLines_of_not_excluded excluded (splitLines content) h
  refine ⟨?_, hl⟩
  unfold filterInterfaceTypes
  by_cases he : excluded = []
  · simp [he]
  · simp only [he, if_false]
    rw [hl, joinLines_splitLines]

/-- C21 at the chain text, which declares `A`, `B`, `C` and `D`, with the
exclusion set of `Z` and `b`: no declared name is excluded, the set is not
empty, and the filter returns the text itself. -/
theorem filterInterfaceTypes_identity_witness :
    (∀ n ∈ declNames (splitLines rawChain), n ∉ excludedElsewhere) ∧
    excludedElsewhere ≠ [] ∧
    declNames (splitLines rawChain) = ["A".toList, "B".toList, "C".toList, "D".toList] ∧
    (filterInterfaceTypes rawChain excludedElsewhere = rawChain ∧
      ifaceLines excludedElsewhere (splitLines rawChain) = splitLines rawChain) :=
  ⟨by decide, by decide, by decide,
    filterInterfaceTypes_identity rawChain excludedElsewhere (by decide)⟩

/-! ## The one-argument entry point -/

/-- C22 — the one-argument entry point never succeeds: for every `pkgPath`,
whatever the file system and the engine would answer, `GenerateTypes(pkgPath)`
returns the empty output and the error `pkg-dir is required` and makes no call
at all, being `GenerateTypesWithOptions` at the options with `PkgPath` set and
every other field, `PkgDir` among them, empty. -/
theorem GenerateTypes_never_succeeds (w : World) (pkgPath : Str) :
    (GenerateTypes w pkgPath).err = some "pkg-dir is required".toList ∧
    (GenerateTypes w pkgPath).output = [] ∧
    (GenerateTypes w pkgPath).steps = [] ∧
    GenerateTypes w pkgPath =
      GenerateTypesWithOptions w
        { PkgPath := pkgPath, PkgDir := [], IncludePattern := [], IncludeType := [] } := by
  simp [GenerateTypes, GenerateTypesWithOptions, failWith]

end Typegen
